import Mathlib

/-!
# PerfDoc analysis core: stage dependency tracker, deferred usage ledger, image
usage and index-buffer scan

A shallow embedding of `layer/queue_tracker.cpp`, `layer/event.hpp`, the
deferred-function ledger, the stage-mask translation and the index scan of
`layer/commandbuffer.cpp`, and `Image::signalUsage` of `layer/image.cpp`,
followed by theorems about them.

Conventions of the embedding:
* `uint64_t` counters are natural numbers; the only arithmetic the tracker does
  on them is `index++`, which is `(index + 1) % 2^64`.
* C arrays indexed by a stage (`waitList[STAGE_COUNT]`) are functions on `Stage`.
* `for (unsigned i = 0; i < STAGE_COUNT; i++)` is a left fold over `allStages`.
* `queue.log(...)` appends a `LogMessage` to a list that the operation returns.
-/

namespace MPD

/-! ## Definitions: `queue_tracker.hpp` -/

/-- Enumerators `STAGE_COMPUTE = 0 .. STAGE_TRANSFER = 3` of `enum Stage`;
`STAGE_COUNT` is 4. -/
abbrev Stage := Fin 4

def STAGE_COUNT : Nat := 4
def STAGE_COMPUTE : Stage := 0
def STAGE_GEOMETRY : Stage := 1
def STAGE_FRAGMENT : Stage := 2
def STAGE_TRANSFER : Stage := 3

/-- The type `StageFlags` (`uint32_t` in the source): a bit mask of stages. -/
abbrev StageFlags := Nat

def STAGE_COMPUTE_BIT : StageFlags := 1 <<< 0
def STAGE_GEOMETRY_BIT : StageFlags := 1 <<< 1
def STAGE_FRAGMENT_BIT : StageFlags := 1 <<< 2
def STAGE_TRANSFER_BIT : StageFlags := 1 <<< 3
def STAGE_ALL_BITS : StageFlags :=
  STAGE_COMPUTE_BIT ||| STAGE_GEOMETRY_BIT ||| STAGE_FRAGMENT_BIT ||| STAGE_TRANSFER_BIT

/-- Number of values of a `uint64_t`. -/
def UINT64_RANGE : Nat := 2 ^ 64

/-- Loop order of `for (unsigned i = 0; i < STAGE_COUNT; i++)`. -/
def allStages : List Stage := [0, 1, 2, 3]

/-- The test `flags & (1u << stage)` used by every loop over a stage mask. -/
def hasStage (flags : StageFlags) (stage : Stage) : Bool :=
  flags &&& (1 <<< stage.val) != 0

/-- Record `QueueTracker::StageStatus`. -/
structure StageStatus where
  /-- Waits for work associated with an index to complete in other stages. -/
  waitList : Stage → Nat
  /-- The number of work items pushed to this pipeline stage so far. -/
  index : Nat
  /-- The index when this stage was last used as a dstStageMask. -/
  lastDstStageIndex : Stage → Nat

/-- The mutable part of `class QueueTracker`: `StageStatus stages[STAGE_COUNT]`. -/
structure QueueTracker where
  stages : Stage → StageStatus

/-- A freshly constructed tracker: every member is zero-initialised. -/
def QueueTracker.fresh : QueueTracker :=
  { stages := fun _ => { waitList := fun _ => 0, index := 0, lastDstStageIndex := fun _ => 0 } }

/-- One `MESSAGE_CODE_PIPELINE_BUBBLE` message passed to `queue.log`:
"Pipeline bubble detected in stage `blocked`. Work in stage `blocking` will block
execution in stage `blocked`." -/
structure LogMessage where
  blocked : Stage
  blocking : Stage
deriving DecidableEq, Repr

/-! ## Definitions: `queue_tracker.cpp` -/

/-- Body of the loop of `QueueTracker::pushWork` for one `i`: `true` when the
iteration reaches the `queue.log` call, `false` when it leaves through one of the
`continue`s or the final `if` fails. -/
def pushWorkLogs (t : QueueTracker) (dstStage i : Stage) : Bool :=
  if dstStage = i then false
  else if (t.stages dstStage).waitList i ≠ (t.stages i).index then false
  else if (t.stages dstStage).index = 0 then false
  else if ((1 <<< i.val) ||| (1 <<< dstStage.val)) = (STAGE_GEOMETRY_BIT ||| STAGE_COMPUTE_BIT) then false
  else decide ((t.stages i).waitList dstStage = (t.stages dstStage).index ∧
               (t.stages i).index ≠ (t.stages i).lastDstStageIndex dstStage)

/-- The statement `stages[dstStage].index++` on a `uint64_t`. -/
def incrementIndex (t : QueueTracker) (dstStage : Stage) : QueueTracker :=
  { stages := Function.update t.stages dstStage
      { t.stages dstStage with index := ((t.stages dstStage).index + 1) % UINT64_RANGE } }

/-- Method `QueueTracker::pushWork`: the messages logged, in order, and the tracker
after the call. The loop only reads the tracker; the increment follows it. -/
def pushWork (t : QueueTracker) (dstStage : Stage) : List LogMessage × QueueTracker :=
  (allStages.foldl
      (fun log i => if pushWorkLogs t dstStage i then log ++ [⟨dstStage, i⟩] else log) [],
   incrementIndex t dstStage)

/-- The two assignments shared by `barrier` and `waitEvent`:
`stages[dstStage].waitList[stage] = value;`
`stages[dstStage].lastDstStageIndex[stage] = stages[dstStage].index;`. -/
def latchWait (t : QueueTracker) (dstStage stage : Stage) (value : Nat) : QueueTracker :=
  { stages := Function.update t.stages dstStage
      { waitList := Function.update (t.stages dstStage).waitList stage value
        index := (t.stages dstStage).index
        lastDstStageIndex :=
          Function.update (t.stages dstStage).lastDstStageIndex stage (t.stages dstStage).index } }

/-- Body of the inner loop of `barrier` ("inherit dependencies from our srcStages"). -/
def barrierInherit (dstStage srcStage : Stage) (t : QueueTracker) (stage : Stage) : QueueTracker :=
  if (t.stages srcStage).waitList stage > (t.stages dstStage).waitList stage then
    latchWait t dstStage stage ((t.stages srcStage).waitList stage)
  else t

/-- Body of the outer loop of `barrier` for a `srcStage` whose bit is set. -/
def barrierFrom (dstStage : Stage) (t : QueueTracker) (srcStage : Stage) : QueueTracker :=
  let t1 :=
    if (t.stages srcStage).index > (t.stages dstStage).waitList srcStage then
      latchWait t dstStage srcStage (t.stages srcStage).index
    else t
  allStages.foldl (barrierInherit dstStage srcStage) t1

/-- Method `QueueTracker::barrier`. -/
def barrier (t : QueueTracker) (srcStages : StageFlags) (dstStage : Stage) : QueueTracker :=
  if srcStages = 0 then t
  else allStages.foldl
    (fun t srcStage => if hasStage srcStages srcStage then barrierFrom dstStage t srcStage else t) t

/-- Method `QueueTracker::pipelineBarrier`. -/
def pipelineBarrier (t : QueueTracker) (srcStages dstStages : StageFlags) : QueueTracker :=
  allStages.foldl
    (fun t i => if hasStage dstStages i then barrier t srcStages i else t) t

/-! ## Definitions: `event.hpp` -/

/-- The members of `class Event` the tracker uses: `waitList` and `signalled`. -/
structure Event where
  waitList : Stage → Nat
  signalled : Bool

/-- A newly created event: `waitList = {}`, `signalled = false`. -/
def Event.fresh : Event := { waitList := fun _ => 0, signalled := false }

/-- Accessor `Event::getSignalStatus`. -/
def Event.getSignalStatus (e : Event) : Bool := e.signalled

/-- Modelled from the spec: `Event::signal` is declared in `event.hpp` and defined in
`event.cpp`, which is not among the sources. The spec: an event "has a boolean
signalled state"; signalling sets it. -/
def Event.signal (e : Event) : Event := { e with signalled := true }

/-- Modelled from the spec: `Event::reset` is declared in `event.hpp` and defined in
`event.cpp`, which is not among the sources. The spec: "`reset()` clears signalled
flag (waitList contents become stale/unused)". -/
def Event.reset (e : Event) : Event := { e with signalled := false }

/-- Body of the loop of `signalEvent` for a `srcStage` whose bit is set; `waitList`
is the event's array being filled. -/
def signalFrom (t : QueueTracker) (waitList : Stage → Nat) (srcStage : Stage) : Stage → Nat :=
  let w1 := Function.update waitList srcStage (max (t.stages srcStage).index (waitList srcStage))
  allStages.foldl
    (fun w stage => Function.update w srcStage (max ((t.stages srcStage).waitList stage) (w srcStage)))
    w1

/-- Method `QueueTracker::signalEvent`. It changes the event only. The `memset`
clears `sizeof(STAGE_COUNT) * sizeof(uint64_t)` = 4 * 8 bytes, the whole array. -/
def signalEvent (t : QueueTracker) (event : Event) (srcStages : StageFlags) : Event :=
  if event.getSignalStatus then event
  else
    let cleared : Stage → Nat := fun _ => 0
    let waitList := allStages.foldl
      (fun w srcStage => if hasStage srcStages srcStage then signalFrom t w srcStage else w) cleared
    Event.signal { event with waitList := waitList }

/-- Body of the inner loop of `waitEvent` ("inherit dependencies from our events"). -/
def waitInherit (waitList : Stage → Nat) (dstStage : Stage) (t : QueueTracker) (stage : Stage) :
    QueueTracker :=
  if waitList stage > (t.stages dstStage).waitList stage then
    latchWait t dstStage stage (waitList stage)
  else t

/-- Method `QueueTracker::waitEvent`. -/
def waitEvent (t : QueueTracker) (event : Event) (dstStages : StageFlags) : QueueTracker :=
  if !event.getSignalStatus then t
  else allStages.foldl
    (fun t dstStage =>
      if hasStage dstStages dstStage then allStages.foldl (waitInherit event.waitList dstStage) t
      else t) t

/-! ## Definitions: `queue.hpp` and the calls made by deferred functions -/

/-- A `Queue`: its `queueTracker` and the messages its `log` has received so far. -/
structure Queue where
  queueTracker : QueueTracker
  log : List LogMessage

/-- The device objects that deferred functions act on: queues and events, by handle. -/
structure Env where
  queues : Nat → Queue
  events : Nat → Event

/-- Every queue has a fresh tracker and an empty log, every event is newly created. -/
def Env.fresh : Env :=
  { queues := fun _ => { queueTracker := QueueTracker.fresh, log := [] }
    events := fun _ => Event.fresh }

/-- Bodies of the closures that `dispatch.cpp` and `commandbuffer.cpp` enqueue for the
tracker: `pushWork`, `pipelineBarrier`, `CmdSetEvent`, `CmdWaitEvents`, `CmdResetEvent`
(stage masks already translated by `vkStagesToTracker`). -/
inductive TrackerCall where
  | pushWork (stage : Stage)
  | pipelineBarrier (srcStages dstStages : StageFlags)
  | signalEvent (event : Nat) (srcStages : StageFlags)
  | waitEvent (event : Nat) (dstStages : StageFlags)
  | resetEvent (event : Nat)

/-- Replace the tracker of queue `queue` and append `msgs` to its log. -/
def Env.setQueue (env : Env) (queue : Nat) (t : QueueTracker) (msgs : List LogMessage) : Env :=
  { queues := Function.update env.queues queue
      ⟨t, (env.queues queue).log ++ msgs⟩,
    events := env.events }

/-- Effect of one closure body when it is invoked with `Queue &queue`. -/
def TrackerCall.run (queue : Nat) (env : Env) : TrackerCall → Env
  | .pushWork stage =>
      env.setQueue queue (MPD.pushWork (env.queues queue).queueTracker stage).2
        (MPD.pushWork (env.queues queue).queueTracker stage).1
  | .pipelineBarrier src dst =>
      env.setQueue queue (MPD.pipelineBarrier (env.queues queue).queueTracker src dst) []
  | .signalEvent event src =>
      { queues := env.queues,
        events := Function.update env.events event
          (MPD.signalEvent (env.queues queue).queueTracker (env.events event) src) }
  | .waitEvent event dst =>
      env.setQueue queue (MPD.waitEvent (env.queues queue).queueTracker (env.events event) dst) []
  | .resetEvent event =>
      { queues := env.queues,
        events := Function.update env.events event (env.events event).reset }

/-! ## Definitions: the deferred-function ledger of `commandbuffer.cpp` -/

/-- An element of `std::vector<std::function<void(Queue &)>> deferredFunctions`.
`closure f` is any closure whose body touches no command buffer: `f queue` is its
effect on the device state. `executeCommandBuffer c` is the closure
`[commandBuffer](Queue &queue) { commandBuffer->callDeferredFunctions(queue); }`. -/
inductive DeferredFunction (σ : Type) where
  | closure (f : Nat → σ → σ)
  | executeCommandBuffer (commandBuffer : Nat)

/-- Device state `state` together with the ledger of every command buffer. -/
structure World (σ : Type) where
  state : σ
  deferredFunctions : Nat → List (DeferredFunction σ)

variable {σ : Type}

/-- Method `CommandBuffer::enqueueDeferredFunction`: `push_back`. -/
def enqueueDeferredFunction (w : World σ) (cb : Nat) (function : DeferredFunction σ) : World σ :=
  { w with deferredFunctions :=
      Function.update w.deferredFunctions cb (w.deferredFunctions cb ++ [function]) }

/-- Method `CommandBuffer::executeCommandBuffer`. -/
def executeCommandBuffer (w : World σ) (cb commandBuffer : Nat) : World σ :=
  enqueueDeferredFunction w cb (.executeCommandBuffer commandBuffer)

/-- The statement `deferredFunctions.clear()`, which is also what
`CommandBuffer::reset` does to the ledger. -/
def clearDeferredFunctions (w : World σ) (cb : Nat) : World σ :=
  { w with deferredFunctions := Function.update w.deferredFunctions cb [] }

/-- The call `func(queue)` for one element of the ledger; `call` is
`callDeferredFunctions`, used by the closure of `executeCommandBuffer`. -/
def invokeDeferred (call : World σ → Nat → Nat → Option (World σ)) (queue : Nat) (w : World σ) :
    DeferredFunction σ → Option (World σ)
  | .closure f => some { w with state := f queue w.state }
  | .executeCommandBuffer commandBuffer => call w commandBuffer queue

/-- Method `CommandBuffer::callDeferredFunctions` of command buffer `cb`. The
recursion through `executeCommandBuffer` closures is bounded by `fuel`; `none` means
the fuel ran out (in the source: the recursion does not return). -/
def callDeferredFunctions : Nat → World σ → Nat → Nat → Option (World σ)
  | 0, _, _, _ => none
  | fuel + 1, w, cb, queue =>
    ((w.deferredFunctions cb).foldlM (invokeDeferred (callDeferredFunctions fuel) queue) w).map
      (fun w1 => clearDeferredFunctions w1 cb)

/-- The loops of `QueueSubmit` in `dispatch.cpp`: every command buffer of every
submission, in order, replays its ledger against the queue. -/
def QueueSubmit (fuel : Nat) (w : World σ) (queue : Nat) (submits : List (List Nat)) :
    Option (World σ) :=
  submits.flatten.foldlM (fun w cb => callDeferredFunctions fuel w cb queue) w

/-- Static depth-first expansion of a list of deferred functions under the ledger
table `ledgers`: `Expansion ledgers fs ops used` says that replacing, recursively,
every `executeCommandBuffer c` by the contents of `ledgers c` turns `fs` into the
closure list `ops`, and that `used` lists the command buffers expanded on the way,
with repetitions. A derivation exists only when the nesting is finite. -/
inductive Expansion (ledgers : Nat → List (DeferredFunction σ)) :
    List (DeferredFunction σ) → List (Nat → σ → σ) → List Nat → Prop where
  | nil : Expansion ledgers [] [] []
  | closure {f fs ops used} :
      Expansion ledgers fs ops used → Expansion ledgers (.closure f :: fs) (f :: ops) used
  | execute {c fs ops1 used1 ops2 used2} :
      Expansion ledgers (ledgers c) ops1 used1 → Expansion ledgers fs ops2 used2 →
      Expansion ledgers (.executeCommandBuffer c :: fs) (ops1 ++ ops2) (c :: (used1 ++ used2))

/-! ## Definitions: concrete states used by the examples -/

/-- A tracker whose COMPUTE counter holds `UINT64_MAX`; everything else is zero. -/
def trackerAtMax : QueueTracker :=
  { stages := fun s =>
      { waitList := fun _ => 0
        index := if s = STAGE_COMPUTE then UINT64_RANGE - 1 else 0
        lastDstStageIndex := fun _ => 0 } }

/-- The tracker after `pushWork(GEOMETRY)` and then
`pipelineBarrier(GEOMETRY_BIT, COMPUTE_BIT)` on a fresh tracker: COMPUTE has no work
of its own and waits for GEOMETRY work 1. -/
def computeWaitsGeometry : QueueTracker :=
  pipelineBarrier (pushWork QueueTracker.fresh STAGE_GEOMETRY).2 STAGE_GEOMETRY_BIT STAGE_COMPUTE_BIT

/-- The call pattern of the fourth case of `testBarriers` in `tests/queue-test.cpp`, on a
fresh tracker and up to the point where the render pass pushes FRAGMENT work: FRAGMENT
work, a FRAGMENT -> TRANSFER barrier, TRANSFER work, a TRANSFER -> FRAGMENT barrier. -/
def transferRoundTrip : QueueTracker :=
  pipelineBarrier
    (pushWork
      (pipelineBarrier (pushWork QueueTracker.fresh STAGE_FRAGMENT).2
        STAGE_FRAGMENT_BIT STAGE_TRANSFER_BIT)
      STAGE_TRANSFER).2
    STAGE_TRANSFER_BIT STAGE_FRAGMENT_BIT

/-- Pointwise order on trackers: no `index` and no `waitList` entry of `t` is larger
than the corresponding one of `u`. -/
def QueueTracker.le (t u : QueueTracker) : Prop :=
  ∀ d : Stage, (t.stages d).index ≤ (u.stages d).index ∧
    ∀ s : Stage, (t.stages d).waitList s ≤ (u.stages d).waitList s


/-- A tracker call as an element of a ledger. -/
def TrackerCall.toDeferred (call : TrackerCall) : DeferredFunction Env :=
  .closure (fun queue env => call.run queue env)

/-- The world in which command buffer 0 has recorded one `pushWork(COMPUTE)` (as
`CmdDispatch` does) and all queues and events are fresh. -/
def oneDispatchWorld : World Env :=
  { state := Env.fresh
    deferredFunctions := fun cb =>
      if cb = 0 then [(TrackerCall.pushWork STAGE_COMPUTE).toDeferred] else [] }

/-- The world in which primary 0 executes secondary 1, secondary 1 executes command
buffer 2 twice, and command buffer 2 has recorded one `pushWork(COMPUTE)`. -/
def nestedTwiceWorld : World Env :=
  { state := Env.fresh
    deferredFunctions := fun cb =>
      if cb = 0 then [.executeCommandBuffer 1]
      else if cb = 1 then [.executeCommandBuffer 2, .executeCommandBuffer 2]
      else if cb = 2 then [(TrackerCall.pushWork STAGE_COMPUTE).toDeferred]
      else [] }

/-- The world in which primary 0 has recorded `pushWork(TRANSFER)`, the execution of
secondary 1 and `pushWork(FRAGMENT)`; secondary 1 has recorded `pushWork(COMPUTE)` and the
execution of command buffer 2, which has recorded `pushWork(GEOMETRY)`. -/
def nestedOnceWorld : World Env :=
  { state := Env.fresh
    deferredFunctions := fun cb =>
      if cb = 0 then [(TrackerCall.pushWork STAGE_TRANSFER).toDeferred, .executeCommandBuffer 1,
        (TrackerCall.pushWork STAGE_FRAGMENT).toDeferred]
      else if cb = 1 then [(TrackerCall.pushWork STAGE_COMPUTE).toDeferred, .executeCommandBuffer 2]
      else if cb = 2 then [(TrackerCall.pushWork STAGE_GEOMETRY).toDeferred]
      else [] }

/-- The device state after the closures `pushWork(GEOMETRY)`,
`pipelineBarrier(GEOMETRY_BIT, COMPUTE_BIT)`, `signalEvent(event 0, COMPUTE_BIT)` and
`waitEvent(event 0, FRAGMENT_BIT)` have run, in this order, with queue 0 on fresh queues
and events. -/
def eventAfterBarrierEnv : Env :=
  [TrackerCall.pushWork STAGE_GEOMETRY,
   TrackerCall.pipelineBarrier STAGE_GEOMETRY_BIT STAGE_COMPUTE_BIT,
   TrackerCall.signalEvent 0 STAGE_COMPUTE_BIT,
   TrackerCall.waitEvent 0 STAGE_FRAGMENT_BIT].foldl (fun env call => call.run 0 env) Env.fresh

/-- The `index` of every stage of the tracker of `queue`, in stage order. -/
def Env.indices (env : Env) (queue : Nat) : List Nat :=
  allStages.map (fun s => ((env.queues queue).queueTracker.stages s).index)


/-- The invariant of the data model: no stage waits for work that was not yet pushed,
`stages[d].waitList[s] <= stages[s].index` for all stages `d` and `s`. -/
def QueueTracker.WaitsBounded (t : QueueTracker) : Prop :=
  ∀ d s : Stage, (t.stages d).waitList s ≤ (t.stages s).index

/-! ## Definitions: `image.hpp` and `image.cpp` -/

/-- Enumeration `Image::Usage`. -/
inductive Usage where
  | Undefined
  | RenderPassCleared
  | RenderPassReadToTile
  | Cleared
  | ResourceRead
  | ResourceWrite
  | RenderPassStored
  | RenderPassDiscarded
deriving DecidableEq, Repr

/-- A message logged by `Image::signalUsage`, with the `arrayLayer` and `mipLevel` it
prints: `MESSAGE_CODE_REDUNDANT_RENDERPASS_STORE`, `MESSAGE_CODE_REDUNDANT_IMAGE_CLEAR`,
`MESSAGE_CODE_INEFFICIENT_CLEAR`. -/
inductive ImageMessage where
  | redundantRenderPassStore (arrayLayer mipLevel : Nat)
  | redundantImageClear (arrayLayer mipLevel : Nat)
  | inefficientClear (arrayLayer mipLevel : Nat)
deriving DecidableEq, Repr

/-- The members of `class Image` that `signalUsage` uses: `createInfo.arrayLayers`,
`createInfo.mipLevels`, `swapchainImage` and `arrayLayers[layer].mipLevels[mip].lastUsage`. -/
structure Image where
  arrayLayers : Nat
  mipLevels : Nat
  swapchainImage : Bool
  lastUsage : Nat → Nat → Usage

/-- The argument `VkImageSubresourceRange` (the aspect mask is not used). -/
structure VkImageSubresourceRange where
  baseMipLevel : Nat
  levelCount : Nat
  baseArrayLayer : Nat
  layerCount : Nat

/-- Number of values of a `uint32_t`. -/
def UINT32_RANGE : Nat := 2 ^ 32

/-- Method `Image::getLastUsage`; `none` when one of the two `MPD_ASSERT`s fails. -/
def Image.getLastUsage (img : Image) (arrayLayer mipLevel : Nat) : Option Usage :=
  if arrayLayer < img.arrayLayers ∧ mipLevel < img.mipLevels then
    some (img.lastUsage arrayLayer mipLevel)
  else none

/-- The messages of the `if` / `else if` chain of
`Image::signalUsage(uint32_t, uint32_t, Usage)`. -/
def signalUsageLog (swapchainImage : Bool) (oldUsage usage : Usage) (arrayLayer mipLevel : Nat) :
    List ImageMessage :=
  if usage = Usage.RenderPassCleared ∧ oldUsage = Usage.RenderPassStored ∧ !swapchainImage then
    [.redundantRenderPassStore arrayLayer mipLevel]
  else if usage = Usage.RenderPassCleared ∧ oldUsage = Usage.Cleared then
    [.redundantImageClear arrayLayer mipLevel]
  else if usage = Usage.RenderPassReadToTile ∧ oldUsage = Usage.Cleared then
    [.inefficientClear arrayLayer mipLevel]
  else []

/-- Method `Image::signalUsage(uint32_t arrayLayer, uint32_t mipLevel, Usage usage)`: the
messages logged and the image afterwards; `none` when an assertion of `getLastUsage` fails. -/
def Image.signalUsage (img : Image) (arrayLayer mipLevel : Nat) (usage : Usage) :
    Option (List ImageMessage × Image) :=
  match img.getLastUsage arrayLayer mipLevel with
  | none => none
  | some oldUsage =>
    some (signalUsageLog img.swapchainImage oldUsage usage arrayLayer mipLevel,
      { img with lastUsage := fun l m =>
          if l = arrayLayer ∧ m = mipLevel then usage else img.lastUsage l m })

/-- One step of the loops of the range overloads: the call
`signalUsage(arrayLayer, mipLevel, usage)` on the result so far. -/
def signalUsageStep (usage : Usage) (acc : Option (List ImageMessage × Image))
    (subresource : Nat × Nat) : Option (List ImageMessage × Image) :=
  match acc with
  | none => none
  | some (log, img) =>
    match img.signalUsage subresource.1 subresource.2 usage with
    | none => none
    | some (msgs, img1) => some (log ++ msgs, img1)

/-- Method `Image::signalUsage(const VkImageSubresourceRange &range, Usage usage)`. All
arithmetic is on `uint32_t`. The subresources are visited layer by layer, and for each
layer level by level. -/
def Image.signalUsageRange (img : Image) (range : VkImageSubresourceRange) (usage : Usage) :
    Option (List ImageMessage × Image) :=
  let maxLayers := (img.arrayLayers + UINT32_RANGE - range.baseArrayLayer) % UINT32_RANGE
  let arrayLayers := min range.layerCount maxLayers
  let maxLevels := (img.mipLevels + UINT32_RANGE - range.baseMipLevel) % UINT32_RANGE
  let mipLevels := min img.mipLevels maxLevels
  ((List.range arrayLayers).flatMap (fun arrayLayer =>
      (List.range mipLevels).map (fun mipLevel =>
        ((arrayLayer + range.baseArrayLayer) % UINT32_RANGE,
         (mipLevel + range.baseMipLevel) % UINT32_RANGE)))).foldl
    (signalUsageStep usage) (some ([], img))

/-- An image with one array layer and two mip levels, not a swapchain image, no
subresource used yet. -/
def twoLevelImage : Image :=
  { arrayLayers := 1, mipLevels := 2, swapchainImage := false,
    lastUsage := fun _ _ => Usage.Undefined }

/-! ## Definitions: stage masks (`vkStagesToTracker` and the recorded closures) -/

/-- Values of `VkPipelineStageFlagBits` from the Vulkan header `vulkan_core.h`, which is
not part of the repository. -/
def VK_PIPELINE_STAGE_TOP_OF_PIPE_BIT : Nat := 0x00000001
def VK_PIPELINE_STAGE_DRAW_INDIRECT_BIT : Nat := 0x00000002
def VK_PIPELINE_STAGE_VERTEX_INPUT_BIT : Nat := 0x00000004
def VK_PIPELINE_STAGE_VERTEX_SHADER_BIT : Nat := 0x00000008
def VK_PIPELINE_STAGE_TESSELLATION_CONTROL_SHADER_BIT : Nat := 0x00000010
def VK_PIPELINE_STAGE_TESSELLATION_EVALUATION_SHADER_BIT : Nat := 0x00000020
def VK_PIPELINE_STAGE_GEOMETRY_SHADER_BIT : Nat := 0x00000040
def VK_PIPELINE_STAGE_FRAGMENT_SHADER_BIT : Nat := 0x00000080
def VK_PIPELINE_STAGE_EARLY_FRAGMENT_TESTS_BIT : Nat := 0x00000100
def VK_PIPELINE_STAGE_LATE_FRAGMENT_TESTS_BIT : Nat := 0x00000200
def VK_PIPELINE_STAGE_COLOR_ATTACHMENT_OUTPUT_BIT : Nat := 0x00000400
def VK_PIPELINE_STAGE_COMPUTE_SHADER_BIT : Nat := 0x00000800
def VK_PIPELINE_STAGE_TRANSFER_BIT : Nat := 0x00001000
def VK_PIPELINE_STAGE_BOTTOM_OF_PIPE_BIT : Nat := 0x00002000
def VK_PIPELINE_STAGE_HOST_BIT : Nat := 0x00004000
def VK_PIPELINE_STAGE_ALL_GRAPHICS_BIT : Nat := 0x00008000
def VK_PIPELINE_STAGE_ALL_COMMANDS_BIT : Nat := 0x00010000

/-- The statement `if (stages & mask) flags |= bits;`. -/
def orIfAny (stages mask : Nat) (bits : StageFlags) (flags : StageFlags) : StageFlags :=
  if stages &&& mask ≠ 0 then flags ||| bits else flags

/-- Function `CommandBuffer::vkStagesToTracker`. -/
def vkStagesToTracker (stages : Nat) : StageFlags :=
  let flags : StageFlags := 0
  let flags := orIfAny stages
    (VK_PIPELINE_STAGE_FRAGMENT_SHADER_BIT ||| VK_PIPELINE_STAGE_EARLY_FRAGMENT_TESTS_BIT |||
      VK_PIPELINE_STAGE_LATE_FRAGMENT_TESTS_BIT ||| VK_PIPELINE_STAGE_COLOR_ATTACHMENT_OUTPUT_BIT)
    STAGE_FRAGMENT_BIT flags
  let flags := orIfAny stages
    (VK_PIPELINE_STAGE_DRAW_INDIRECT_BIT ||| VK_PIPELINE_STAGE_VERTEX_INPUT_BIT |||
      VK_PIPELINE_STAGE_VERTEX_SHADER_BIT ||| VK_PIPELINE_STAGE_GEOMETRY_SHADER_BIT |||
      VK_PIPELINE_STAGE_TESSELLATION_CONTROL_SHADER_BIT |||
      VK_PIPELINE_STAGE_TESSELLATION_EVALUATION_SHADER_BIT)
    STAGE_GEOMETRY_BIT flags
  let flags := orIfAny stages VK_PIPELINE_STAGE_TRANSFER_BIT STAGE_TRANSFER_BIT flags
  let flags := orIfAny stages VK_PIPELINE_STAGE_COMPUTE_SHADER_BIT STAGE_COMPUTE_BIT flags
  let flags := orIfAny stages VK_PIPELINE_STAGE_ALL_COMMANDS_BIT STAGE_ALL_BITS flags
  let flags := orIfAny stages VK_PIPELINE_STAGE_ALL_GRAPHICS_BIT
    (STAGE_GEOMETRY_BIT ||| STAGE_FRAGMENT_BIT) flags
  flags

/-- The statement `if (src & VK_PIPELINE_STAGE_BOTTOM_OF_PIPE_BIT) src |= ..ALL_COMMANDS_BIT;`
of the recorded closures. -/
def normalizeSrc (src : Nat) : Nat :=
  if src &&& VK_PIPELINE_STAGE_BOTTOM_OF_PIPE_BIT ≠ 0 then src ||| VK_PIPELINE_STAGE_ALL_COMMANDS_BIT
  else src

/-- The statement `if (dst & VK_PIPELINE_STAGE_TOP_OF_PIPE_BIT) dst |= ..ALL_COMMANDS_BIT;`
of the recorded closures. -/
def normalizeDst (dst : Nat) : Nat :=
  if dst &&& VK_PIPELINE_STAGE_TOP_OF_PIPE_BIT ≠ 0 then dst ||| VK_PIPELINE_STAGE_ALL_COMMANDS_BIT
  else dst

/-- The closure that `CommandBuffer::pipelineBarrier` enqueues when no render pass is
current: the tracker call it makes when replayed. -/
def recordedPipelineBarrier (srcStageMask dstStageMask : Nat) : TrackerCall :=
  .pipelineBarrier (vkStagesToTracker (normalizeSrc srcStageMask))
    (vkStagesToTracker (normalizeDst dstStageMask))

/-- The ledger entries that `CommandBuffer::pipelineBarrier` appends: none inside a render
pass (`if (currentRenderPass) return;`), one closure otherwise. -/
def CommandBuffer.pipelineBarrier (inRenderPass : Bool) (srcStageMask dstStageMask : Nat) :
    List TrackerCall :=
  if inRenderPass then [] else [recordedPipelineBarrier srcStageMask dstStageMask]

/-- The closure that `CmdSetEvent` enqueues: the tracker call it makes when replayed. -/
def CmdSetEvent (event stageMask : Nat) : TrackerCall :=
  .signalEvent event (vkStagesToTracker (normalizeSrc stageMask))

/-- The closures that `CmdWaitEvents` enqueues, one per event; the source stage mask of the
command is an unnamed, unused parameter. -/
def CmdWaitEvents (events : List Nat) (_srcStageMask dstStageMask : Nat) : List TrackerCall :=
  events.map (fun event => .waitEvent event (vkStagesToTracker (normalizeDst dstStageMask)))

/-- The queues after two `pushWork(FRAGMENT)` on fresh queues and events. -/
def twoFragmentWorks : Env :=
  [TrackerCall.pushWork STAGE_FRAGMENT, TrackerCall.pushWork STAGE_FRAGMENT].foldl
    (fun env call => call.run 0 env) Env.fresh

/-- The self-dependency of FRAGMENT through TRANSFER written with events 0 and 1, as in the
event case of `tests/queue-test.cpp`. -/
def eventRoundTrip : List TrackerCall :=
  [.signalEvent 0 STAGE_FRAGMENT_BIT, .waitEvent 0 STAGE_TRANSFER_BIT,
   .pushWork STAGE_TRANSFER,
   .signalEvent 1 STAGE_TRANSFER_BIT, .waitEvent 1 STAGE_FRAGMENT_BIT,
   .pushWork STAGE_FRAGMENT]

/-- The same self-dependency written with pipeline barriers. -/
def barrierRoundTrip : List TrackerCall :=
  [.pipelineBarrier STAGE_FRAGMENT_BIT STAGE_TRANSFER_BIT,
   .pushWork STAGE_TRANSFER,
   .pipelineBarrier STAGE_TRANSFER_BIT STAGE_FRAGMENT_BIT,
   .pushWork STAGE_FRAGMENT]

/-! ## Definitions: the index-buffer scan of `commandbuffer.cpp` -/

/-- The floating-point operations that `scanIndices` uses, left abstract: `F32` is `float`,
`F64` is `double` (the type of the thresholds), `ofUInt32` the conversion `float(x)` of a
`uint32_t`, `div` the division of two `float`s, `lt` and `le` the comparisons `a < b` and
`a <= b` of a `float` with a `double`. -/
structure FloatOps where
  F32 : Type
  F64 : Type
  ofUInt32 : Nat → F32
  div : F32 → F32 → F32
  lt : F32 → F64 → Bool
  le : F32 → F64 → Bool

/-- Exact fractions as an instance of `FloatOps`: a pair `(a, b)` stands for `a / b`;
quotients are reduced to lowest terms. -/
def exactFractions : FloatOps :=
  { F32 := Nat × Nat
    F64 := Nat × Nat
    ofUInt32 := fun x => (x, 1)
    div := fun a b =>
      ((a.1 * b.2) / Nat.gcd (a.1 * b.2) (a.2 * b.1), (a.2 * b.1) / Nat.gcd (a.1 * b.2) (a.2 * b.1))
    lt := fun a b => decide (a.1 * b.2 < b.1 * a.2)
    le := fun a b => decide (a.1 * b.2 ≤ b.1 * a.2) }

/-- The options of `class Config` that `scanIndices` reads. -/
structure Config (fm : FloatOps) where
  /-- Size of the post-transform cache, a `uint64_t`. -/
  indexBufferVertexPostTransformCache : Nat
  indexBufferUtilizationThreshold : fm.F64
  indexBufferCacheHitThreshold : fm.F64

/-- Record `CommandBuffer::CacheEntry`. -/
structure CacheEntry where
  value : Nat
  age : Nat
deriving DecidableEq, Repr

/-- The member `std::vector<CacheEntry> cacheEntries`: its size and its elements. -/
structure CacheVector where
  size : Nat
  data : Nat → CacheEntry

/-- A command buffer that has not scanned yet: the vector is empty. -/
def CacheVector.empty : CacheVector := { size := 0, data := fun _ => ⟨0, 0⟩ }

/-- Method `std::vector::resize(n)`: elements below the old size are kept, new elements are
value-initialised. -/
def CacheVector.resize (v : CacheVector) (n : Nat) : CacheVector :=
  { size := n, data := fun i => if i < min v.size n then v.data i else ⟨0, 0⟩ }

/-- The `for` loop of `testCache` over the indices `i` still to visit, with the current
`lru`: the index of the first entry holding `value`, if there is one, and the final `lru`. -/
def testCacheLoop (value : Nat) (cacheEntries : Nat → CacheEntry) :
    List Nat → Nat → Option Nat × Nat
  | [], lru => (none, lru)
  | i :: rest, lru =>
    if (cacheEntries i).value = value then (some i, lru)
    else testCacheLoop value cacheEntries rest
      (if (cacheEntries i).age < (cacheEntries lru).age then i else lru)

/-- Function `CommandBuffer::testCache`: the result and the array afterwards; `none` when
`MPD_ASSERT(lru < cacheSize)` fails. -/
def testCache (value iteration : Nat) (cacheEntries : Nat → CacheEntry) (cacheSize : Nat) :
    Option (Bool × (Nat → CacheEntry)) :=
  match testCacheLoop value cacheEntries (List.range (min iteration cacheSize)) 0 with
  | (some i, _) =>
    some (true, Function.update cacheEntries i ⟨(cacheEntries i).value, iteration⟩)
  | (none, lru) =>
    if iteration < cacheSize then
      some (false, Function.update cacheEntries iteration ⟨value, iteration⟩)
    else if lru < cacheSize then
      some (false, Function.update cacheEntries lru ⟨value, iteration⟩)
    else none

/-- The two index types that `scanIndices` distinguishes. -/
inductive VkIndexType where
  | UINT16
  | UINT32
deriving DecidableEq, Repr

/-- The local `scanStride`: `sizeof(uint16_t)` or `sizeof(uint32_t)`. -/
def scanStride : VkIndexType → Nat
  | .UINT16 => 2
  | .UINT32 => 4

/-- The local `primitiveRestartValue`. -/
def primitiveRestartValue : VkIndexType → Nat
  | .UINT16 => 0xFFFF
  | .UINT32 => 0xFFFFFFFF

/-- The read `*(uint16_t *)scanPtr` or `*(uint32_t *)scanPtr`. The mapped memory is given
as `indexData`, where `indexData p` is the number stored at byte offset
`getMemoryOffset() + indexOffset + scanStride * p`. -/
def readIndex (indexType : VkIndexType) (indexData : Nat → Nat) (position : Nat) : Nat :=
  indexData position % 2 ^ (8 * scanStride indexType)

/-- Position of the first element read: `scanStride * firstIndex` is a product of two
`uint32_t`. -/
def scanFirst (indexType : VkIndexType) (firstIndex : Nat) : Nat :=
  (scanStride indexType * firstIndex % UINT32_RANGE) / scanStride indexType

/-- Number of elements between `scanBegin` and `scanEnd`: `indexCount * scanStride` is a
product of two `uint32_t`. -/
def scanCount (indexType : VkIndexType) (indexCount : Nat) : Nat :=
  (indexCount * scanStride indexType % UINT32_RANGE) / scanStride indexType

/-- The values `scanValue` that each of the two `while (scanPtr != scanEnd)` loops reads,
in order. -/
def scannedValues (indexType : VkIndexType) (indexData : Nat → Nat) (indexCount firstIndex : Nat) :
    List Nat :=
  (List.range (scanCount indexType indexCount)).map
    (fun k => readIndex indexType indexData (scanFirst indexType firstIndex + k))

/-- The locals of the first loop of `scanIndices` and the cache array. -/
structure ScanState where
  minValue : Nat
  maxValue : Nat
  iteration : Nat
  vertexShadeCount : Nat
  cacheEntries : Nat → CacheEntry

/-- The test `!primitiveRestart || scanValue != primitiveRestartValue`. -/
def isScanned (primitiveRestart : Bool) (restartValue scanValue : Nat) : Bool :=
  !primitiveRestart || scanValue != restartValue

/-- Body of the first loop of `scanIndices` ("get min/max range") for one `scanValue`.
The counters `iteration` and `vertexShadeCount` are `uint32_t`; they count elements read,
of which there are fewer than 2^31, so the increments cannot wrap. -/
def scanStep (primitiveRestart : Bool) (restartValue cacheSize : Nat) (st : Option ScanState)
    (scanValue : Nat) : Option ScanState :=
  match st with
  | none => none
  | some s =>
    if isScanned primitiveRestart restartValue scanValue then
      match testCache scanValue s.iteration s.cacheEntries cacheSize with
      | none => none
      | some (hit, entries) =>
        some { minValue := min s.minValue scanValue
               maxValue := max s.maxValue scanValue
               iteration := s.iteration + 1
               vertexShadeCount := if hit then s.vertexShadeCount else s.vertexShadeCount + 1
               cacheEntries := entries }
    else some s

/-- The first loop of `scanIndices` on the values read, from `minValue = ~0u`,
`maxValue = 0`, `iteration = 0`, `vertexShadeCount = 0`. The argument `cacheSize` of
`testCache` is a `uint32_t`, the vector's size is converted to it. -/
def scanFirstPass (primitiveRestart : Bool) (restartValue : Nat) (cache : CacheVector)
    (values : List Nat) : Option ScanState :=
  values.foldl (scanStep primitiveRestart restartValue (cache.size % UINT32_RANGE))
    (some { minValue := UINT32_RANGE - 1, maxValue := 0, iteration := 0, vertexShadeCount := 0,
            cacheEntries := cache.data })

/-- The locals `buckets` (with its size) and `fragmentation` of the second loop. -/
structure OccupancyState where
  buckets : Nat → Nat
  fragmentation : List Bool

/-- Body of the second loop of `scanIndices` for one `scanValue`; `none` when
`buckets[index]` is out of bounds. All arithmetic is on `uint32_t`. -/
def occupancyStep (primitiveRestart : Bool) (restartValue minValue maxValue numBuckets : Nat)
    (st : Option OccupancyState) (scanValue : Nat) : Option OccupancyState :=
  match st with
  | none => none
  | some s =>
    if isScanned primitiveRestart restartValue scanValue then
      let offset := (scanValue + UINT32_RANGE - minValue) % UINT32_RANGE
      let index := offset / 64
      let bit := 1 <<< (offset &&& 63)
      let fragIndex := (offset * 16 % UINT32_RANGE) /
        ((maxValue - minValue + 1) % UINT32_RANGE)
      if index < numBuckets then
        some { buckets := Function.update s.buckets index (s.buckets index ||| bit)
               fragmentation := s.fragmentation.set fragIndex true }
      else none
    else some s

/-- The function `__builtin_popcountll` on a 64-bit word. -/
def popcount64 (word : Nat) : Nat :=
  (List.range 64).countP (fun j => word.testBit j)

/-- The local `verticesReferenced`: the sum of the population counts of the buckets. -/
def verticesReferenced (buckets : Nat → Nat) (numBuckets : Nat) : Nat :=
  ((List.range numBuckets).map (fun i => popcount64 (buckets i))).sum

/-- A message that `scanIndices` logs on the buffer. `sparseRange` is the
`MESSAGE_CODE_INDEX_BUFFER_SPARSE` message of the early exit, with the two numbers it
prints; `sparseFragmented` is the `MESSAGE_CODE_INDEX_BUFFER_SPARSE` message with the
16-slot fragmentation map; `cacheThrashing` is `MESSAGE_CODE_INDEX_BUFFER_CACHE_THRASHING`,
recorded with the two counters whose quotient it prints as a percentage. -/
inductive ScanMessage where
  | sparseRange (indexCount range : Nat)
  | sparseFragmented (fragmentation : List Bool)
  | cacheThrashing (verticesReferenced vertexShadeCount : Nat)
deriving DecidableEq, Repr

/-- Whether the message has code `MESSAGE_CODE_INDEX_BUFFER_SPARSE`. -/
def ScanMessage.isSparse : ScanMessage → Bool
  | .sparseRange _ _ => true
  | .sparseFragmented _ => true
  | .cacheThrashing _ _ => false

/-- The part of `scanIndices` after the first loop: the messages logged; `none` when a
bucket access is out of bounds. -/
def scanReport (fm : FloatOps) (cfg : Config fm) (primitiveRestart : Bool) (restartValue : Nat)
    (indexCount : Nat) (values : List Nat) (st : ScanState) : Option (List ScanMessage) :=
  if st.maxValue < st.minValue then some []
  else if st.maxValue - st.minValue ≥ indexCount then
    some [.sparseRange indexCount ((st.maxValue - st.minValue + 1) % UINT32_RANGE)]
  else
    let range := (st.maxValue - st.minValue + 1) % UINT32_RANGE
    let numBuckets := ((range + 63) % UINT32_RANGE) / 64
    match values.foldl
        (occupancyStep primitiveRestart restartValue st.minValue st.maxValue numBuckets)
        (some { buckets := fun _ => 0, fragmentation := List.replicate 16 false }) with
    | none => none
    | some occ =>
      let referenced := verticesReferenced occ.buckets numBuckets
      let utilization := fm.div (fm.ofUInt32 referenced) (fm.ofUInt32 range)
      let cacheHitRate := fm.div (fm.ofUInt32 referenced) (fm.ofUInt32 st.vertexShadeCount)
      some ((if fm.lt utilization cfg.indexBufferUtilizationThreshold then
              [ScanMessage.sparseFragmented occ.fragmentation] else []) ++
            (if fm.le cacheHitRate cfg.indexBufferCacheHitThreshold then
              [ScanMessage.cacheThrashing referenced st.vertexShadeCount] else []))

/-- Method `CommandBuffer::scanIndices`: the messages logged on the buffer and the member
`cacheEntries` afterwards. `indexData` is `none` when the memory is not mapped. The result
is `none` when an assertion fails or a bucket access is out of bounds. -/
def scanIndices (fm : FloatOps) (cfg : Config fm) (cacheEntries : CacheVector)
    (indexData : Option (Nat → Nat)) (indexType : VkIndexType) (indexCount firstIndex : Nat)
    (primitiveRestart : Bool) : Option (List ScanMessage × CacheVector) :=
  match indexData with
  | none => some ([], cacheEntries)
  | some data =>
    let cache := cacheEntries.resize cfg.indexBufferVertexPostTransformCache
    let values := scannedValues indexType data indexCount firstIndex
    match scanFirstPass primitiveRestart (primitiveRestartValue indexType) cache values with
    | none => none
    | some st =>
      match scanReport fm cfg primitiveRestart (primitiveRestartValue indexType) indexCount
          values st with
      | none => none
      | some log => some (log, { size := cache.size, data := st.cacheEntries })

/-- The default configuration of `config.hpp`: a cache of 32 entries and both thresholds
0.5, with exact fractions for the floating-point numbers. -/
def defaultConfig : Config exactFractions :=
  { indexBufferVertexPostTransformCache := 32
    indexBufferUtilizationThreshold := (1, 2)
    indexBufferCacheHitThreshold := (1, 2) }

/-- The default configuration with a cache of two entries. -/
def twoEntryConfig : Config exactFractions :=
  { indexBufferVertexPostTransformCache := 2
    indexBufferUtilizationThreshold := (1, 2)
    indexBufferCacheHitThreshold := (1, 2) }

/-- The default configuration with a cache of 2^32 entries. -/
def hugeCacheConfig : Config exactFractions :=
  { indexBufferVertexPostTransformCache := 2 ^ 32
    indexBufferUtilizationThreshold := (1, 2)
    indexBufferCacheHitThreshold := (1, 2) }

/-- Index memory holding 0, 2, 2, 2, ... -/
def indicesZeroThenTwos : Nat → Nat := fun p => if p = 0 then 0 else 2

/-- Index memory holding 0, 0, 1, 0, 1, 0, 0, ... -/
def indicesZeroZeroOne : Nat → Nat := fun p => if p = 2 ∨ p = 4 then 1 else 0

/-- Index memory in which every position holds its own number: 0, 1, 2, ... -/
def indicesAscending : Nat → Nat := fun p => p

/-- Index memory holding 0, 1, ..., `n - 2` and then the value 0xFFFF at position `n - 1`. -/
def indicesWithSentinel (n : Nat) : Nat → Nat := fun p => if p = n - 1 then 0xFFFF else p

/-- Index memory holding the block 0, 1, ..., `k - 1` again and again. -/
def indicesBlocks (k : Nat) : Nat → Nat := fun p => p % k

/-- Index memory holding every value `reuse` times in a row: position `j * reuse + i`
holds `j`. -/
def indicesRuns (reuse : Nat) : Nat → Nat := fun p => p / reuse

/-- The default configuration with a cache of one entry. -/
def oneEntryConfig : Config exactFractions :=
  { indexBufferVertexPostTransformCache := 1
    indexBufferUtilizationThreshold := (1, 2)
    indexBufferCacheHitThreshold := (1, 2) }

/-- The value `v` is in the part of the cache array that the next call of `testCache`
searches: one of the first `min(iteration, cacheSize)` entries holds it. -/
def cacheHolds (cacheSize : Nat) (s : ScanState) (v : Nat) : Prop :=
  ∃ i, i < min s.iteration cacheSize ∧ (s.cacheEntries i).value = v

/-- The state of the searched part of the cache while blocks `0, ..., K-1` are scanned with
a cache of `cacheSize < K` entries: each searched entry holds the value of the iteration
that wrote it, that iteration is one of the last `cacheSize`, no two entries were written
by the same iteration, and while the cache fills entry `i` was written by iteration `i`. -/
def BlockInvariant (K cacheSize : Nat) (s : ScanState) : Prop :=
  (∀ i, i < min s.iteration cacheSize →
    (s.cacheEntries i).value = (s.cacheEntries i).age % K ∧
    (s.cacheEntries i).age < s.iteration ∧
    s.iteration ≤ (s.cacheEntries i).age + cacheSize) ∧
  (∀ i j, i < min s.iteration cacheSize → j < min s.iteration cacheSize →
    (s.cacheEntries i).age = (s.cacheEntries j).age → i = j) ∧
  (s.iteration ≤ cacheSize → ∀ i, i < s.iteration → (s.cacheEntries i).age = i)

/-- The tracker states reachable from a fresh tracker by `pushWork` and `pipelineBarrier`
calls. -/
inductive Reachable : QueueTracker → Prop where
  | fresh : Reachable QueueTracker.fresh
  | pushWork (t : QueueTracker) (dstStage : Stage) :
      Reachable t → Reachable (MPD.pushWork t dstStage).2
  | pipelineBarrier (t : QueueTracker) (srcStages dstStages : StageFlags) :
      Reachable t → Reachable (MPD.pipelineBarrier t srcStages dstStages)

/-- The tracker after `pushWork(TRANSFER)`, `pipelineBarrier(TRANSFER_BIT, FRAGMENT_BIT)`
and `pushWork(FRAGMENT)` on a fresh tracker: FRAGMENT has pushed work 1 and waits for
TRANSFER work 1. -/
def fragmentWaitsTransfer : QueueTracker :=
  (pushWork
    (pipelineBarrier (pushWork QueueTracker.fresh STAGE_TRANSFER).2
      STAGE_TRANSFER_BIT STAGE_FRAGMENT_BIT)
    STAGE_FRAGMENT).2

/-- The tracker `fragmentWaitsTransfer` after 2^64 - 2 further `pushWork(TRANSFER)`: the
TRANSFER counter holds `UINT64_MAX`. -/
def transferNearWrap : QueueTracker :=
  { stages := Function.update fragmentWaitsTransfer.stages STAGE_TRANSFER
      { fragmentWaitsTransfer.stages STAGE_TRANSFER with index := UINT64_RANGE - 1 } }

/-- A cache array in which slot `i` holds the value `i` with age `3 - i`. -/
def descendingAges : Nat → CacheEntry := fun i => ⟨i, 3 - i⟩

/-- Index memory holding 1, 1, 0, 0, 0, ... -/
def indicesOneOneZero : Nat → Nat := fun p => if p < 2 then 1 else 0

/-- A configuration with a cache of two entries, utilization threshold 0.5 and a cache-hit
threshold of 2. -/
def thresholdTwoConfig : Config exactFractions :=
  { indexBufferVertexPostTransformCache := 2
    indexBufferUtilizationThreshold := (1, 2)
    indexBufferCacheHitThreshold := (2, 1) }

/-- Index memory holding 0 and then 0xFFFFFFFE at every further position. -/
def indicesZeroThenTop : Nat → Nat := fun p => if p = 0 then 0 else 0xFFFFFFFE

/-- The part of `scanIndices` after the two early exits: the second loop over the indices
and the two messages that depend on it; `none` when a bucket access is out of bounds. -/
def occupancyReport (fm : FloatOps) (cfg : Config fm) (primitiveRestart : Bool)
    (restartValue : Nat) (values : List Nat) (st : ScanState) : Option (List ScanMessage) :=
  let range := (st.maxValue - st.minValue + 1) % UINT32_RANGE
  let numBuckets := ((range + 63) % UINT32_RANGE) / 64
  match values.foldl
      (occupancyStep primitiveRestart restartValue st.minValue st.maxValue numBuckets)
      (some { buckets := fun _ => 0, fragmentation := List.replicate 16 false }) with
  | none => none
  | some occ =>
    let referenced := verticesReferenced occ.buckets numBuckets
    let utilization := fm.div (fm.ofUInt32 referenced) (fm.ofUInt32 range)
    let cacheHitRate := fm.div (fm.ofUInt32 referenced) (fm.ofUInt32 st.vertexShadeCount)
    some ((if fm.lt utilization cfg.indexBufferUtilizationThreshold then
            [ScanMessage.sparseFragmented occ.fragmentation] else []) ++
          (if fm.le cacheHitRate cfg.indexBufferCacheHitThreshold then
            [ScanMessage.cacheThrashing referenced st.vertexShadeCount] else []))

/-- Successive calls of `enqueueDeferredFunction` on command buffer `cb`, one for each of
the closures `gs`, in order; the closures touch no command buffer. -/
def enqueueClosures (w : World σ) (cb : Nat) (gs : List (Nat → σ → σ)) : World σ :=
  gs.foldl (fun w g => enqueueDeferredFunction w cb (.closure g)) w

/-! ## Theorems: `pushWork` -/

theorem exempt_pair_iff (i d : Stage) :
    ((1 <<< i.val) ||| (1 <<< d.val)) = (STAGE_GEOMETRY_BIT ||| STAGE_COMPUTE_BIT) ↔
      ((i = STAGE_GEOMETRY ∧ d = STAGE_COMPUTE) ∨ (i = STAGE_COMPUTE ∧ d = STAGE_GEOMETRY)) := by
  revert i d
  decide

theorem pushWorkLogs_iff (t : QueueTracker) (d i : Stage) :
    pushWorkLogs t d i = true ↔
      (i ≠ d ∧ (t.stages d).waitList i = (t.stages i).index ∧ (t.stages d).index ≠ 0 ∧
        ¬ ((i = STAGE_GEOMETRY ∧ d = STAGE_COMPUTE) ∨ (i = STAGE_COMPUTE ∧ d = STAGE_GEOMETRY)) ∧
        (t.stages i).waitList d = (t.stages d).index ∧
        (t.stages i).index ≠ (t.stages i).lastDstStageIndex d) := by
  unfold pushWorkLogs
  rw [← exempt_pair_iff]
  by_cases h1 : d = i
  · simp [h1]
  · have h1' : i ≠ d := fun h => h1 h.symm
    by_cases h2 : (t.stages d).waitList i = (t.stages i).index
    · by_cases h3 : (t.stages d).index = 0
      · simp [h1, h2, h3]
      · by_cases h4 : ((1 <<< i.val) ||| (1 <<< d.val)) = (STAGE_GEOMETRY_BIT ||| STAGE_COMPUTE_BIT)
        · simp [h1, h2, h3, h4]
        · simp [h1, h1', h2, h3, h4]
    · simp [h1, h2]

theorem foldl_append_filter {α β : Type} (p : α → Bool) (f : α → β) (l : List α) (acc : List β) :
    l.foldl (fun log i => if p i then log ++ [f i] else log) acc = acc ++ (l.filter p).map f := by
  induction l generalizing acc with
  | nil => simp
  | cons a l ih =>
    simp only [List.foldl_cons, ih]
    cases h : p a <;> simp [List.filter, h]

theorem pushWork_log_eq (t : QueueTracker) (d : Stage) :
    (pushWork t d).1 = (allStages.filter (pushWorkLogs t d)).map (fun i => (⟨d, i⟩ : LogMessage)) := by
  simp only [pushWork]
  rw [foldl_append_filter (pushWorkLogs t d) (fun i => (⟨d, i⟩ : LogMessage))]
  simp

theorem allStages_nodup : allStages.Nodup := by decide

theorem pushWork_log_nodup (t : QueueTracker) (d : Stage) : (pushWork t d).1.Nodup := by
  rw [pushWork_log_eq]
  refine List.Nodup.map ?_ (allStages_nodup.filter _)
  intro a b h
  simpa using h

theorem mem_allStages (i : Stage) : i ∈ allStages := by
  revert i
  decide

theorem mem_pushWork_log (t : QueueTracker) (d : Stage) (m : LogMessage) :
    m ∈ (pushWork t d).1 ↔ m.blocked = d ∧ pushWorkLogs t d m.blocking = true := by
  rw [pushWork_log_eq]
  simp only [List.mem_map, List.mem_filter]
  constructor
  · rintro ⟨i, ⟨_, hi⟩, rfl⟩
    exact ⟨rfl, hi⟩
  · rintro ⟨h1, h2⟩
    refine ⟨m.blocking, ⟨mem_allStages _, h2⟩, ?_⟩
    cases m
    simp_all

/-- C1: `pushWork(d)` logs a bubble message naming `i` as the blocking stage and `d`
as the blocked stage if and only if `i ≠ d` and conditions (a)-(d) hold in the state
before the call; every message it logs has `d` as its blocked stage and occurs exactly
once in the log. -/
theorem pushWork_logs_bubble_iff (t : QueueTracker) (d : Stage) :
    (∀ i : Stage, (⟨d, i⟩ : LogMessage) ∈ (pushWork t d).1 ↔
      (i ≠ d ∧ (t.stages d).waitList i = (t.stages i).index ∧ (t.stages d).index ≠ 0 ∧
        ¬ ((i = STAGE_GEOMETRY ∧ d = STAGE_COMPUTE) ∨ (i = STAGE_COMPUTE ∧ d = STAGE_GEOMETRY)) ∧
        (t.stages i).waitList d = (t.stages d).index ∧
        (t.stages i).index ≠ (t.stages i).lastDstStageIndex d)) ∧
    (∀ m ∈ (pushWork t d).1, m.blocked = d ∧ (pushWork t d).1.count m = 1) := by
  constructor
  · intro i
    rw [mem_pushWork_log, ← pushWorkLogs_iff]
    simp
  · intro m hm
    exact ⟨((mem_pushWork_log t d m).1 hm).1, List.count_eq_one_of_mem (pushWork_log_nodup t d) hm⟩


/-- C1 (example): after the round trip through TRANSFER of `tests/queue-test.cpp`,
`pushWork(FRAGMENT)` logs the bubble that names TRANSFER as the blocking stage. -/
theorem pushWork_logs_bubble_iff_witness :
    (⟨STAGE_FRAGMENT, STAGE_TRANSFER⟩ : LogMessage) ∈ (pushWork transferRoundTrip STAGE_FRAGMENT).1 :=
  ((pushWork_logs_bubble_iff transferRoundTrip STAGE_FRAGMENT).1 STAGE_TRANSFER).2 (by decide)

/-- C2: for every tracker state, hence in every state reachable from a fresh tracker,
`pushWork(GEOMETRY)` logs no bubble naming COMPUTE as the blocking stage and
`pushWork(COMPUTE)` logs no bubble naming GEOMETRY as the blocking stage. -/
theorem pushWork_geometry_compute_exempt (t : QueueTracker) :
    (⟨STAGE_GEOMETRY, STAGE_COMPUTE⟩ : LogMessage) ∉ (pushWork t STAGE_GEOMETRY).1 ∧
    (⟨STAGE_COMPUTE, STAGE_GEOMETRY⟩ : LogMessage) ∉ (pushWork t STAGE_COMPUTE).1 := by
  constructor <;>
  · rw [mem_pushWork_log, pushWorkLogs_iff]
    simp

/-- C3 (failing input): on the tracker reached by `pushWork(GEOMETRY)` and
`pipelineBarrier(GEOMETRY_BIT, COMPUTE_BIT)`, signalling a new event from COMPUTE and
waiting for it in FRAGMENT makes FRAGMENT wait for COMPUTE work 1 and for no GEOMETRY
work, while `pipelineBarrier(COMPUTE_BIT, FRAGMENT_BIT)` makes FRAGMENT wait for
GEOMETRY work 1 and for no COMPUTE work. -/
theorem signal_wait_differs_from_pipelineBarrier :
    allStages.map ((waitEvent computeWaitsGeometry
        (signalEvent computeWaitsGeometry Event.fresh STAGE_COMPUTE_BIT) STAGE_FRAGMENT_BIT).stages
          STAGE_FRAGMENT).waitList = [1, 0, 0, 0] ∧
    allStages.map ((pipelineBarrier computeWaitsGeometry STAGE_COMPUTE_BIT STAGE_FRAGMENT_BIT).stages
          STAGE_FRAGMENT).waitList = [0, 1, 0, 0] := by
  decide

/-- C4 (failing input): the calls `pushWork(GEOMETRY)`,
`pipelineBarrier(GEOMETRY_BIT, COMPUTE_BIT)`, `signalEvent(event 0, COMPUTE_BIT)`,
`waitEvent(event 0, FRAGMENT_BIT)` on a fresh queue with a new event leave
`stages[FRAGMENT].waitList[COMPUTE] = 1` while `stages[COMPUTE].index = 0`. -/
theorem waitList_exceeds_index_after_event :
    ((eventAfterBarrierEnv.queues 0).queueTracker.stages STAGE_FRAGMENT).waitList STAGE_COMPUTE = 1 ∧
    ((eventAfterBarrierEnv.queues 0).queueTracker.stages STAGE_COMPUTE).index = 0 := by
  decide

/-! ## Theorems: monotonicity and frame of the tracker calls -/

theorem QueueTracker.le_refl (t : QueueTracker) : t.le t :=
  fun _ => ⟨Nat.le_refl _, fun _ => Nat.le_refl _⟩

theorem QueueTracker.le_trans {t u v : QueueTracker} (h1 : t.le u) (h2 : u.le v) : t.le v :=
  fun d => ⟨Nat.le_trans (h1 d).1 (h2 d).1, fun s => Nat.le_trans ((h1 d).2 s) ((h2 d).2 s)⟩

theorem le_foldl {α : Type} (f : QueueTracker → α → QueueTracker)
    (hf : ∀ (t : QueueTracker) (a : α), t.le (f t a)) (l : List α) (t : QueueTracker) : t.le (l.foldl f t) := by
  induction l generalizing t with
  | nil => exact t.le_refl
  | cons a l ih => exact QueueTracker.le_trans (hf t a) (ih (f t a))

theorem le_latchWait (t : QueueTracker) (d s : Stage) (v : Nat)
    (h : (t.stages d).waitList s ≤ v) : t.le (latchWait t d s v) := by
  intro d1
  by_cases hd : d1 = d
  · subst hd
    refine ⟨by simp [latchWait], fun s1 => ?_⟩
    by_cases hs : s1 = s
    · subst hs
      simpa [latchWait] using h
    · simp [latchWait, Function.update_noteq hs]
  · simp [latchWait, Function.update_noteq hd]

theorem le_barrierInherit (d s : Stage) (t : QueueTracker) (k : Stage) :
    t.le (barrierInherit d s t k) := by
  unfold barrierInherit
  split
  · exact le_latchWait _ _ _ _ (Nat.le_of_lt (by assumption))
  · exact t.le_refl

theorem le_barrierFrom (d : Stage) (t : QueueTracker) (s : Stage) : t.le (barrierFrom d t s) := by
  unfold barrierFrom
  refine QueueTracker.le_trans ?_ (le_foldl _ (le_barrierInherit d s) _ _)
  split
  · exact le_latchWait _ _ _ _ (Nat.le_of_lt (by assumption))
  · exact t.le_refl

theorem le_barrier (t : QueueTracker) (src : StageFlags) (d : Stage) : t.le (barrier t src d) := by
  unfold barrier
  split
  · exact t.le_refl
  · refine le_foldl _ ?_ _ _
    intro u s
    split
    · exact le_barrierFrom d u s
    · exact u.le_refl

theorem le_pipelineBarrier (t : QueueTracker) (src dst : StageFlags) :
    t.le (pipelineBarrier t src dst) := by
  unfold pipelineBarrier
  refine le_foldl _ ?_ _ _
  intro u d
  split
  · exact le_barrier u src d
  · exact u.le_refl

theorem le_waitInherit (w : Stage → Nat) (d : Stage) (t : QueueTracker) (k : Stage) :
    t.le (waitInherit w d t k) := by
  unfold waitInherit
  split
  · exact le_latchWait _ _ _ _ (Nat.le_of_lt (by assumption))
  · exact t.le_refl

theorem le_waitEvent (t : QueueTracker) (event : Event) (dst : StageFlags) :
    t.le (waitEvent t event dst) := by
  unfold waitEvent
  split
  · exact t.le_refl
  · refine le_foldl _ ?_ _ _
    intro u d
    split
    · exact le_foldl _ (le_waitInherit event.waitList d) _ _
    · exact u.le_refl

theorem incrementIndex_index (t : QueueTracker) (d : Stage) :
    ((incrementIndex t d).stages d).index = ((t.stages d).index + 1) % UINT64_RANGE := by
  simp [incrementIndex]

theorem incrementIndex_waitList (t : QueueTracker) (d s : Stage) :
    ((incrementIndex t d).stages s).waitList = (t.stages s).waitList ∧
    ((incrementIndex t d).stages s).lastDstStageIndex = (t.stages s).lastDstStageIndex := by
  by_cases h : s = d
  · subst h
    simp [incrementIndex]
  · simp [incrementIndex, Function.update_noteq h]

theorem incrementIndex_other (t : QueueTracker) (d s : Stage) (h : s ≠ d) :
    (incrementIndex t d).stages s = t.stages s := by
  simp [incrementIndex, Function.update_noteq h]

theorem le_pushWork (t : QueueTracker) (d : Stage) (h : (t.stages d).index < UINT64_RANGE - 1) :
    t.le (pushWork t d).2 := by
  intro d1
  refine ⟨?_, fun s => by rw [show (pushWork t d).2 = incrementIndex t d from rfl,
    (incrementIndex_waitList t d d1).1]⟩
  show (t.stages d1).index ≤ ((incrementIndex t d).stages d1).index
  by_cases hd : d1 = d
  · subst hd
    rw [incrementIndex_index, Nat.mod_eq_of_lt (by omega)]
    exact Nat.le_succ _
  · rw [incrementIndex_other t d d1 hd]

/-- C5 (counterexample): `pushWork(COMPUTE)` on a tracker whose COMPUTE counter holds
`UINT64_MAX` leaves a smaller COMPUTE index than before the call. -/
theorem pushWork_not_monotone_at_max :
    ((pushWork trackerAtMax STAGE_COMPUTE).2.stages STAGE_COMPUTE).index <
      (trackerAtMax.stages STAGE_COMPUTE).index := by
  decide

/-- C5 (amended): `pipelineBarrier` and `waitEvent` never make an `index` or a
`waitList` entry smaller, `signalEvent` leaves every queue as it is, and `pushWork(d)`
never makes one smaller when `stages[d].index` is below `UINT64_MAX`. -/
theorem tracker_calls_monotone (t : QueueTracker) (d : Stage) (src dst : StageFlags)
    (event : Event) (env : Env) (queue e : Nat) :
    ((t.stages d).index < UINT64_RANGE - 1 → t.le (pushWork t d).2) ∧
    t.le (pipelineBarrier t src dst) ∧
    t.le (waitEvent t event dst) ∧
    ((TrackerCall.signalEvent e src).run queue env).queues = env.queues :=
  ⟨le_pushWork t d, le_pipelineBarrier t src dst, le_waitEvent t event dst, rfl⟩

/-- C5 (example): the amended statement at the tracker `transferRoundTrip`, where the
FRAGMENT counter is 1. -/
theorem tracker_calls_monotone_witness :
    (transferRoundTrip.stages STAGE_FRAGMENT).index < UINT64_RANGE - 1 ∧
    transferRoundTrip.le (pushWork transferRoundTrip STAGE_FRAGMENT).2 :=
  ⟨by decide,
   (tracker_calls_monotone transferRoundTrip STAGE_FRAGMENT STAGE_TRANSFER_BIT STAGE_FRAGMENT_BIT
      Event.fresh Env.fresh 0 0).1 (by decide)⟩

/-- C6: `waitEvent` with an event whose signalled flag is false returns the tracker
unchanged, whatever the event's captured `waitList` holds and whatever the mask. -/
theorem waitEvent_unsignalled (t : QueueTracker) (event : Event) (dstStages : StageFlags)
    (h : event.signalled = false) : waitEvent t event dstStages = t := by
  simp [waitEvent, Event.getSignalStatus, h]

/-- C6 (example): an event that was signalled with a captured `waitList` of 7s and then
reset; waiting for it in all stages leaves the tracker `transferRoundTrip` as it is. -/
theorem waitEvent_unsignalled_witness :
    (Event.reset ⟨fun _ => 7, true⟩).signalled = false ∧
    waitEvent transferRoundTrip (Event.reset ⟨fun _ => 7, true⟩) STAGE_ALL_BITS = transferRoundTrip :=
  ⟨rfl, waitEvent_unsignalled transferRoundTrip (Event.reset ⟨fun _ => 7, true⟩) STAGE_ALL_BITS rfl⟩

/-- C7 (counterexample): `pushWork(COMPUTE)` on a tracker whose COMPUTE counter holds
`UINT64_MAX` does not leave the counter one larger: it leaves 0. -/
theorem pushWork_wraps_at_max :
    ((pushWork trackerAtMax STAGE_COMPUTE).2.stages STAGE_COMPUTE).index ≠
      (trackerAtMax.stages STAGE_COMPUTE).index + 1 ∧
    ((pushWork trackerAtMax STAGE_COMPUTE).2.stages STAGE_COMPUTE).index = 0 := by
  decide

/-- C7 (amended): `pushWork(d)` sets `stages[d].index` to `(index + 1) mod 2^64`, which is
`index + 1` whenever the counter is below `UINT64_MAX`, whether or not a bubble is logged;
it leaves the index of every other stage and every `waitList` and `lastDstStageIndex`
entry of every stage unchanged. -/
theorem pushWork_increments_index (t : QueueTracker) (d : Stage) :
    ((pushWork t d).2.stages d).index = ((t.stages d).index + 1) % UINT64_RANGE ∧
    ((t.stages d).index < UINT64_RANGE - 1 →
      ((pushWork t d).2.stages d).index = (t.stages d).index + 1) ∧
    (∀ s : Stage, s ≠ d → ((pushWork t d).2.stages s).index = (t.stages s).index) ∧
    (∀ s : Stage, ((pushWork t d).2.stages s).waitList = (t.stages s).waitList ∧
      ((pushWork t d).2.stages s).lastDstStageIndex = (t.stages s).lastDstStageIndex) := by
  refine ⟨incrementIndex_index t d, fun h => ?_, fun s hs => ?_, fun s => incrementIndex_waitList t d s⟩
  · show ((incrementIndex t d).stages d).index = _
    rw [incrementIndex_index, Nat.mod_eq_of_lt (by omega)]
  · show ((incrementIndex t d).stages s).index = _
    rw [incrementIndex_other t d s hs]

/-- C7 (example): on the tracker `transferRoundTrip` a bubble is logged by
`pushWork(FRAGMENT)` and the FRAGMENT counter goes from 1 to 2. -/
theorem pushWork_increments_index_witness :
    (transferRoundTrip.stages STAGE_FRAGMENT).index < UINT64_RANGE - 1 ∧
    (pushWork transferRoundTrip STAGE_FRAGMENT).1 ≠ [] ∧
    ((pushWork transferRoundTrip STAGE_FRAGMENT).2.stages STAGE_FRAGMENT).index =
      (transferRoundTrip.stages STAGE_FRAGMENT).index + 1 :=
  ⟨by decide, by decide,
   (pushWork_increments_index transferRoundTrip STAGE_FRAGMENT).2.1 (by decide)⟩



/-! ## Theorems: the barrier path keeps `waitList[s] <= index(s)` -/

theorem latchWait_index (t : QueueTracker) (d s k : Stage) (v : Nat) :
    ((latchWait t d s v).stages k).index = (t.stages k).index := by
  by_cases h : k = d
  · subst h
    simp [latchWait]
  · simp [latchWait, Function.update_noteq h]

theorem WaitsBounded_latchWait (t : QueueTracker) (d s : Stage) (v : Nat)
    (ht : t.WaitsBounded) (hv : v ≤ (t.stages s).index) : (latchWait t d s v).WaitsBounded := by
  intro d1 s1
  rw [latchWait_index]
  by_cases hd : d1 = d
  · subst hd
    by_cases hs1 : s1 = s
    · subst hs1
      simpa [latchWait] using hv
    · simpa [latchWait, Function.update_noteq hs1] using ht d1 s1
  · simpa [latchWait, Function.update_noteq hd] using ht d1 s1

theorem WaitsBounded_foldl {α : Type} (f : QueueTracker → α → QueueTracker)
    (hf : ∀ (t : QueueTracker) (a : α), t.WaitsBounded → (f t a).WaitsBounded) (l : List α)
    (t : QueueTracker) (ht : t.WaitsBounded) : (l.foldl f t).WaitsBounded := by
  induction l generalizing t with
  | nil => exact ht
  | cons a l ih => exact ih (f t a) (hf t a ht)

theorem WaitsBounded_barrierFrom (d : Stage) (t : QueueTracker) (s : Stage)
    (ht : t.WaitsBounded) : (barrierFrom d t s).WaitsBounded := by
  unfold barrierFrom
  refine WaitsBounded_foldl _ ?_ _ _ ?_
  · intro u k hu
    unfold barrierInherit
    split
    · exact WaitsBounded_latchWait _ _ _ _ hu (hu s k)
    · exact hu
  · split
    · exact WaitsBounded_latchWait _ _ _ _ ht (Nat.le_refl _)
    · exact ht

theorem WaitsBounded_pipelineBarrier (t : QueueTracker) (src dst : StageFlags)
    (ht : t.WaitsBounded) : (pipelineBarrier t src dst).WaitsBounded := by
  unfold pipelineBarrier
  refine WaitsBounded_foldl _ ?_ _ _ ht
  intro u d hu
  split
  · unfold barrier
    split
    · exact hu
    · refine WaitsBounded_foldl _ ?_ _ _ hu
      intro v s hv
      split
      · exact WaitsBounded_barrierFrom d v s hv
      · exact hv
  · exact hu

theorem WaitsBounded_pushWork (t : QueueTracker) (d : Stage) (ht : t.WaitsBounded)
    (h : (t.stages d).index < UINT64_RANGE - 1) : (pushWork t d).2.WaitsBounded := by
  intro d1 s1
  have hle := (le_pushWork t d h s1).1
  rw [show (pushWork t d).2 = incrementIndex t d from rfl, (incrementIndex_waitList t d d1).1]
  exact Nat.le_trans (ht d1 s1) hle

theorem WaitsBounded_fresh : QueueTracker.fresh.WaitsBounded :=
  fun _ _ => Nat.le_refl _


/-! ## Theorems: the deferred-function ledger -/

theorem World.ext_fields {w1 w2 : World σ} (h1 : w1.state = w2.state)
    (h2 : ∀ c, w1.deferredFunctions c = w2.deferredFunctions c) : w1 = w2 := by
  cases w1
  cases w2
  simp only [World.mk.injEq]
  exact ⟨h1, funext h2⟩

theorem enqueue_foldl_ledger (w : World σ) (cb : Nat) (fs : List (DeferredFunction σ)) :
    (fs.foldl (fun w f => enqueueDeferredFunction w cb f) w).deferredFunctions cb =
      w.deferredFunctions cb ++ fs ∧
    (fs.foldl (fun w f => enqueueDeferredFunction w cb f) w).state = w.state ∧
    ∀ c, c ≠ cb → (fs.foldl (fun w f => enqueueDeferredFunction w cb f) w).deferredFunctions c =
      w.deferredFunctions c := by
  induction fs generalizing w with
  | nil => simp
  | cons f fs ih =>
    simp only [List.foldl_cons]
    obtain ⟨h1, h2, h3⟩ := ih (enqueueDeferredFunction w cb f)
    refine ⟨?_, ?_, ?_⟩
    · rw [h1]
      simp [enqueueDeferredFunction]
    · rw [h2]
      rfl
    · intro c hc
      rw [h3 c hc]
      simp [enqueueDeferredFunction, Function.update_noteq hc]

theorem foldlM_closures (call : World σ → Nat → Nat → Option (World σ)) (queue : Nat)
    (gs : List (Nat → σ → σ)) (w : World σ) :
    (gs.map DeferredFunction.closure).foldlM (invokeDeferred call queue) w =
      some { w with state := gs.foldl (fun s g => g queue s) w.state } := by
  induction gs generalizing w with
  | nil => rfl
  | cons g gs ih =>
    simp only [List.map_cons, List.foldlM_cons, invokeDeferred, List.foldl_cons]
    exact ih _

theorem callDeferredFunctions_succ (fuel : Nat) (w : World σ) (cb queue : Nat) :
    callDeferredFunctions (fuel + 1) w cb queue =
      ((w.deferredFunctions cb).foldlM (invokeDeferred (callDeferredFunctions fuel) queue) w).map
        (fun w1 => clearDeferredFunctions w1 cb) := rfl

theorem callDeferredFunctions_of_empty (fuel : Nat) (w : World σ) (cb queue : Nat)
    (h : w.deferredFunctions cb = []) : callDeferredFunctions (fuel + 1) w cb queue = some w := by
  rw [callDeferredFunctions_succ, h]
  simp only [List.foldlM_nil, Option.map, pure]
  congr 1
  exact World.ext_fields rfl (fun c => by
    by_cases hc : c = cb
    · subst hc
      simp [clearDeferredFunctions, h]
    · simp [clearDeferredFunctions, Function.update_noteq hc])

theorem clearDeferredFunctions_state (w : World σ) (cb : Nat) :
    (clearDeferredFunctions w cb).state = w.state := rfl

theorem clearDeferredFunctions_other (w : World σ) (cb c : Nat) (h : c ≠ cb) :
    (clearDeferredFunctions w cb).deferredFunctions c = w.deferredFunctions c := by
  simp [clearDeferredFunctions, Function.update_noteq h]

theorem clearDeferredFunctions_ledger (w : World σ) (cb : Nat) :
    (clearDeferredFunctions w cb).deferredFunctions cb = [] := by
  simp [clearDeferredFunctions]

/-- C8: when closures `fs` are enqueued, in this order, on a command buffer whose ledger
is empty, `callDeferredFunctions(queue)` invokes them one after the other in the order of
enqueueing, each once and with `queue`, and clears the ledger: whenever the successive
invocations return `w2` the call returns `w2` with an empty ledger, and a following call
returns the same world. When no closure replays another command buffer the invocations
always return, and the final device state is the left fold of the closures. -/
theorem callDeferredFunctions_fifo (w : World σ) (cb queue fuel : Nat)
    (fs : List (DeferredFunction σ)) :
    (∀ w2, fs.foldlM (invokeDeferred (callDeferredFunctions fuel) queue)
          (fs.foldl (fun w f => enqueueDeferredFunction w cb f) (clearDeferredFunctions w cb))
        = some w2 →
      callDeferredFunctions (fuel + 1)
          (fs.foldl (fun w f => enqueueDeferredFunction w cb f) (clearDeferredFunctions w cb))
          cb queue = some (clearDeferredFunctions w2 cb) ∧
      (clearDeferredFunctions w2 cb).deferredFunctions cb = [] ∧
      callDeferredFunctions (fuel + 1) (clearDeferredFunctions w2 cb) cb queue =
        some (clearDeferredFunctions w2 cb)) ∧
    (∀ gs : List (Nat → σ → σ), fs = gs.map DeferredFunction.closure →
      callDeferredFunctions (fuel + 1)
          (fs.foldl (fun w f => enqueueDeferredFunction w cb f) (clearDeferredFunctions w cb))
          cb queue =
        some { state := gs.foldl (fun s g => g queue s) w.state
               deferredFunctions := Function.update w.deferredFunctions cb [] }) := by
  obtain ⟨h1, h2, h3⟩ := enqueue_foldl_ledger (clearDeferredFunctions w cb) cb fs
  rw [clearDeferredFunctions_ledger, List.nil_append] at h1
  constructor
  · intro w2 hw2
    refine ⟨?_, clearDeferredFunctions_ledger w2 cb, ?_⟩
    · rw [callDeferredFunctions_succ, h1, hw2]
      rfl
    · exact callDeferredFunctions_of_empty fuel _ cb queue (clearDeferredFunctions_ledger w2 cb)
  · intro gs hgs
    subst hgs
    rw [callDeferredFunctions_succ, h1, foldlM_closures]
    simp only [Option.map]
    congr 1
    refine World.ext_fields ?_ (fun c => ?_)
    · simp only [clearDeferredFunctions_state, h2]
    · by_cases hc : c = cb
      · subst hc
        simp [clearDeferredFunctions]
      · simp only [clearDeferredFunctions_other _ _ _ hc, h3 c hc, Function.update_noteq hc,
          ne_eq, hc, not_false_eq_true]



/-- C8 (example): `pushWork(COMPUTE)` and `pushWork(TRANSFER)` enqueued on command buffer 0
and replayed against queue 0. -/
theorem callDeferredFunctions_fifo_witness :
    callDeferredFunctions 1
        ([(TrackerCall.pushWork STAGE_COMPUTE).toDeferred,
          (TrackerCall.pushWork STAGE_TRANSFER).toDeferred].foldl
            (fun w f => enqueueDeferredFunction w 0 f) (clearDeferredFunctions oneDispatchWorld 0))
        0 0 =
      some { state := [fun queue env => (TrackerCall.pushWork STAGE_COMPUTE).run queue env,
                       fun queue env => (TrackerCall.pushWork STAGE_TRANSFER).run queue env].foldl
                        (fun s g => g 0 s) oneDispatchWorld.state
             deferredFunctions := Function.update oneDispatchWorld.deferredFunctions 0 [] } :=
  (callDeferredFunctions_fifo oneDispatchWorld 0 0 0 _).2
    [fun queue env => (TrackerCall.pushWork STAGE_COMPUTE).run queue env,
     fun queue env => (TrackerCall.pushWork STAGE_TRANSFER).run queue env] rfl

theorem run_other_queue (call : TrackerCall) (q1 q2 : Nat) (h : q2 ≠ q1) (env : Env) :
    (call.run q1 env).queues q2 = env.queues q2 := by
  cases call <;> simp [TrackerCall.run, Env.setQueue, Function.update_noteq h]

theorem foldl_run_other_queue (ops : List TrackerCall) (q1 q2 : Nat) (h : q2 ≠ q1) (env : Env) :
    (ops.foldl (fun env c => c.run q1 env) env).queues q2 = env.queues q2 := by
  induction ops generalizing env with
  | nil => rfl
  | cons c ops ih =>
    simp only [List.foldl_cons]
    rw [ih, run_other_queue c q1 q2 h]

theorem foldl_toDeferred (ops : List TrackerCall) (queue : Nat) (env : Env) :
    (ops.map (fun c : TrackerCall => fun queue env => c.run queue env)).foldl
        (fun s g => g queue s) env =
      ops.foldl (fun env c => c.run queue env) env := by
  induction ops generalizing env with
  | nil => rfl
  | cons c ops ih =>
    simp only [List.map_cons, List.foldl_cons]
    exact ih _

theorem QueueSubmit_single (fuel : Nat) (w : World σ) (queue cb : Nat) :
    QueueSubmit fuel w queue [[cb]] = callDeferredFunctions fuel w cb queue := by
  simp [QueueSubmit]

/-- C9 (counterexample): command buffer 0 holds one `pushWork(COMPUTE)`; queues 0 and 1
start with equal (fresh) trackers. After submitting the command buffer to queue 0 and then
to queue 1, the stage counters of queue 0 are 1, 0, 0, 0 and those of queue 1 are all 0. -/
theorem second_queue_replay_differs :
    (oneDispatchWorld.state.queues 0).queueTracker = (oneDispatchWorld.state.queues 1).queueTracker ∧
    ((QueueSubmit 1 oneDispatchWorld 0 [[0]]).bind (fun w => QueueSubmit 1 w 1 [[0]])).map
        (fun w => (w.state.indices 0, w.state.indices 1)) =
      some ([1, 0, 0, 0], [0, 0, 0, 0]) := by
  constructor
  · rfl
  · decide

/-- C9 (amended): replaying a ledger of tracker calls `o1..on` against queue `q1` applies
`o1..on` with `q1` and leaves the ledger empty, so that replaying the same command buffer
against a different queue `q2` afterwards applies nothing and changes nothing; the queue
`q2` is the same after both replays as before them. -/
theorem replay_then_second_queue (w : World Env) (cb q1 q2 fuel : Nat) (ops : List TrackerCall)
    (hq : q1 ≠ q2) (h : w.deferredFunctions cb = ops.map TrackerCall.toDeferred) :
    ∃ w1, QueueSubmit (fuel + 1) w q1 [[cb]] = some w1 ∧
      w1.state = ops.foldl (fun env c => c.run q1 env) w.state ∧
      w1.deferredFunctions cb = [] ∧
      QueueSubmit (fuel + 1) w1 q2 [[cb]] = some w1 ∧
      w1.state.queues q2 = w.state.queues q2 := by
  have hmap : ops.map TrackerCall.toDeferred =
      (ops.map (fun c : TrackerCall => fun queue env => c.run queue env)).map
        DeferredFunction.closure := by
    simp [TrackerCall.toDeferred]
  refine ⟨clearDeferredFunctions
    { w with state := ops.foldl (fun env c => c.run q1 env) w.state } cb, ?_, rfl,
    clearDeferredFunctions_ledger _ _, ?_, ?_⟩
  · rw [QueueSubmit_single, callDeferredFunctions_succ, h, hmap, foldlM_closures, foldl_toDeferred]
    rfl
  · rw [QueueSubmit_single]
    exact callDeferredFunctions_of_empty fuel _ cb q2 (clearDeferredFunctions_ledger _ _)
  · exact foldl_run_other_queue ops q1 q2 (fun e => hq e.symm) w.state

/-- C9 (example): the amended statement in the world of the counterexample. -/
theorem replay_then_second_queue_witness :
    ∃ w1, QueueSubmit 1 oneDispatchWorld 0 [[0]] = some w1 ∧
      w1.state = [TrackerCall.pushWork STAGE_COMPUTE].foldl (fun env c => c.run 0 env)
        oneDispatchWorld.state ∧
      w1.deferredFunctions 0 = [] ∧
      QueueSubmit 1 w1 1 [[0]] = some w1 ∧
      w1.state.queues 1 = oneDispatchWorld.state.queues 1 :=
  replay_then_second_queue oneDispatchWorld 0 0 1 0 [TrackerCall.pushWork STAGE_COMPUTE]
    (by decide) rfl


theorem Expansion.append {L : Nat → List (DeferredFunction σ)}
    {fs1 fs2 : List (DeferredFunction σ)} {ops1 ops2 : List (Nat → σ → σ)} {used1 used2 : List Nat}
    (h1 : Expansion L fs1 ops1 used1) (h2 : Expansion L fs2 ops2 used2) :
    Expansion L (fs1 ++ fs2) (ops1 ++ ops2) (used1 ++ used2) := by
  induction h1 with
  | nil => simpa using h2
  | closure _ ih => exact Expansion.closure ih
  | execute hc _ _ ih2 =>
    rw [List.cons_append, List.append_assoc, List.cons_append, List.append_assoc]
    exact Expansion.execute hc ih2

theorem foldlM_expansion (L : Nat → List (DeferredFunction σ)) (queue : Nat)
    {fs : List (DeferredFunction σ)} {ops : List (Nat → σ → σ)} {used : List Nat}
    (h : Expansion L fs ops used) :
    ∀ w : World σ, used.Nodup → (∀ c ∈ used, w.deferredFunctions c = L c) →
      ∃ n, ∀ fuel, n ≤ fuel →
        fs.foldlM (invokeDeferred (callDeferredFunctions fuel) queue) w =
          some { state := ops.foldl (fun s f => f queue s) w.state
                 deferredFunctions := fun c => if c ∈ used then [] else w.deferredFunctions c } := by
  induction h with
  | nil =>
    intro w _ _
    exact ⟨0, fun fuel _ => by
      simp only [List.foldlM_nil, pure, List.foldl_nil]
      congr 1⟩
  | @closure f fs ops used _ ih =>
    intro w hnd hL
    obtain ⟨n, hn⟩ := ih { w with state := f queue w.state } hnd hL
    refine ⟨n, fun fuel hfuel => ?_⟩
    simp only [List.foldlM_cons, invokeDeferred, List.foldl_cons]
    exact hn fuel hfuel
  | @execute c fs ops1 used1 ops2 used2 _ _ ih1 ih2 =>
    intro w hnd hL
    rw [List.nodup_cons, List.nodup_append] at hnd
    obtain ⟨hc, hnd1, hnd2, hdisj⟩ := hnd
    rw [List.mem_append, not_or] at hc
    obtain ⟨n1, hn1⟩ := ih1 w hnd1 (fun c1 h1 => hL c1 (by simp [h1]))
    obtain ⟨n2, hn2⟩ := ih2
      (clearDeferredFunctions
        { state := ops1.foldl (fun s f => f queue s) w.state
          deferredFunctions := fun c1 => if c1 ∈ used1 then [] else w.deferredFunctions c1 } c)
      hnd2
      (fun c2 h2 => by
        have hne : c2 ≠ c := fun e => hc.2 (e ▸ h2)
        have hn1 : c2 ∉ used1 := fun h1 => hdisj h1 h2
        rw [clearDeferredFunctions_other _ _ _ hne]
        simp only [hn1, if_false]
        exact hL c2 (by simp [h2]))
    refine ⟨max (n1 + 1) n2, fun fuel hfuel => ?_⟩
    obtain ⟨fuel1, rfl⟩ : ∃ k, fuel = k + 1 := ⟨fuel - 1, by omega⟩
    simp only [List.foldlM_cons, invokeDeferred]
    rw [callDeferredFunctions_succ, hL c (by simp), hn1 fuel1 (by omega)]
    simp only [Option.map, Option.bind_eq_bind, Option.some_bind]
    rw [hn2 (fuel1 + 1) (by omega)]
    congr 1
    refine World.ext_fields ?_ (fun c3 => ?_)
    · simp only [clearDeferredFunctions_state, List.foldl_append]
    · by_cases h3 : c3 = c
      · subst h3
        simp [clearDeferredFunctions]
      · by_cases h1 : c3 ∈ used1 <;> by_cases h2 : c3 ∈ used2 <;>
          simp [clearDeferredFunctions, Function.update_noteq h3, h1, h2, h3]


/-- C10 (counterexample): primary 0 holds the execution of secondary 1, whose ledger holds
two executions of command buffer 2, whose ledger holds one `pushWork(COMPUTE)`; no command
buffer executes itself. The depth-first expansion of the secondary is two `pushWork(COMPUTE)`,
which would leave the COMPUTE counter of queue 0 at 2, but the replay of the primary leaves
it at 1: the first execution of command buffer 2 clears its ledger. -/
theorem nested_twice_replays_once :
    Expansion nestedTwiceWorld.deferredFunctions (nestedTwiceWorld.deferredFunctions 1)
      [fun queue env => (TrackerCall.pushWork STAGE_COMPUTE).run queue env,
       fun queue env => (TrackerCall.pushWork STAGE_COMPUTE).run queue env] [2, 2] ∧
    (([fun queue env => (TrackerCall.pushWork STAGE_COMPUTE).run queue env,
       fun queue env => (TrackerCall.pushWork STAGE_COMPUTE).run queue env].foldl
        (fun s f => f 0 s) nestedTwiceWorld.state).indices 0 = [2, 0, 0, 0]) ∧
    (callDeferredFunctions 3 nestedTwiceWorld 0 0).map (fun w => w.state.indices 0) =
      some [1, 0, 0, 0] := by
  refine ⟨?_, by decide, by decide⟩
  have h2 : Expansion nestedTwiceWorld.deferredFunctions (nestedTwiceWorld.deferredFunctions 2)
      [fun queue env => (TrackerCall.pushWork STAGE_COMPUTE).run queue env] [] :=
    Expansion.closure Expansion.nil
  exact Expansion.execute h2 (Expansion.execute h2 Expansion.nil)

/-- C10 (amended): let the primary's ledger be `as`, then the execution of `secondary`, then
`bs`, and let `aops`, `sops`, `bops` be the depth-first expansions of `as`, of the
secondary's ledger and of `bs`. If the primary and all command buffers expanded on the way
are pairwise distinct (none executes itself, none is executed twice), then with enough fuel
`callDeferredFunctions` on the primary returns, the device state is the one obtained by
applying `aops`, then `sops`, then `bops`, in this order, with the one target queue, and the
ledgers of the primary and of the secondary are empty afterwards. -/
theorem callDeferredFunctions_splices_secondary (w : World σ) (primary secondary queue : Nat)
    (as bs : List (DeferredFunction σ)) (aops sops bops : List (Nat → σ → σ))
    (usedA usedS usedB : List Nat)
    (hP : w.deferredFunctions primary = as ++ .executeCommandBuffer secondary :: bs)
    (hA : Expansion w.deferredFunctions as aops usedA)
    (hS : Expansion w.deferredFunctions (w.deferredFunctions secondary) sops usedS)
    (hB : Expansion w.deferredFunctions bs bops usedB)
    (hnd : (primary :: (usedA ++ secondary :: (usedS ++ usedB))).Nodup) :
    ∃ n, ∀ fuel, n ≤ fuel → ∃ w1, callDeferredFunctions fuel w primary queue = some w1 ∧
      w1.state = (aops ++ sops ++ bops).foldl (fun s f => f queue s) w.state ∧
      w1.deferredFunctions primary = [] ∧ w1.deferredFunctions secondary = [] := by
  have hall := Expansion.append hA (Expansion.execute hS hB)
  rw [List.nodup_cons] at hnd
  obtain ⟨n, hn⟩ := foldlM_expansion w.deferredFunctions queue hall w hnd.2 (fun _ _ => rfl)
  refine ⟨n + 1, fun fuel hfuel => ?_⟩
  obtain ⟨fuel1, rfl⟩ : ∃ k, fuel = k + 1 := ⟨fuel - 1, by omega⟩
  rw [callDeferredFunctions_succ, hP, hn fuel1 (by omega)]
  refine ⟨_, rfl, ?_, clearDeferredFunctions_ledger _ _, ?_⟩
  · simp only [Option.map, clearDeferredFunctions_state, List.append_assoc]
  · have hne : secondary ≠ primary := fun e => hnd.1 (by simp [e])
    rw [clearDeferredFunctions_other _ _ _ hne]
    simp

/-- C10 (example): primary 0 holds `pushWork(TRANSFER)`, the execution of secondary 1 and
`pushWork(FRAGMENT)`; secondary 1 holds `pushWork(COMPUTE)` and the execution of command
buffer 2, which holds `pushWork(GEOMETRY)`. -/
theorem callDeferredFunctions_splices_secondary_witness :
    ∃ n, ∀ fuel, n ≤ fuel → ∃ w1, callDeferredFunctions fuel nestedOnceWorld 0 0 = some w1 ∧
      w1.state =
        ([fun queue env => (TrackerCall.pushWork STAGE_TRANSFER).run queue env] ++
         [fun queue env => (TrackerCall.pushWork STAGE_COMPUTE).run queue env,
          fun queue env => (TrackerCall.pushWork STAGE_GEOMETRY).run queue env] ++
         [fun queue env => (TrackerCall.pushWork STAGE_FRAGMENT).run queue env]).foldl
          (fun s f => f 0 s) nestedOnceWorld.state ∧
      w1.deferredFunctions 0 = [] ∧ w1.deferredFunctions 1 = [] :=
  have h2 : Expansion nestedOnceWorld.deferredFunctions (nestedOnceWorld.deferredFunctions 2)
      [fun queue env => (TrackerCall.pushWork STAGE_GEOMETRY).run queue env] [] :=
    Expansion.closure Expansion.nil
  callDeferredFunctions_splices_secondary nestedOnceWorld 0 1 0
    [(TrackerCall.pushWork STAGE_TRANSFER).toDeferred]
    [(TrackerCall.pushWork STAGE_FRAGMENT).toDeferred] _ _ _ [] [2] []
    rfl (Expansion.closure Expansion.nil)
    (Expansion.closure (Expansion.execute h2 Expansion.nil))
    (Expansion.closure Expansion.nil) (by decide)

/-! ## Theorems: `Image::signalUsage` -/

theorem signalUsage_eq (img : Image) (layer mip : Nat) (u : Usage)
    (hl : layer < img.arrayLayers) (hm : mip < img.mipLevels) :
    img.signalUsage layer mip u =
      some (signalUsageLog img.swapchainImage (img.lastUsage layer mip) u layer mip,
        { img with lastUsage := fun l m =>
            if l = layer ∧ m = mip then u else img.lastUsage l m }) := by
  simp [Image.signalUsage, Image.getLastUsage, hl, hm]

/-- C16: for a subresource in range, `Image::signalUsage(layer, mip, u)` returns, logs
exactly the redundant-store message when `u` is RenderPassCleared, the previous usage is
RenderPassStored and the image is not a swapchain image, exactly the redundant-clear message
when `u` is RenderPassCleared and the previous usage is Cleared, exactly the
inefficient-clear message when `u` is RenderPassReadToTile and the previous usage is Cleared,
and nothing in every other case; afterwards the last usage of the subresource is `u` and
nothing else of the image has changed. -/
theorem signalUsage_logs_and_sets (img : Image) (layer mip : Nat) (u : Usage)
    (hl : layer < img.arrayLayers) (hm : mip < img.mipLevels) :
    ∃ log img1, img.signalUsage layer mip u = some (log, img1) ∧
      (u = Usage.RenderPassCleared ∧ img.lastUsage layer mip = Usage.RenderPassStored ∧
          img.swapchainImage = false → log = [.redundantRenderPassStore layer mip]) ∧
      (u = Usage.RenderPassCleared ∧ img.lastUsage layer mip = Usage.Cleared →
          log = [.redundantImageClear layer mip]) ∧
      (u = Usage.RenderPassReadToTile ∧ img.lastUsage layer mip = Usage.Cleared →
          log = [.inefficientClear layer mip]) ∧
      (¬ (u = Usage.RenderPassCleared ∧ img.lastUsage layer mip = Usage.RenderPassStored ∧
            img.swapchainImage = false) ∧
        ¬ (u = Usage.RenderPassCleared ∧ img.lastUsage layer mip = Usage.Cleared) ∧
        ¬ (u = Usage.RenderPassReadToTile ∧ img.lastUsage layer mip = Usage.Cleared) →
          log = []) ∧
      img1.lastUsage layer mip = u ∧
      (∀ l m, ¬ (l = layer ∧ m = mip) → img1.lastUsage l m = img.lastUsage l m) ∧
      img1.arrayLayers = img.arrayLayers ∧ img1.mipLevels = img.mipLevels ∧
      img1.swapchainImage = img.swapchainImage := by
  refine ⟨_, _, signalUsage_eq img layer mip u hl hm, ?_, ?_, ?_, ?_, ?_, ?_, rfl, rfl, rfl⟩
  · rintro ⟨h1, h2, h3⟩
    simp [signalUsageLog, h1, h2, h3]
  · rintro ⟨h1, h2⟩
    simp [signalUsageLog, h1, h2]
  · rintro ⟨h1, h2⟩
    simp [signalUsageLog, h1, h2]
  · rintro ⟨h1, h2, h3⟩
    unfold signalUsageLog
    rw [if_neg (by simpa using h1), if_neg h2, if_neg h3]
  · simp
  · intro l m h
    simp [h]

/-- C16 (example): on a fresh image, clearing mip 1 with `vkCmdClear*Image` and then loading
it with LOAD_OP_CLEAR logs the redundant-clear message for (0, 1) and nothing else. -/
theorem signalUsage_logs_and_sets_witness :
    ((twoLevelImage.signalUsage 0 1 Usage.Cleared).bind
        (fun r => r.2.signalUsage 0 1 Usage.RenderPassCleared)).map (fun r => r.1) =
      some [.redundantImageClear 0 1] ∧
    ∃ log img1, twoLevelImage.signalUsage 0 1 Usage.Cleared = some (log, img1) ∧
      img1.lastUsage 0 1 = Usage.Cleared := by
  refine ⟨by decide, ?_⟩
  obtain ⟨log, img1, h, _, _, _, _, h5, _⟩ :=
    signalUsage_logs_and_sets twoLevelImage 0 1 Usage.Cleared (by decide) (by decide)
  exact ⟨log, img1, h, h5⟩

/-- C17 (failing input): on an image with one layer and two mip levels, all Undefined,
`signalUsage(range, Cleared)` with `baseMipLevel = 0`, `levelCount = 1`,
`baseArrayLayer = 0`, `layerCount = 1` sets the last usage of mip level 0 and also of mip
level 1, which is outside the range, to Cleared. -/
theorem signalUsageRange_ignores_levelCount :
    (twoLevelImage.signalUsageRange ⟨0, 1, 0, 1⟩ Usage.Cleared).map
        (fun r => (r.2.lastUsage 0 0, r.2.lastUsage 0 1)) =
      some (Usage.Cleared, Usage.Cleared) ∧
    twoLevelImage.lastUsage 0 1 = Usage.Undefined := by
  decide

/-! ## Theorems: stage masks -/

theorem lor_eq_zero_iff (x y : Nat) : x ||| y = 0 ↔ x = 0 ∧ y = 0 := by
  constructor
  · intro h
    have hb : ∀ i, (x.testBit i || y.testBit i) = false := fun i => by
      rw [← Nat.testBit_or, h, Nat.zero_testBit]
    constructor <;> apply Nat.eq_of_testBit_eq <;> intro i <;> have := hb i <;>
      simp only [Bool.or_eq_false_iff] at this <;> simp [this]
  · rintro ⟨rfl, rfl⟩
    rfl

theorem and_or_ne_zero (m a b : Nat) : m &&& (a ||| b) ≠ 0 ↔ m &&& a ≠ 0 ∨ m &&& b ≠ 0 := by
  rw [Nat.and_or_distrib_left, Ne, lor_eq_zero_iff]
  tauto

theorem hasStage_or (a b : StageFlags) (s : Stage) :
    hasStage (a ||| b) s = (hasStage a s || hasStage b s) := by
  have h := and_or_ne_zero (1 <<< s.val) a b
  rw [Nat.and_comm, Nat.and_comm _ a, Nat.and_comm _ b] at h
  rw [Bool.eq_iff_iff]
  simpa only [hasStage, bne_iff_ne, Bool.or_eq_true] using h

theorem hasStage_orIfAny (m mask : Nat) (bits flags : StageFlags) (s : Stage) :
    hasStage (orIfAny m mask bits flags) s =
      (hasStage flags s || (decide (m &&& mask ≠ 0) && hasStage bits s)) := by
  unfold orIfAny
  split
  · next h => simp [hasStage_or, h]
  · next h => simp [h]

theorem orIfAny_lt (m mask : Nat) (bits flags : StageFlags) (hb : bits < 2 ^ 4)
    (hf : flags < 2 ^ 4) : orIfAny m mask bits flags < 2 ^ 4 := by
  unfold orIfAny
  split
  · exact Nat.or_lt_two_pow hf hb
  · exact hf

/-- C18: `vkStagesToTracker(m)` has the FRAGMENT bit iff `m` contains one of the four
fragment stages, ALL_GRAPHICS or ALL_COMMANDS; the GEOMETRY bit iff `m` contains one of the
six geometry stages, ALL_GRAPHICS or ALL_COMMANDS; the TRANSFER bit iff `m` contains
TRANSFER or ALL_COMMANDS; the COMPUTE bit iff `m` contains COMPUTE_SHADER or ALL_COMMANDS;
no bit above the four stage bits is set; TOP_OF_PIPE, BOTTOM_OF_PIPE and HOST alone give 0. -/
theorem vkStagesToTracker_bits (m : Nat) :
    (hasStage (vkStagesToTracker m) STAGE_FRAGMENT = true ↔
      (m &&& VK_PIPELINE_STAGE_FRAGMENT_SHADER_BIT ≠ 0 ∨
       m &&& VK_PIPELINE_STAGE_EARLY_FRAGMENT_TESTS_BIT ≠ 0 ∨
       m &&& VK_PIPELINE_STAGE_LATE_FRAGMENT_TESTS_BIT ≠ 0 ∨
       m &&& VK_PIPELINE_STAGE_COLOR_ATTACHMENT_OUTPUT_BIT ≠ 0 ∨
       m &&& VK_PIPELINE_STAGE_ALL_GRAPHICS_BIT ≠ 0 ∨
       m &&& VK_PIPELINE_STAGE_ALL_COMMANDS_BIT ≠ 0)) ∧
    (hasStage (vkStagesToTracker m) STAGE_GEOMETRY = true ↔
      (m &&& VK_PIPELINE_STAGE_DRAW_INDIRECT_BIT ≠ 0 ∨
       m &&& VK_PIPELINE_STAGE_VERTEX_INPUT_BIT ≠ 0 ∨
       m &&& VK_PIPELINE_STAGE_VERTEX_SHADER_BIT ≠ 0 ∨
       m &&& VK_PIPELINE_STAGE_GEOMETRY_SHADER_BIT ≠ 0 ∨
       m &&& VK_PIPELINE_STAGE_TESSELLATION_CONTROL_SHADER_BIT ≠ 0 ∨
       m &&& VK_PIPELINE_STAGE_TESSELLATION_EVALUATION_SHADER_BIT ≠ 0 ∨
       m &&& VK_PIPELINE_STAGE_ALL_GRAPHICS_BIT ≠ 0 ∨
       m &&& VK_PIPELINE_STAGE_ALL_COMMANDS_BIT ≠ 0)) ∧
    (hasStage (vkStagesToTracker m) STAGE_TRANSFER = true ↔
      (m &&& VK_PIPELINE_STAGE_TRANSFER_BIT ≠ 0 ∨ m &&& VK_PIPELINE_STAGE_ALL_COMMANDS_BIT ≠ 0)) ∧
    (hasStage (vkStagesToTracker m) STAGE_COMPUTE = true ↔
      (m &&& VK_PIPELINE_STAGE_COMPUTE_SHADER_BIT ≠ 0 ∨
       m &&& VK_PIPELINE_STAGE_ALL_COMMANDS_BIT ≠ 0)) ∧
    vkStagesToTracker m < 2 ^ STAGE_COUNT ∧
    vkStagesToTracker VK_PIPELINE_STAGE_TOP_OF_PIPE_BIT = 0 ∧
    vkStagesToTracker VK_PIPELINE_STAGE_BOTTOM_OF_PIPE_BIT = 0 ∧
    vkStagesToTracker VK_PIPELINE_STAGE_HOST_BIT = 0 := by
  refine ⟨?_, ?_, ?_, ?_, ?_, by decide, by decide, by decide⟩
  · have e : hasStage 0 STAGE_FRAGMENT = false ∧
        hasStage STAGE_FRAGMENT_BIT STAGE_FRAGMENT = true ∧
        hasStage STAGE_GEOMETRY_BIT STAGE_FRAGMENT = false ∧
        hasStage STAGE_TRANSFER_BIT STAGE_FRAGMENT = false ∧
        hasStage STAGE_COMPUTE_BIT STAGE_FRAGMENT = false ∧
        hasStage STAGE_ALL_BITS STAGE_FRAGMENT = true ∧
        hasStage (STAGE_GEOMETRY_BIT ||| STAGE_FRAGMENT_BIT) STAGE_FRAGMENT = true := by
      decide
    obtain ⟨e0, e1, e2, e3, e4, e5, e6⟩ := e
    simp only [vkStagesToTracker, hasStage_orIfAny, and_or_ne_zero, e0, e1, e2, e3, e4, e5, e6,
      Bool.and_true, Bool.and_false, Bool.or_false, Bool.false_or, Bool.or_eq_true,
      decide_eq_true_eq, or_assoc]
    tauto
  · have e : hasStage 0 STAGE_GEOMETRY = false ∧
        hasStage STAGE_FRAGMENT_BIT STAGE_GEOMETRY = false ∧
        hasStage STAGE_GEOMETRY_BIT STAGE_GEOMETRY = true ∧
        hasStage STAGE_TRANSFER_BIT STAGE_GEOMETRY = false ∧
        hasStage STAGE_COMPUTE_BIT STAGE_GEOMETRY = false ∧
        hasStage STAGE_ALL_BITS STAGE_GEOMETRY = true ∧
        hasStage (STAGE_GEOMETRY_BIT ||| STAGE_FRAGMENT_BIT) STAGE_GEOMETRY = true := by
      decide
    obtain ⟨e0, e1, e2, e3, e4, e5, e6⟩ := e
    simp only [vkStagesToTracker, hasStage_orIfAny, and_or_ne_zero, e0, e1, e2, e3, e4, e5, e6,
      Bool.and_true, Bool.and_false, Bool.or_false, Bool.false_or, Bool.or_eq_true,
      decide_eq_true_eq, or_assoc]
    tauto
  · have e : hasStage 0 STAGE_TRANSFER = false ∧
        hasStage STAGE_FRAGMENT_BIT STAGE_TRANSFER = false ∧
        hasStage STAGE_GEOMETRY_BIT STAGE_TRANSFER = false ∧
        hasStage STAGE_TRANSFER_BIT STAGE_TRANSFER = true ∧
        hasStage STAGE_COMPUTE_BIT STAGE_TRANSFER = false ∧
        hasStage STAGE_ALL_BITS STAGE_TRANSFER = true ∧
        hasStage (STAGE_GEOMETRY_BIT ||| STAGE_FRAGMENT_BIT) STAGE_TRANSFER = false := by
      decide
    obtain ⟨e0, e1, e2, e3, e4, e5, e6⟩ := e
    simp only [vkStagesToTracker, hasStage_orIfAny, and_or_ne_zero, e0, e1, e2, e3, e4, e5, e6,
      Bool.and_true, Bool.and_false, Bool.or_false, Bool.false_or, Bool.or_eq_true,
      decide_eq_true_eq, or_assoc]
  · have e : hasStage 0 STAGE_COMPUTE = false ∧
        hasStage STAGE_FRAGMENT_BIT STAGE_COMPUTE = false ∧
        hasStage STAGE_GEOMETRY_BIT STAGE_COMPUTE = false ∧
        hasStage STAGE_TRANSFER_BIT STAGE_COMPUTE = false ∧
        hasStage STAGE_COMPUTE_BIT STAGE_COMPUTE = true ∧
        hasStage STAGE_ALL_BITS STAGE_COMPUTE = true ∧
        hasStage (STAGE_GEOMETRY_BIT ||| STAGE_FRAGMENT_BIT) STAGE_COMPUTE = false := by
      decide
    obtain ⟨e0, e1, e2, e3, e4, e5, e6⟩ := e
    simp only [vkStagesToTracker, hasStage_orIfAny, and_or_ne_zero, e0, e1, e2, e3, e4, e5, e6,
      Bool.and_true, Bool.and_false, Bool.or_false, Bool.false_or, Bool.or_eq_true,
      decide_eq_true_eq, or_assoc]
  · exact orIfAny_lt _ _ _ _ (by decide) (orIfAny_lt _ _ _ _ (by decide)
      (orIfAny_lt _ _ _ _ (by decide) (orIfAny_lt _ _ _ _ (by decide)
        (orIfAny_lt _ _ _ _ (by decide) (orIfAny_lt _ _ _ _ (by decide) (by decide))))))

theorem or_and_self_ne_zero (m a : Nat) (ha : a ≠ 0) : (m ||| a) &&& a ≠ 0 := by
  have h : (m ||| a) &&& a = a := by
    apply Nat.eq_of_testBit_eq
    intro i
    simp only [Nat.testBit_and, Nat.testBit_or]
    cases m.testBit i <;> cases a.testBit i <;> rfl
  rw [h]
  exact ha

theorem vkStagesToTracker_lt (m : Nat) : vkStagesToTracker m < 2 ^ 4 :=
  orIfAny_lt _ _ _ _ (by decide) (orIfAny_lt _ _ _ _ (by decide)
    (orIfAny_lt _ _ _ _ (by decide) (orIfAny_lt _ _ _ _ (by decide)
      (orIfAny_lt _ _ _ _ (by decide) (orIfAny_lt _ _ _ _ (by decide) (by decide))))))

theorem all_stages_of_hasStage :
    ∀ x, x < 2 ^ 4 → (∀ s : Stage, hasStage x s = true) → x = STAGE_ALL_BITS := by
  decide

theorem vkStagesToTracker_all_commands (m : Nat) :
    vkStagesToTracker (m ||| VK_PIPELINE_STAGE_ALL_COMMANDS_BIT) = STAGE_ALL_BITS := by
  refine all_stages_of_hasStage _ (vkStagesToTracker_lt _) (fun s => ?_)
  have hc := or_and_self_ne_zero m VK_PIPELINE_STAGE_ALL_COMMANDS_BIT (by decide)
  have e5 : hasStage STAGE_ALL_BITS s = true := by
    revert s
    decide
  simp only [vkStagesToTracker, hasStage_orIfAny, hc, e5, ne_eq, not_false_eq_true,
    decide_True, Bool.and_true, Bool.or_true, Bool.true_or, Bool.true_and]

/-- C19: the closures recorded by `vkCmdPipelineBarrier` outside a render pass, by
`vkCmdSetEvent` and by `vkCmdWaitEvents` pass to the tracker all four stages as source mask
when the recorded source mask contains BOTTOM_OF_PIPE and `vkStagesToTracker` of the
recorded mask otherwise, and all four stages as destination mask when the recorded
destination mask contains TOP_OF_PIPE and `vkStagesToTracker` of the recorded mask
otherwise. -/
theorem recorded_masks_normalised (src dst event : Nat) (events : List Nat) :
    CommandBuffer.pipelineBarrier false src dst =
      [.pipelineBarrier
        (if src &&& VK_PIPELINE_STAGE_BOTTOM_OF_PIPE_BIT ≠ 0 then STAGE_ALL_BITS
          else vkStagesToTracker src)
        (if dst &&& VK_PIPELINE_STAGE_TOP_OF_PIPE_BIT ≠ 0 then STAGE_ALL_BITS
          else vkStagesToTracker dst)] ∧
    CmdSetEvent event src =
      .signalEvent event
        (if src &&& VK_PIPELINE_STAGE_BOTTOM_OF_PIPE_BIT ≠ 0 then STAGE_ALL_BITS
          else vkStagesToTracker src) ∧
    CmdWaitEvents events src dst =
      events.map (fun e => .waitEvent e
        (if dst &&& VK_PIPELINE_STAGE_TOP_OF_PIPE_BIT ≠ 0 then STAGE_ALL_BITS
          else vkStagesToTracker dst)) := by
  have hs : vkStagesToTracker (normalizeSrc src) =
      if src &&& VK_PIPELINE_STAGE_BOTTOM_OF_PIPE_BIT ≠ 0 then STAGE_ALL_BITS
      else vkStagesToTracker src := by
    unfold normalizeSrc
    split
    · exact vkStagesToTracker_all_commands src
    · rfl
  have hd : vkStagesToTracker (normalizeDst dst) =
      if dst &&& VK_PIPELINE_STAGE_TOP_OF_PIPE_BIT ≠ 0 then STAGE_ALL_BITS
      else vkStagesToTracker dst := by
    unfold normalizeDst
    split
    · exact vkStagesToTracker_all_commands dst
    · rfl
  refine ⟨?_, ?_, ?_⟩
  · simp only [CommandBuffer.pipelineBarrier, recordedPipelineBarrier, hs, hd]
    rfl
  · simp only [CmdSetEvent, hs]
  · simp only [CmdWaitEvents, hd]

/-! ## Theorems: `testCache` -/

theorem testCacheLoop_some (value : Nat) (d : Nat → CacheEntry) (l : List Nat) (lru i : Nat)
    (h : (testCacheLoop value d l lru).1 = some i) : i ∈ l ∧ (d i).value = value := by
  induction l generalizing lru with
  | nil => simp [testCacheLoop] at h
  | cons a l ih =>
    unfold testCacheLoop at h
    split at h
    · next ha =>
      simp only [Option.some.injEq] at h
      subst h
      exact ⟨List.mem_cons_self _ _, ha⟩
    · obtain ⟨h1, h2⟩ := ih _ h
      exact ⟨List.mem_cons_of_mem _ h1, h2⟩

theorem testCacheLoop_none (value : Nat) (d : Nat → CacheEntry) (l : List Nat) (lru : Nat)
    (h : ∀ i ∈ l, (d i).value ≠ value) :
    (testCacheLoop value d l lru).1 = none ∧
    ((testCacheLoop value d l lru).2 = lru ∨ (testCacheLoop value d l lru).2 ∈ l) ∧
    (d (testCacheLoop value d l lru).2).age ≤ (d lru).age ∧
    ∀ i ∈ l, (d (testCacheLoop value d l lru).2).age ≤ (d i).age := by
  induction l generalizing lru with
  | nil => simp [testCacheLoop]
  | cons a l ih =>
    have ha : (d a).value ≠ value := h a (List.mem_cons_self _ _)
    have hl : ∀ i ∈ l, (d i).value ≠ value := fun i hi => h i (List.mem_cons_of_mem _ hi)
    unfold testCacheLoop
    rw [if_neg ha]
    obtain ⟨h1, h2, h3, h4⟩ := ih (if (d a).age < (d lru).age then a else lru) hl
    refine ⟨h1, ?_, ?_, ?_⟩
    · rcases h2 with h2 | h2
      · rw [h2]
        split
        · exact Or.inr (List.mem_cons_self _ _)
        · exact Or.inl rfl
      · exact Or.inr (List.mem_cons_of_mem _ h2)
    · refine Nat.le_trans h3 ?_
      split
      · next hlt => exact Nat.le_of_lt hlt
      · exact Nat.le_refl _
    · intro i hi
      rcases List.mem_cons.1 hi with rfl | hi
      · refine Nat.le_trans h3 ?_
        split
        · exact Nat.le_refl _
        · next hlt => exact Nat.le_of_not_lt hlt
      · exact h4 i hi

theorem testCacheLoop_found (value : Nat) (d : Nat → CacheEntry) (l : List Nat) (lru : Nat)
    (h : ∃ i ∈ l, (d i).value = value) :
    ∃ i, (testCacheLoop value d l lru).1 = some i := by
  induction l generalizing lru with
  | nil => simp at h
  | cons a l ih =>
    unfold testCacheLoop
    by_cases ha : (d a).value = value
    · exact ⟨a, by rw [if_pos ha]⟩
    · rw [if_neg ha]
      obtain ⟨i, hi, hv⟩ := h
      rcases List.mem_cons.1 hi with rfl | hi
      · exact absurd hv ha
      · exact ih _ ⟨i, hi, hv⟩

/-- A lookup of a value that none of the searched entries holds, while the cache is still
filling: the value goes to slot `iteration`. -/
theorem testCache_miss_filling (v t : Nat) (d : Nat → CacheEntry) (cs : Nat)
    (h : ∀ i, i < min t cs → (d i).value ≠ v) (ht : t < cs) :
    testCache v t d cs = some (false, Function.update d t ⟨v, t⟩) := by
  have hn := (testCacheLoop_none v d (List.range (min t cs)) 0
    (fun i hi => h i (List.mem_range.1 hi))).1
  unfold testCache
  generalize testCacheLoop v d (List.range (min t cs)) 0 = r at hn
  obtain ⟨r1, r2⟩ := r
  simp only at hn
  subst hn
  simp [ht]

/-- A lookup of a value that none of the entries holds, once the cache is full: the value
replaces an entry of minimum age. -/
theorem testCache_miss_full (v t : Nat) (d : Nat → CacheEntry) (cs : Nat)
    (h : ∀ i, i < min t cs → (d i).value ≠ v) (ht : cs ≤ t) (hcs : 0 < cs) :
    ∃ lru, lru < cs ∧ (∀ i, i < cs → (d lru).age ≤ (d i).age) ∧
      testCache v t d cs = some (false, Function.update d lru ⟨v, t⟩) := by
  obtain ⟨hn, hmem, _, hmin⟩ := testCacheLoop_none v d (List.range (min t cs)) 0
    (fun i hi => h i (List.mem_range.1 hi))
  have hmin_eq : min t cs = cs := Nat.min_eq_right ht
  refine ⟨(testCacheLoop v d (List.range (min t cs)) 0).2, ?_, ?_, ?_⟩
  · rcases hmem with h0 | h0
    · rw [h0]
      exact hcs
    · rw [hmin_eq] at h0 ⊢
      exact List.mem_range.1 h0
  · intro i hi
    exact hmin i (List.mem_range.2 (by rw [hmin_eq]; exact hi))
  · have hlt : (testCacheLoop v d (List.range (min t cs)) 0).2 < cs := by
      rcases hmem with h0 | h0
      · rw [h0]
        exact hcs
      · rw [hmin_eq] at h0 ⊢
        exact List.mem_range.1 h0
    unfold testCache
    generalize testCacheLoop v d (List.range (min t cs)) 0 = r at hn hlt
    obtain ⟨r1, r2⟩ := r
    simp only at hn hlt
    subst hn
    simp [Nat.not_lt.2 ht, hlt]

/-- A lookup of a value that one of the searched entries holds: only the age of one entry
holding the value changes. -/
theorem testCache_hit (v t : Nat) (d : Nat → CacheEntry) (cs : Nat)
    (h : ∃ i, i < min t cs ∧ (d i).value = v) :
    ∃ i, i < min t cs ∧ (d i).value = v ∧
      testCache v t d cs = some (true, Function.update d i ⟨v, t⟩) := by
  obtain ⟨j, hj, hv⟩ := h
  obtain ⟨i, hi⟩ := testCacheLoop_found v d (List.range (min t cs)) 0
    ⟨j, List.mem_range.2 hj, hv⟩
  obtain ⟨hmem, hval⟩ := testCacheLoop_some v d _ 0 i hi
  refine ⟨i, List.mem_range.1 hmem, hval, ?_⟩
  unfold testCache
  generalize testCacheLoop v d (List.range (min t cs)) 0 = r at hi
  obtain ⟨r1, r2⟩ := r
  simp only at hi
  subst hi
  simp [hval]


/-! ## Theorems: the first loop of `scanIndices` -/

theorem foldl_filter_of_skip {α β : Type} (f : β → α → β) (p : α → Bool)
    (hskip : ∀ s x, p x = false → f s x = s) (l : List α) (s : β) :
    l.foldl f s = (l.filter p).foldl f s := by
  induction l generalizing s with
  | nil => rfl
  | cons a l ih =>
    cases hp : p a
    · rw [List.filter_cons_of_neg (by simp [hp]), List.foldl_cons, hskip s a hp, ih]
    · rw [List.filter_cons_of_pos (by simp [hp]), List.foldl_cons, List.foldl_cons, ih]

theorem scanStep_skip (r : Bool) (rv cs : Nat) (st : Option ScanState) (v : Nat)
    (h : isScanned r rv v = false) : scanStep r rv cs st v = st := by
  cases st with
  | none => rfl
  | some s => simp [scanStep, h]

theorem scanStep_of_testCache (r : Bool) (rv cs : Nat) (s : ScanState) (v : Nat) (hit : Bool)
    (entries : Nat → CacheEntry) (hs : isScanned r rv v = true)
    (h : testCache v s.iteration s.cacheEntries cs = some (hit, entries)) :
    scanStep r rv cs (some s) v =
      some { minValue := min s.minValue v, maxValue := max s.maxValue v,
             iteration := s.iteration + 1,
             vertexShadeCount := if hit then s.vertexShadeCount else s.vertexShadeCount + 1,
             cacheEntries := entries } := by
  simp [scanStep, hs, h]

theorem scanFirstPass_filter (r : Bool) (rv : Nat) (cache : CacheVector) (values : List Nat) :
    scanFirstPass r rv cache values =
      scanFirstPass r rv cache (values.filter (isScanned r rv)) := by
  unfold scanFirstPass
  exact foldl_filter_of_skip _ _ (fun s x h => scanStep_skip r rv _ s x h) values _

/-- Every lookup of a list of pairwise distinct values, none of which is among the values
`seen` that the searched part of the cache may hold, is a miss. -/
theorem scan_all_miss (r : Bool) (rv cs : Nat) (hcs : 0 < cs) (vs : List Nat) :
    ∀ (seen : List Nat) (s : ScanState), vs.Nodup → (∀ v ∈ vs, v ∉ seen) →
      (∀ v ∈ vs, isScanned r rv v = true) →
      (∀ i, i < min s.iteration cs → (s.cacheEntries i).value ∈ seen) →
      ∃ st, vs.foldl (scanStep r rv cs) (some s) = some st ∧
        st.vertexShadeCount = s.vertexShadeCount + vs.length ∧
        st.iteration = s.iteration + vs.length ∧
        st.minValue = vs.foldl min s.minValue ∧ st.maxValue = vs.foldl max s.maxValue := by
  induction vs with
  | nil => intro seen s _ _ _ _; exact ⟨s, rfl, rfl, rfl, rfl, rfl⟩
  | cons v vs ih =>
    intro seen s hnd hseen hsc hinv
    have hv : ∀ i, i < min s.iteration cs → (s.cacheEntries i).value ≠ v := fun i hi e =>
      hseen v (List.mem_cons_self _ _) (e ▸ hinv i hi)
    have hnd' := (List.nodup_cons.1 hnd)
    -- the entry written and the new array
    obtain ⟨j, hj, htc⟩ : ∃ j, (j < cs ∧ (s.iteration < cs → j = s.iteration)) ∧
        testCache v s.iteration s.cacheEntries cs =
          some (false, Function.update s.cacheEntries j ⟨v, s.iteration⟩) := by
      by_cases ht : s.iteration < cs
      · exact ⟨s.iteration, ⟨ht, fun _ => rfl⟩, testCache_miss_filling v _ _ cs hv ht⟩
      · obtain ⟨lru, h1, _, h3⟩ := testCache_miss_full v _ _ cs hv (Nat.le_of_not_lt ht) hcs
        exact ⟨lru, ⟨h1, fun h => absurd h ht⟩, h3⟩
    rw [List.foldl_cons, scanStep_of_testCache r rv cs s v false _
      (hsc v (List.mem_cons_self _ _)) htc]
    obtain ⟨st, h1, h2, h3, h4, h5⟩ := ih (v :: seen)
      { minValue := min s.minValue v, maxValue := max s.maxValue v,
        iteration := s.iteration + 1,
        vertexShadeCount := if false = true then s.vertexShadeCount else s.vertexShadeCount + 1,
        cacheEntries := Function.update s.cacheEntries j ⟨v, s.iteration⟩ } hnd'.2
      (fun w hw hmem => by
        rcases List.mem_cons.1 hmem with e | e
        · exact hnd'.1 (e ▸ hw)
        · exact hseen w (List.mem_cons_of_mem _ hw) e)
      (fun w hw => hsc w (List.mem_cons_of_mem _ hw))
      (fun i hi => by
        show (Function.update s.cacheEntries j ⟨v, s.iteration⟩ i).value ∈ v :: seen
        by_cases hij : i = j
        · subst hij
          simp
        · rw [Function.update_noteq hij]
          refine List.mem_cons_of_mem _ (hinv i ?_)
          simp only [Nat.lt_min] at hi ⊢
          refine ⟨?_, hi.2⟩
          by_cases ht : s.iteration < cs
          · have := hj.2 ht
            omega
          · omega)
    refine ⟨st, h1, ?_, ?_, h4, h5⟩
    · rw [h2]
      simp only [List.length_cons, Bool.false_eq_true, if_false]
      omega
    · rw [h3]
      simp only [List.length_cons]
      omega

theorem foldl_min_le (vs : List Nat) (a : Nat) :
    vs.foldl min a ≤ a ∧ ∀ v ∈ vs, vs.foldl min a ≤ v := by
  induction vs generalizing a with
  | nil => simp
  | cons x vs ih =>
    simp only [List.foldl_cons]
    obtain ⟨h1, h2⟩ := ih (min a x)
    refine ⟨Nat.le_trans h1 (Nat.min_le_left _ _), fun v hv => ?_⟩
    rcases List.mem_cons.1 hv with rfl | hv
    · exact Nat.le_trans h1 (Nat.min_le_right _ _)
    · exact h2 v hv

theorem foldl_min_mem (vs : List Nat) (a : Nat) : vs.foldl min a = a ∨ vs.foldl min a ∈ vs := by
  induction vs generalizing a with
  | nil => simp
  | cons x vs ih =>
    simp only [List.foldl_cons]
    rcases ih (min a x) with h | h
    · rw [h]
      rcases Nat.le_total a x with hle | hle
      · exact Or.inl (Nat.min_eq_left hle)
      · exact Or.inr (by rw [Nat.min_eq_right hle]; exact List.mem_cons_self _ _)
    · exact Or.inr (List.mem_cons_of_mem _ h)

theorem le_foldl_max (vs : List Nat) (a : Nat) :
    a ≤ vs.foldl max a ∧ ∀ v ∈ vs, v ≤ vs.foldl max a := by
  induction vs generalizing a with
  | nil => simp
  | cons x vs ih =>
    simp only [List.foldl_cons]
    obtain ⟨h1, h2⟩ := ih (max a x)
    refine ⟨Nat.le_trans (Nat.le_max_left _ _) h1, fun v hv => ?_⟩
    rcases List.mem_cons.1 hv with rfl | hv
    · exact Nat.le_trans (Nat.le_max_right _ _) h1
    · exact h2 v hv

theorem foldl_max_mem (vs : List Nat) (a : Nat) : vs.foldl max a = a ∨ vs.foldl max a ∈ vs := by
  induction vs generalizing a with
  | nil => simp
  | cons x vs ih =>
    simp only [List.foldl_cons]
    rcases ih (max a x) with h | h
    · rw [h]
      rcases Nat.le_total a x with hle | hle
      · exact Or.inr (by rw [Nat.max_eq_right hle]; exact List.mem_cons_self _ _)
      · exact Or.inl (Nat.max_eq_left hle)
    · exact Or.inr (List.mem_cons_of_mem _ h)

/-- The minimum computed by the first loop, for a non-empty list of 32-bit values with
least element `lo`. -/
theorem foldl_min_eq (vs : List Nat) (lo : Nat) (hlo : lo ∈ vs) (hle : ∀ v ∈ vs, lo ≤ v)
    (h32 : ∀ v ∈ vs, v < UINT32_RANGE) : vs.foldl min (UINT32_RANGE - 1) = lo := by
  apply Nat.le_antisymm ((foldl_min_le vs _).2 lo hlo)
  rcases foldl_min_mem vs (UINT32_RANGE - 1) with h | h
  · rw [h]
    have := h32 lo hlo
    omega
  · exact hle _ h

/-- The maximum computed by the first loop, for a non-empty list with greatest element
`hi`. -/
theorem foldl_max_eq (vs : List Nat) (hi : Nat) (hhi : hi ∈ vs) (hle : ∀ v ∈ vs, v ≤ hi) :
    vs.foldl max 0 = hi := by
  apply Nat.le_antisymm _ ((le_foldl_max vs _).2 hi hhi)
  rcases foldl_max_mem vs 0 with h | h
  · rw [h]
    exact Nat.zero_le _
  · exact hle _ h


/-! ## Theorems: the second loop of `scanIndices` and `verticesReferenced` -/

theorem occupancyStep_skip (r : Bool) (rv lo hi nb : Nat) (st : Option OccupancyState) (v : Nat)
    (h : isScanned r rv v = false) : occupancyStep r rv lo hi nb st v = st := by
  cases st with
  | none => rfl
  | some s => simp [occupancyStep, h]

theorem occupancy_bit (lo v w j : Nat) (hj : j < 64) :
    (decide (w = (v - lo) / 64) && (1 <<< ((v - lo) &&& 63)).testBit j) =
      decide (v - lo = 64 * w + j) := by
  have h63 : (v - lo) &&& 63 = (v - lo) % 64 := Nat.and_pow_two_sub_one_eq_mod (v - lo) 6
  rw [h63, Nat.one_shiftLeft, Nat.testBit_two_pow, Bool.eq_iff_iff]
  simp only [Bool.and_eq_true, decide_eq_true_eq]
  omega

/-- The second loop sets exactly the bits of the offsets `v - minValue` of the scanned
values, and no bucket access is out of bounds when the bucket count does not wrap. -/
theorem occupancy_fold (r : Bool) (rv lo hi : Nat) (hwrap : hi - lo + 64 < UINT32_RANGE)
    (vs : List Nat) :
    ∀ occ0 : OccupancyState, (∀ v ∈ vs, isScanned r rv v = true) →
      (∀ v ∈ vs, lo ≤ v ∧ v ≤ hi) →
      ∃ occ, vs.foldl (occupancyStep r rv lo hi
          ((((hi - lo + 1) % UINT32_RANGE + 63) % UINT32_RANGE) / 64)) (some occ0) = some occ ∧
        ∀ w j, j < 64 → (occ.buckets w).testBit j =
          ((occ0.buckets w).testBit j || decide (64 * w + j ∈ vs.map (fun v => v - lo))) := by
  induction vs with
  | nil =>
    intro occ0 _ _
    exact ⟨occ0, rfl, fun w j _ => by simp⟩
  | cons v vs ih =>
    intro occ0 hsc hrange
    obtain ⟨hlo, hhi⟩ := hrange v (List.mem_cons_self _ _)
    have hoff : (v + UINT32_RANGE - lo) % UINT32_RANGE = v - lo := by
      have : v + UINT32_RANGE - lo = (v - lo) + UINT32_RANGE := by omega
      rw [this, Nat.add_mod_right, Nat.mod_eq_of_lt]
      omega
    have hnb : (((hi - lo + 1) % UINT32_RANGE + 63) % UINT32_RANGE) / 64 = (hi - lo) / 64 + 1 := by
      have e1 : (hi - lo + 1) % UINT32_RANGE = hi - lo + 1 := Nat.mod_eq_of_lt (by omega)
      have e2 : (hi - lo + 1 + 63) % UINT32_RANGE = hi - lo + 1 + 63 :=
        Nat.mod_eq_of_lt (by omega)
      rw [e1, e2]
      omega
    have hidx : (v - lo) / 64 < (hi - lo) / 64 + 1 :=
      Nat.lt_succ_of_le (Nat.div_le_div_right (by omega))
    rw [List.foldl_cons]
    have hstep : occupancyStep r rv lo hi
        ((((hi - lo + 1) % UINT32_RANGE + 63) % UINT32_RANGE) / 64) (some occ0) v =
        some { buckets := Function.update occ0.buckets ((v - lo) / 64)
                 (occ0.buckets ((v - lo) / 64) ||| 1 <<< ((v - lo) &&& 63))
               fragmentation := occ0.fragmentation.set
                 ((v - lo) * 16 % UINT32_RANGE / ((hi - lo + 1) % UINT32_RANGE)) true } := by
      simp only [occupancyStep, hsc v (List.mem_cons_self _ _), hoff, hnb, hidx, if_true]
    rw [hstep]
    obtain ⟨occ, h1, h2⟩ := ih _ (fun u hu => hsc u (List.mem_cons_of_mem _ hu))
      (fun u hu => hrange u (List.mem_cons_of_mem _ hu))
    refine ⟨occ, h1, fun w j hj => ?_⟩
    rw [h2 w j hj]
    have hb := occupancy_bit lo v w j hj
    simp only [List.map_cons, List.mem_cons]
    by_cases hw : w = (v - lo) / 64
    · subst hw
      simp only [Function.update_same, Nat.testBit_or]
      simp only [decide_True, Bool.true_and] at hb
      rw [hb, Bool.or_assoc, Bool.eq_iff_iff]
      simp only [Bool.or_eq_true, decide_eq_true_eq]
      constructor
      · rintro (h | h | h)
        · exact Or.inl h
        · exact Or.inr (Or.inl h.symm)
        · exact Or.inr (Or.inr h)
      · rintro (h | h | h)
        · exact Or.inl h
        · exact Or.inr (Or.inl h.symm)
        · exact Or.inr (Or.inr h)
    · rw [Function.update_noteq hw]
      have hne : ¬ (64 * w + j = v - lo) := by omega
      simp [hne]

theorem sum_countP_blocks (p : Nat → Bool) (n : Nat) :
    ((List.range n).map (fun w => (List.range 64).countP (fun j => p (64 * w + j)))).sum =
      (List.range (64 * n)).countP p := by
  induction n with
  | zero => rfl
  | succ n ih =>
    have key : List.range (n + 1) = List.range n ++ [n] := List.range_succ n
    rw [key, List.map_append, Nat.sum_append, ih, Nat.mul_succ, List.range_add,
      List.countP_append, List.countP_map]
    simp only [List.map_cons, List.map_nil, List.sum_cons, List.sum_nil, Nat.add_zero]
    rfl

/-- The count of the set bits below `m` of a bit set that holds exactly the members of
`offs`, all below `m`, is the number of distinct members of `offs`. -/
theorem countP_mem_range (offs : List Nat) (m : Nat) (hm : ∀ x ∈ offs, x < m) :
    (List.range m).countP (fun x => decide (x ∈ offs)) = offs.toFinset.card := by
  rw [List.countP_eq_length_filter,
    ← List.toFinset_card_of_nodup ((List.nodup_range m).filter _)]
  congr 1
  ext x
  simp only [List.mem_toFinset, List.mem_filter, List.mem_range, decide_eq_true_eq]
  exact ⟨fun h => h.2, fun h => ⟨hm x h, h⟩⟩

/-- The value of `verticesReferenced` after the second loop: the number of distinct offsets
`v - minValue`. -/
theorem verticesReferenced_eq (buckets : Nat → Nat) (n : Nat) (offs : List Nat)
    (hbits : ∀ w j, j < 64 → (buckets w).testBit j = decide (64 * w + j ∈ offs))
    (hm : ∀ x ∈ offs, x < 64 * n) :
    verticesReferenced buckets n = offs.toFinset.card := by
  unfold verticesReferenced popcount64
  rw [← countP_mem_range offs (64 * n) hm, ← sum_countP_blocks]
  congr 1
  apply List.map_congr_left
  intro w _
  apply List.countP_congr
  intro j hj
  rw [hbits w j (List.mem_range.1 hj)]


/-- The report of a scan that takes the occupancy pass: `verticesReferenced` is the number
of distinct offsets of the scanned values, and the two messages depend on the two
quotients only. -/
theorem scanReport_occupancy (fm : FloatOps) (cfg : Config fm) (r : Bool) (rv indexCount : Nat)
    (values : List Nat) (st : ScanState) (hle : st.minValue ≤ st.maxValue)
    (hlt : st.maxValue - st.minValue < indexCount)
    (hwrap : st.maxValue - st.minValue + 64 < UINT32_RANGE)
    (hrange : ∀ v ∈ values.filter (isScanned r rv), st.minValue ≤ v ∧ v ≤ st.maxValue) :
    ∃ occ, values.foldl (occupancyStep r rv st.minValue st.maxValue
        ((((st.maxValue - st.minValue + 1) % UINT32_RANGE + 63) % UINT32_RANGE) / 64))
        (some { buckets := fun _ => 0, fragmentation := List.replicate 16 false }) = some occ ∧
      verticesReferenced occ.buckets
          ((((st.maxValue - st.minValue + 1) % UINT32_RANGE + 63) % UINT32_RANGE) / 64) =
        ((values.filter (isScanned r rv)).map (fun v => v - st.minValue)).toFinset.card ∧
      scanReport fm cfg r rv indexCount values st =
        some ((if fm.lt
                (fm.div
                  (fm.ofUInt32 ((values.filter (isScanned r rv)).map
                    (fun v => v - st.minValue)).toFinset.card)
                  (fm.ofUInt32 (st.maxValue - st.minValue + 1)))
                cfg.indexBufferUtilizationThreshold
              then [ScanMessage.sparseFragmented occ.fragmentation] else []) ++
            (if fm.le
                (fm.div
                  (fm.ofUInt32 ((values.filter (isScanned r rv)).map
                    (fun v => v - st.minValue)).toFinset.card)
                  (fm.ofUInt32 st.vertexShadeCount))
                cfg.indexBufferCacheHitThreshold
              then [ScanMessage.cacheThrashing
                ((values.filter (isScanned r rv)).map (fun v => v - st.minValue)).toFinset.card
                st.vertexShadeCount] else [])) := by
  have hfold := foldl_filter_of_skip
    (occupancyStep r rv st.minValue st.maxValue
      ((((st.maxValue - st.minValue + 1) % UINT32_RANGE + 63) % UINT32_RANGE) / 64))
    (isScanned r rv) (fun s x h => occupancyStep_skip r rv _ _ _ s x h) values
    (some { buckets := fun _ => 0, fragmentation := List.replicate 16 false })
  obtain ⟨occ, hocc, hbits⟩ := occupancy_fold r rv st.minValue st.maxValue hwrap
    (values.filter (isScanned r rv))
    { buckets := fun _ => 0, fragmentation := List.replicate 16 false }
    (fun v hv => (List.mem_filter.1 hv).2) hrange
  have e1 : (st.maxValue - st.minValue + 1) % UINT32_RANGE = st.maxValue - st.minValue + 1 :=
    Nat.mod_eq_of_lt (by omega)
  have e2 : (st.maxValue - st.minValue + 1 + 63) % UINT32_RANGE =
      st.maxValue - st.minValue + 1 + 63 := Nat.mod_eq_of_lt (by omega)
  have href : verticesReferenced occ.buckets
      ((((st.maxValue - st.minValue + 1) % UINT32_RANGE + 63) % UINT32_RANGE) / 64) =
      ((values.filter (isScanned r rv)).map (fun v => v - st.minValue)).toFinset.card := by
    apply verticesReferenced_eq
    · intro w j hj
      rw [hbits w j hj]
      simp
    · intro x hx
      obtain ⟨v, hv, rfl⟩ := List.mem_map.1 hx
      have := hrange v hv
      rw [e1, e2]
      omega
  refine ⟨occ, hfold.trans hocc, href, ?_⟩
  unfold scanReport
  rw [if_neg (Nat.not_lt.2 hle), if_neg (by omega)]
  have hf2 := hfold.trans hocc
  simp only [hf2, href]
  simp only [e1]


/-! ## Theorems: `scanIndices` on particular index sequences -/

theorem isScanned_no_restart (rv v : Nat) : isScanned false rv v = true := rfl

theorem filter_isScanned_no_restart (rv : Nat) (values : List Nat) :
    values.filter (isScanned false rv) = values :=
  List.filter_eq_self.2 (fun _ _ => rfl)

theorem scanCount_lt (indexType : VkIndexType) (indexCount : Nat) :
    scanCount indexType indexCount < 2 ^ 31 := by
  unfold scanCount
  have h : indexCount * scanStride indexType % UINT32_RANGE < UINT32_RANGE :=
    Nat.mod_lt _ (by decide)
  cases indexType <;> simp only [scanStride, UINT32_RANGE] at h ⊢ <;> omega

theorem scannedValues_length (indexType : VkIndexType) (data : Nat → Nat)
    (indexCount firstIndex : Nat) :
    (scannedValues indexType data indexCount firstIndex).length = scanCount indexType indexCount := by
  simp [scannedValues]

theorem scannedValues_lt (indexType : VkIndexType) (data : Nat → Nat) (indexCount firstIndex : Nat) :
    ∀ v ∈ scannedValues indexType data indexCount firstIndex, v < UINT32_RANGE := by
  intro v hv
  obtain ⟨k, _, rfl⟩ := List.mem_map.1 hv
  unfold readIndex
  have h : data (scanFirst indexType firstIndex + k) % 2 ^ (8 * scanStride indexType) <
      2 ^ (8 * scanStride indexType) := Nat.mod_lt _ (Nat.two_pow_pos _)
  cases indexType <;> simp only [scanStride, UINT32_RANGE] at h ⊢ <;> omega

theorem scanIndices_eq (fm : FloatOps) (cfg : Config fm) (cache : CacheVector) (data : Nat → Nat)
    (indexType : VkIndexType) (indexCount firstIndex : Nat) (r : Bool) (st : ScanState)
    (log : List ScanMessage)
    (h1 : scanFirstPass r (primitiveRestartValue indexType)
      (cache.resize cfg.indexBufferVertexPostTransformCache)
      (scannedValues indexType data indexCount firstIndex) = some st)
    (h2 : scanReport fm cfg r (primitiveRestartValue indexType) indexCount
      (scannedValues indexType data indexCount firstIndex) st = some log) :
    scanIndices fm cfg cache (some data) indexType indexCount firstIndex r =
      some (log, { size := cfg.indexBufferVertexPostTransformCache, data := st.cacheEntries }) := by
  simp only [scanIndices, h1, h2]
  rfl

/-- The first loop on pairwise distinct scanned values: every lookup is a miss, whatever the
cache array holds. -/
theorem scanFirstPass_all_miss (r : Bool) (rv : Nat) (cache : CacheVector) (vs : List Nat)
    (hcs : 0 < cache.size % UINT32_RANGE) (hnd : vs.Nodup)
    (hsc : ∀ v ∈ vs, isScanned r rv v = true) :
    ∃ st, scanFirstPass r rv cache vs = some st ∧ st.vertexShadeCount = vs.length ∧
      st.iteration = vs.length ∧ st.minValue = vs.foldl min (UINT32_RANGE - 1) ∧
      st.maxValue = vs.foldl max 0 := by
  obtain ⟨st, h1, h2, h3, h4, h5⟩ := scan_all_miss r rv (cache.size % UINT32_RANGE) hcs vs []
    { minValue := UINT32_RANGE - 1, maxValue := 0, iteration := 0, vertexShadeCount := 0,
      cacheEntries := cache.data } hnd (fun _ _ h => by simp at h) hsc
    (fun i hi => by simp at hi)
  exact ⟨st, h1, by simpa using h2, by simpa using h3, h4, h5⟩


theorem card_of_interval (vs : List Nat) (lo d : Nat)
    (hmem : ∀ v, v ∈ vs ↔ lo ≤ v ∧ v < lo + d) :
    (vs.map (fun v => v - lo)).toFinset.card = d := by
  have h : (vs.map (fun v => v - lo)).toFinset = Finset.range d := by
    ext x
    simp only [List.mem_toFinset, List.mem_map, Finset.mem_range]
    constructor
    · rintro ⟨v, hv, rfl⟩
      have := (hmem v).1 hv
      omega
    · intro hx
      exact ⟨lo + x, (hmem _).2 ⟨by omega, by omega⟩, by omega⟩
  rw [h, Finset.card_range]

theorem length_of_interval (vs : List Nat) (lo d : Nat) (hnd : vs.Nodup)
    (hmem : ∀ v, v ∈ vs ↔ lo ≤ v ∧ v < lo + d) : vs.length = d := by
  have h : (vs.map (fun v => v - lo)).Nodup := by
    refine hnd.map_on ?_
    intro a ha b hb hab
    have := (hmem a).1 ha
    have := (hmem b).1 hb
    omega
  rw [← card_of_interval vs lo d hmem, List.toFinset_card_of_nodup h, List.length_map]

/-- A scan whose scanned values are pairwise distinct and fill the range `[lo, lo + d)`:
the first loop counts `d` misses and finds the range, the second loop references `d`
vertices, and no message is logged when the quotient of a number by itself is 1 and 1 is
neither below the utilization threshold nor at or below the cache-hit threshold. -/
theorem scan_dense_core (fm : FloatOps) (cfg : Config fm) (cache : CacheVector) (data : Nat → Nat)
    (indexType : VkIndexType) (indexCount firstIndex : Nat) (r : Bool) (lo d : Nat)
    (hcap : 0 < cfg.indexBufferVertexPostTransformCache % UINT32_RANGE) (hd : 1 ≤ d)
    (hnd : ((scannedValues indexType data indexCount firstIndex).filter
      (isScanned r (primitiveRestartValue indexType))).Nodup)
    (hmem : ∀ v, v ∈ (scannedValues indexType data indexCount firstIndex).filter
      (isScanned r (primitiveRestartValue indexType)) ↔ lo ≤ v ∧ v < lo + d)
    (hcount : d ≤ indexCount)
    (hdiv : ∀ x, 0 < x → fm.div (fm.ofUInt32 x) (fm.ofUInt32 x) = fm.ofUInt32 1)
    (hU : fm.lt (fm.ofUInt32 1) cfg.indexBufferUtilizationThreshold = false)
    (hC : fm.le (fm.ofUInt32 1) cfg.indexBufferCacheHitThreshold = false) :
    ∃ st occ c,
      scanFirstPass r (primitiveRestartValue indexType)
        (cache.resize cfg.indexBufferVertexPostTransformCache)
        (scannedValues indexType data indexCount firstIndex) = some st ∧
      st.minValue = lo ∧ st.maxValue = lo + d - 1 ∧ st.vertexShadeCount = d ∧
      (scannedValues indexType data indexCount firstIndex).foldl
        (occupancyStep r (primitiveRestartValue indexType) st.minValue st.maxValue
          ((((st.maxValue - st.minValue + 1) % UINT32_RANGE + 63) % UINT32_RANGE) / 64))
        (some { buckets := fun _ => 0, fragmentation := List.replicate 16 false }) = some occ ∧
      verticesReferenced occ.buckets
        ((((st.maxValue - st.minValue + 1) % UINT32_RANGE + 63) % UINT32_RANGE) / 64) = d ∧
      scanIndices fm cfg cache (some data) indexType indexCount firstIndex r = some ([], c) := by
  have hsc : ∀ v ∈ (scannedValues indexType data indexCount firstIndex).filter
      (isScanned r (primitiveRestartValue indexType)),
      isScanned r (primitiveRestartValue indexType) v = true := fun v hv => (List.mem_filter.1 hv).2
  have h32 : ∀ v ∈ (scannedValues indexType data indexCount firstIndex).filter
      (isScanned r (primitiveRestartValue indexType)), v < UINT32_RANGE :=
    fun v hv => scannedValues_lt _ _ _ _ v (List.mem_filter.1 hv).1
  obtain ⟨st, hst, hvsc, _, hmin, hmax⟩ := scanFirstPass_all_miss r
    (primitiveRestartValue indexType) (cache.resize cfg.indexBufferVertexPostTransformCache)
    _ hcap hnd hsc
  rw [← scanFirstPass_filter] at hst
  have hlen := length_of_interval _ lo d hnd hmem
  have hlo : st.minValue = lo := by
    rw [hmin]
    exact foldl_min_eq _ lo ((hmem lo).2 ⟨Nat.le_refl _, by omega⟩)
      (fun v hv => ((hmem v).1 hv).1) h32
  have hhi : st.maxValue = lo + d - 1 := by
    rw [hmax]
    exact foldl_max_eq _ (lo + d - 1) ((hmem _).2 ⟨by omega, by omega⟩)
      (fun v hv => by have := ((hmem v).1 hv).2; omega)
  have hd31 : d < 2 ^ 31 := by
    have h1 := List.length_filter_le (isScanned r (primitiveRestartValue indexType))
      (scannedValues indexType data indexCount firstIndex)
    rw [hlen, scannedValues_length] at h1
    exact Nat.lt_of_le_of_lt h1 (scanCount_lt _ _)
  have hdiff : st.maxValue - st.minValue + 1 = d := by omega
  obtain ⟨occ, hocc, href, hrep⟩ := scanReport_occupancy fm cfg r
    (primitiveRestartValue indexType) indexCount
    (scannedValues indexType data indexCount firstIndex) st (by omega) (by omega)
    (by simp only [UINT32_RANGE]; omega)
    (fun v hv => by have := (hmem v).1 hv; omega)
  rw [hdiff, hvsc, hlen] at hrep
  rw [hlo, card_of_interval _ lo d hmem] at href hrep
  rw [hlo] at hocc
  rw [hdiv d (by omega), hU, hC] at hrep
  refine ⟨st, occ, { size := cfg.indexBufferVertexPostTransformCache, data := st.cacheEntries },
    hst, hlo, hhi, by rw [hvsc, hlen], ?_, ?_, ?_⟩
  · rw [hlo]
    exact hocc
  · rw [hlo]
    exact href
  · exact scanIndices_eq fm cfg cache data indexType indexCount firstIndex r st [] hst
      (by simpa using hrep)


/-- C15 (failing input): cache of two entries, thresholds 0.5, 16-bit indices. On a command
buffer that has not scanned before, scanning 0, 0, 1, 0, 1 logs nothing. On a command buffer
whose previous scan read 0, 2, 2, 2, 2, 2, the same scan logs a cache-thrashing message
(2 vertices referenced, 4 misses): the entry left in slot 1 by the previous scan is searched
after the hit at iteration 1 and, being the youngest, is never replaced. -/
theorem scan_depends_on_previous_scan :
    (scanIndices exactFractions twoEntryConfig CacheVector.empty (some indicesZeroZeroOne)
        .UINT16 5 0 false).map (fun r => r.1) = some [] ∧
    ((scanIndices exactFractions twoEntryConfig CacheVector.empty (some indicesZeroThenTwos)
        .UINT16 6 0 false).bind (fun r =>
          scanIndices exactFractions twoEntryConfig r.2 (some indicesZeroZeroOne)
            .UINT16 5 0 false)).map (fun r => r.1) = some [.cacheThrashing 2 4] := by
  decide


theorem exactFractions_div_self (x : Nat) (hx : 0 < x) :
    exactFractions.div (exactFractions.ofUInt32 x) (exactFractions.ofUInt32 x) =
      exactFractions.ofUInt32 1 := by
  simp [exactFractions, Nat.div_self hx]

/-- C11 (counterexample): first, a buffer of 32-bit indices holds the 2^30 pairwise distinct
values 0, 1, ..., 2^30 - 1 and is scanned with `indexCount = 2^30`: the byte count
`indexCount * scanStride` wraps to 0, no index is read and `vertexShadeCount` stays 0.
Second, with a cache capacity of 2^32 the `uint32_t` argument `cacheSize` of `testCache` is
0 and scanning the single index 0 fails the assertion `lru < cacheSize`. -/
theorem scan_dense_fails_at_wrap :
    (∀ k, k < 2 ^ 30 → readIndex .UINT32 indicesAscending k = k) ∧
    scannedValues .UINT32 indicesAscending (2 ^ 30) 0 = [] ∧
    (scanFirstPass false (primitiveRestartValue .UINT32) (CacheVector.empty.resize 32)
        (scannedValues .UINT32 indicesAscending (2 ^ 30) 0)).map
      (fun st => st.vertexShadeCount) = some 0 ∧
    (scannedValues .UINT16 indicesAscending 1 0 = [0] ∧
     (scanIndices exactFractions hugeCacheConfig CacheVector.empty (some indicesAscending)
        .UINT16 1 0 false).isNone = true) := by
  refine ⟨fun k hk => ?_, by decide, by decide, by decide, by decide⟩
  simp only [readIndex, indicesAscending, scanStride]
  exact Nat.mod_eq_of_lt (by omega)

/-- C11 (amended): let the scan read, with `indexCount = n`, `n >= 1` pairwise distinct
values that fill the range `[m, m + n)`, with primitive restart disabled and a cache
capacity whose 32-bit truncation is at least 1. Then the first loop finds
`minValue = m`, `maxValue = m + n - 1` and `vertexShadeCount = n`, the second loop gives
`verticesReferenced = n`, both quotients are `n / n`, and the scan returns without a
message when `x / x` is 1 and 1 is neither below the utilization threshold nor at or below
the cache-hit threshold. -/
theorem scan_dense_distinct (fm : FloatOps) (cfg : Config fm) (cache : CacheVector)
    (data : Nat → Nat) (indexType : VkIndexType) (n m firstIndex : Nat)
    (hcap : 0 < cfg.indexBufferVertexPostTransformCache % UINT32_RANGE) (hn : 1 ≤ n)
    (hperm : (scannedValues indexType data n firstIndex).Perm (List.range' m n))
    (hdiv : ∀ x, 0 < x → fm.div (fm.ofUInt32 x) (fm.ofUInt32 x) = fm.ofUInt32 1)
    (hU : fm.lt (fm.ofUInt32 1) cfg.indexBufferUtilizationThreshold = false)
    (hC : fm.le (fm.ofUInt32 1) cfg.indexBufferCacheHitThreshold = false) :
    ∃ st occ c,
      scanFirstPass false (primitiveRestartValue indexType)
        (cache.resize cfg.indexBufferVertexPostTransformCache)
        (scannedValues indexType data n firstIndex) = some st ∧
      st.minValue = m ∧ st.maxValue = m + n - 1 ∧ st.vertexShadeCount = n ∧
      (scannedValues indexType data n firstIndex).foldl
        (occupancyStep false (primitiveRestartValue indexType) st.minValue st.maxValue
          ((((st.maxValue - st.minValue + 1) % UINT32_RANGE + 63) % UINT32_RANGE) / 64))
        (some { buckets := fun _ => 0, fragmentation := List.replicate 16 false }) = some occ ∧
      verticesReferenced occ.buckets
        ((((st.maxValue - st.minValue + 1) % UINT32_RANGE + 63) % UINT32_RANGE) / 64) = n ∧
      scanIndices fm cfg cache (some data) indexType n firstIndex false = some ([], c) := by
  refine scan_dense_core fm cfg cache data indexType n firstIndex false m n hcap hn ?_ ?_
    (Nat.le_refl _) hdiv hU hC
  · rw [filter_isScanned_no_restart]
    exact hperm.nodup_iff.2 (List.nodup_range' m n)
  · intro v
    rw [filter_isScanned_no_restart, hperm.mem_iff, List.mem_range'_1]

/-- C11 (example): the 16-bit indices 0, 1, 2 scanned with the default configuration. -/
theorem scan_dense_distinct_witness :
    (scannedValues .UINT16 indicesAscending 3 0).Perm (List.range' 0 3) ∧
    ∃ st occ c,
      scanFirstPass false (primitiveRestartValue .UINT16)
        (CacheVector.empty.resize defaultConfig.indexBufferVertexPostTransformCache)
        (scannedValues .UINT16 indicesAscending 3 0) = some st ∧
      st.minValue = 0 ∧ st.maxValue = 0 + 3 - 1 ∧ st.vertexShadeCount = 3 ∧
      (scannedValues .UINT16 indicesAscending 3 0).foldl
        (occupancyStep false (primitiveRestartValue .UINT16) st.minValue st.maxValue
          ((((st.maxValue - st.minValue + 1) % UINT32_RANGE + 63) % UINT32_RANGE) / 64))
        (some { buckets := fun _ => 0, fragmentation := List.replicate 16 false }) = some occ ∧
      verticesReferenced occ.buckets
        ((((st.maxValue - st.minValue + 1) % UINT32_RANGE + 63) % UINT32_RANGE) / 64) = 3 ∧
      scanIndices exactFractions defaultConfig CacheVector.empty (some indicesAscending)
        .UINT16 3 0 false = some ([], c) :=
  ⟨by decide,
   scan_dense_distinct exactFractions defaultConfig CacheVector.empty indicesAscending .UINT16
    3 0 0 (by decide) (by decide) (by decide) exactFractions_div_self (by decide) (by decide)⟩


theorem scanReport_sparse (fm : FloatOps) (cfg : Config fm) (r : Bool) (rv indexCount : Nat)
    (values : List Nat) (st : ScanState) (hle : st.minValue ≤ st.maxValue)
    (hge : indexCount ≤ st.maxValue - st.minValue) :
    scanReport fm cfg r rv indexCount values st =
      some [.sparseRange indexCount ((st.maxValue - st.minValue + 1) % UINT32_RANGE)] := by
  unfold scanReport
  rw [if_neg (Nat.not_lt.2 hle), if_pos hge]

theorem filter_restart_sentinel (n : Nat) (hn : n ≤ 65535) :
    (List.range (n - 1) ++ [0xFFFF]).filter (isScanned true (primitiveRestartValue .UINT16)) =
      List.range (n - 1) := by
  rw [List.filter_append, List.filter_eq_self.2, List.filter_cons_of_neg, List.filter_nil,
    List.append_nil]
  · simp [isScanned, primitiveRestartValue]
  · intro k hk
    have := List.mem_range.1 hk
    simp only [isScanned, primitiveRestartValue, Bool.not_true, Bool.false_or, bne_iff_ne]
    omega

/-- C12: let the scan read, with `indexCount = n` and `2 <= n <= 65535`, the 16-bit values
0, 1, ..., `n - 2` followed by 0xFFFF, with a cache capacity whose 32-bit truncation is at
least 1. With primitive restart disabled the scan logs exactly the index-buffer-sparse
message of the early exit (`n` indices, range 65536) and no cache-thrashing message; with
primitive restart enabled it logs nothing, when `x / x` is 1 and 1 is neither below the
utilization threshold nor at or below the cache-hit threshold (as for thresholds 0.5). -/
theorem scan_sentinel (fm : FloatOps) (cfg : Config fm) (cache : CacheVector) (data : Nat → Nat)
    (n firstIndex : Nat) (hcap : 0 < cfg.indexBufferVertexPostTransformCache % UINT32_RANGE)
    (hn : 2 ≤ n) (hn' : n ≤ 65535)
    (hread : scannedValues .UINT16 data n firstIndex = List.range (n - 1) ++ [0xFFFF])
    (hdiv : ∀ x, 0 < x → fm.div (fm.ofUInt32 x) (fm.ofUInt32 x) = fm.ofUInt32 1)
    (hU : fm.lt (fm.ofUInt32 1) cfg.indexBufferUtilizationThreshold = false)
    (hC : fm.le (fm.ofUInt32 1) cfg.indexBufferCacheHitThreshold = false) :
    (∃ c, scanIndices fm cfg cache (some data) .UINT16 n firstIndex false =
      some ([.sparseRange n 65536], c)) ∧
    (∃ c, scanIndices fm cfg cache (some data) .UINT16 n firstIndex true = some ([], c)) := by
  constructor
  · have hnd : (List.range (n - 1) ++ [0xFFFF]).Nodup := by
      refine List.Nodup.append (List.nodup_range _) (List.nodup_singleton _) ?_
      intro a ha hb
      have := List.mem_range.1 ha
      simp only [List.mem_singleton] at hb
      omega
    obtain ⟨st, hst, _, _, hmin, hmax⟩ := scanFirstPass_all_miss false
      (primitiveRestartValue .UINT16) (cache.resize cfg.indexBufferVertexPostTransformCache)
      (List.range (n - 1) ++ [0xFFFF]) hcap hnd (fun _ _ => rfl)
    have hlo : st.minValue = 0 := by
      rw [hmin]
      refine foldl_min_eq _ 0 ?_ (fun _ _ => Nat.zero_le _) ?_
      · exact List.mem_append_left _ (List.mem_range.2 (by omega))
      · intro v hv
        rcases List.mem_append.1 hv with h | h
        · have := List.mem_range.1 h
          simp only [UINT32_RANGE]
          omega
        · simp only [List.mem_singleton] at h
          simp only [UINT32_RANGE]
          omega
    have hhi : st.maxValue = 0xFFFF := by
      rw [hmax]
      refine foldl_max_eq _ 0xFFFF (by simp) ?_
      intro v hv
      rcases List.mem_append.1 hv with h | h
      · have := List.mem_range.1 h
        omega
      · simp only [List.mem_singleton] at h
        omega
    rw [← hread] at hst
    refine ⟨_, scanIndices_eq fm cfg cache data .UINT16 n firstIndex false st _ hst ?_⟩
    rw [scanReport_sparse fm cfg false _ n _ st (by omega) (by omega), hlo, hhi]
    rfl
  · obtain ⟨_, _, c, _, _, _, _, _, _, h⟩ := scan_dense_core fm cfg cache data .UINT16 n firstIndex
      true 0 (n - 1) hcap (by omega)
      (by rw [hread, filter_restart_sentinel n hn']; exact List.nodup_range _)
      (fun v => by
        rw [hread, filter_restart_sentinel n hn', List.mem_range]
        omega)
      (by omega) hdiv hU hC
    exact ⟨c, h⟩

/-- C12 (example): the indices 0, 1, 2, 0xFFFF scanned with the default configuration. -/
theorem scan_sentinel_witness :
    scannedValues .UINT16 (indicesWithSentinel 4) 4 0 = List.range (4 - 1) ++ [0xFFFF] ∧
    (∃ c, scanIndices exactFractions defaultConfig CacheVector.empty
      (some (indicesWithSentinel 4)) .UINT16 4 0 false = some ([.sparseRange 4 65536], c)) ∧
    (∃ c, scanIndices exactFractions defaultConfig CacheVector.empty
      (some (indicesWithSentinel 4)) .UINT16 4 0 true = some ([], c)) :=
  ⟨by decide,
   scan_sentinel exactFractions defaultConfig CacheVector.empty (indicesWithSentinel 4) 4 0
    (by decide) (by decide) (by decide) (by decide) exactFractions_div_self (by decide)
    (by decide)⟩


/-! ## Theorems: reuse and thrashing -/

/-- One step of the first loop on a scanned value, with a cache of at least one entry: the
step returns, at most one miss is counted, none if the value was in the searched part of
the cache, and afterwards the value is in the searched part of the cache. -/
theorem scanStep_holds (r : Bool) (rv cs : Nat) (hcs : 0 < cs) (s : ScanState) (v : Nat)
    (hsc : isScanned r rv v = true) :
    ∃ s1, scanStep r rv cs (some s) v = some s1 ∧ s1.iteration = s.iteration + 1 ∧
      s1.minValue = min s.minValue v ∧ s1.maxValue = max s.maxValue v ∧
      s.vertexShadeCount ≤ s1.vertexShadeCount ∧ s1.vertexShadeCount ≤ s.vertexShadeCount + 1 ∧
      (cacheHolds cs s v → s1.vertexShadeCount = s.vertexShadeCount) ∧
      (s.iteration = 0 → s1.vertexShadeCount = s.vertexShadeCount + 1) ∧
      cacheHolds cs s1 v := by
  by_cases hp : cacheHolds cs s v
  · obtain ⟨i, hi, hv, htc⟩ := testCache_hit v s.iteration s.cacheEntries cs hp
    refine ⟨_, scanStep_of_testCache r rv cs s v true _ hsc htc, rfl, rfl, rfl, ?_, ?_, ?_, ?_, ?_⟩
    · simp
    · simp
    · intro _
      simp
    · intro h0
      rw [h0] at hi
      simp at hi
    · refine ⟨i, ?_, by simp⟩
      simp only [Nat.lt_min] at hi ⊢
      exact ⟨by omega, hi.2⟩
  · have hv : ∀ i, i < min s.iteration cs → (s.cacheEntries i).value ≠ v :=
      fun i hi e => hp ⟨i, hi, e⟩
    by_cases ht : s.iteration < cs
    · have htc := testCache_miss_filling v s.iteration s.cacheEntries cs hv ht
      refine ⟨_, scanStep_of_testCache r rv cs s v false _ hsc htc, rfl, rfl, rfl, ?_, ?_, ?_, ?_,
        ?_⟩
      · simp
      · simp
      · intro h
        exact absurd h hp
      · intro _
        simp
      · refine ⟨s.iteration, ?_, by simp⟩
        simp only [Nat.lt_min]
        exact ⟨by omega, ht⟩
    · obtain ⟨lru, hl, _, htc⟩ := testCache_miss_full v s.iteration s.cacheEntries cs hv
        (Nat.le_of_not_lt ht) hcs
      refine ⟨_, scanStep_of_testCache r rv cs s v false _ hsc htc, rfl, rfl, rfl, ?_, ?_, ?_, ?_,
        ?_⟩
      · simp
      · simp
      · intro h
        exact absurd h hp
      · intro _
        simp
      · refine ⟨lru, ?_, by simp⟩
        simp only [Nat.lt_min]
        exact ⟨by omega, hl⟩

/-- The first loop on a non-decreasing list of scanned values that starts at or above a
value `prev` held by the cache: the number of misses is at most the increase of the
maximum. -/
theorem scan_nondecreasing (r : Bool) (rv cs : Nat) (hcs : 0 < cs) (vs : List Nat) :
    ∀ (prev : Nat) (s : ScanState), List.Chain (· ≤ ·) prev vs → cacheHolds cs s prev →
      (∀ v ∈ vs, isScanned r rv v = true) →
      ∃ st, vs.foldl (scanStep r rv cs) (some s) = some st ∧
        st.minValue = vs.foldl min s.minValue ∧ st.maxValue = vs.foldl max s.maxValue ∧
        s.vertexShadeCount ≤ st.vertexShadeCount ∧
        st.vertexShadeCount + prev ≤ s.vertexShadeCount + vs.foldl max prev := by
  induction vs with
  | nil =>
    intro prev s _ _ _
    exact ⟨s, rfl, rfl, rfl, Nat.le_refl _, Nat.le_refl _⟩
  | cons v vs ih =>
    intro prev s hchain hprev hsc
    obtain ⟨hpv, hchain'⟩ := List.chain_cons.1 hchain
    obtain ⟨s1, h1, _, hmin1, hmax1, hge, hle, hsame, _, hholds⟩ :=
      scanStep_holds r rv cs hcs s v (hsc v (List.mem_cons_self _ _))
    obtain ⟨st, h2, hmin, hmax, hge2, hle2⟩ := ih v s1 hchain' hholds
      (fun w hw => hsc w (List.mem_cons_of_mem _ hw))
    refine ⟨st, ?_, ?_, ?_, Nat.le_trans hge hge2, ?_⟩
    · rw [List.foldl_cons, h1, h2]
    · rw [hmin, hmin1, List.foldl_cons]
    · rw [hmax, hmax1, List.foldl_cons]
    · rw [List.foldl_cons, Nat.max_eq_right hpv]
      have hv := (le_foldl_max vs v).1
      rcases Nat.eq_or_lt_of_le hpv with e | e
      · have := hsame (e ▸ hprev)
        omega
      · omega

/-- The first loop on a non-empty, non-decreasing list of scanned values, whatever the
cache array holds at the start: between 1 and `maxValue - first + 1` misses. -/
theorem scanFirstPass_nondecreasing (r : Bool) (rv : Nat) (cache : CacheVector) (v : Nat)
    (vs : List Nat) (hcs : 0 < cache.size % UINT32_RANGE)
    (hchain : List.Chain (· ≤ ·) v vs) (hsc : ∀ w ∈ v :: vs, isScanned r rv w = true) :
    ∃ st, scanFirstPass r rv cache (v :: vs) = some st ∧
      st.minValue = (v :: vs).foldl min (UINT32_RANGE - 1) ∧
      st.maxValue = (v :: vs).foldl max 0 ∧
      1 ≤ st.vertexShadeCount ∧ st.vertexShadeCount + v ≤ 1 + vs.foldl max v := by
  obtain ⟨s1, h1, _, hmin1, hmax1, _, _, _, hfirst, hholds⟩ :=
    scanStep_holds r rv (cache.size % UINT32_RANGE) hcs
      { minValue := UINT32_RANGE - 1, maxValue := 0, iteration := 0, vertexShadeCount := 0,
        cacheEntries := cache.data } v (hsc v (List.mem_cons_self _ _))
  obtain ⟨st, h2, hmin, hmax, hge, hle⟩ := scan_nondecreasing r rv _ hcs vs v s1 hchain hholds
    (fun w hw => hsc w (List.mem_cons_of_mem _ hw))
  have hone : s1.vertexShadeCount = 1 := by simpa using hfirst rfl
  refine ⟨st, ?_, ?_, ?_, by omega, by omega⟩
  · unfold scanFirstPass
    rw [List.foldl_cons, h1, h2]
  · rw [hmin, hmin1, List.foldl_cons]
  · rw [hmax, hmax1, List.foldl_cons]


theorem scanCount_le (indexType : VkIndexType) (indexCount : Nat) :
    scanCount indexType indexCount ≤ indexCount := by
  unfold scanCount
  have h : indexCount * scanStride indexType % UINT32_RANGE ≤ indexCount * scanStride indexType :=
    Nat.mod_le _ _
  cases indexType <;> simp only [scanStride] at h ⊢ <;> omega

/-- A scan that reads nothing logs nothing. -/
theorem scanIndices_nil (fm : FloatOps) (cfg : Config fm) (cache : CacheVector) (data : Nat → Nat)
    (indexType : VkIndexType) (indexCount firstIndex : Nat) (r : Bool)
    (h : scannedValues indexType data indexCount firstIndex = []) :
    ∃ c, scanIndices fm cfg cache (some data) indexType indexCount firstIndex r = some ([], c) := by
  refine ⟨_, scanIndices_eq fm cfg cache data indexType indexCount firstIndex r
    { minValue := UINT32_RANGE - 1, maxValue := 0, iteration := 0, vertexShadeCount := 0,
      cacheEntries := (cache.resize cfg.indexBufferVertexPostTransformCache).data } [] ?_ ?_⟩
  · rw [h]
    rfl
  · simp [scanReport, UINT32_RANGE]

/-- A scan with restart disabled that reads a value while the 32-bit truncation of the
cache capacity is 0 fails the assertion of `testCache`. -/
theorem scanIndices_zero_capacity (fm : FloatOps) (cfg : Config fm) (cache : CacheVector)
    (data : Nat → Nat) (indexType : VkIndexType) (indexCount firstIndex : Nat)
    (hcap : cfg.indexBufferVertexPostTransformCache % UINT32_RANGE = 0)
    (h : scannedValues indexType data indexCount firstIndex ≠ []) :
    scanIndices fm cfg cache (some data) indexType indexCount firstIndex false = none := by
  have hnone : ∀ (vs : List Nat) (cs : Nat), vs.foldl (scanStep false
      (primitiveRestartValue indexType) cs) none = none := by
    intro vs cs
    induction vs with
    | nil => rfl
    | cons v vs ih => exact ih
  have hp : scanFirstPass false (primitiveRestartValue indexType)
      (cache.resize cfg.indexBufferVertexPostTransformCache)
      (scannedValues indexType data indexCount firstIndex) = none := by
    cases hv : scannedValues indexType data indexCount firstIndex with
    | nil => exact absurd hv h
    | cons v vs =>
      unfold scanFirstPass
      have hs : (cache.resize cfg.indexBufferVertexPostTransformCache).size % UINT32_RANGE = 0 :=
        hcap
      rw [List.foldl_cons, hs]
      have h1 : scanStep false (primitiveRestartValue indexType) 0
          (some { minValue := UINT32_RANGE - 1, maxValue := 0, iteration := 0,
                  vertexShadeCount := 0,
                  cacheEntries := (cache.resize cfg.indexBufferVertexPostTransformCache).data })
          v = none := by
        simp [scanStep, isScanned, testCache, testCacheLoop]
      rw [h1]
      exact hnone vs 0
  simp only [scanIndices, hp]

/-- The values of runs: a scan of `indexCount = K * R` over a buffer that holds each of
0, ..., K-1 `R` times in a row reads a prefix of that sequence. -/
theorem scannedValues_runs (indexType : VkIndexType) (data : Nat → Nat) (K R firstIndex : Nat)
    (hdata : ∀ p, p < K * R →
      readIndex indexType data (scanFirst indexType firstIndex + p) = p / R) :
    scannedValues indexType data (K * R) firstIndex =
      (List.range (scanCount indexType (K * R))).map (fun p => p / R) := by
  unfold scannedValues
  apply List.map_congr_left
  intro p hp
  exact hdata p (Nat.lt_of_lt_of_le (List.mem_range.1 hp) (scanCount_le _ _))

/-- A scan with restart disabled that reads the first `n >= 1` elements of a sequence of
runs of length `R`, with `n <= indexCount`, logs nothing, whatever the cache holds. -/
theorem scan_runs_core (fm : FloatOps) (cfg : Config fm) (cache : CacheVector) (data : Nat → Nat)
    (indexType : VkIndexType) (indexCount firstIndex R n : Nat)
    (hcap : 0 < cfg.indexBufferVertexPostTransformCache % UINT32_RANGE) (hR : 1 ≤ R)
    (hn : 1 ≤ n) (hle : n ≤ indexCount)
    (hvals : scannedValues indexType data indexCount firstIndex =
      (List.range n).map (fun p => p / R))
    (hdiv : ∀ x, 0 < x → fm.div (fm.ofUInt32 x) (fm.ofUInt32 x) = fm.ofUInt32 1)
    (hU : fm.lt (fm.ofUInt32 1) cfg.indexBufferUtilizationThreshold = false)
    (hC : ∀ a b, 0 < b → b ≤ a →
      fm.le (fm.div (fm.ofUInt32 a) (fm.ofUInt32 b)) cfg.indexBufferCacheHitThreshold = false) :
    ∃ c, scanIndices fm cfg cache (some data) indexType indexCount firstIndex false =
      some ([], c) := by
  have hn31 : n < 2 ^ 31 := by
    have h := scannedValues_length indexType data indexCount firstIndex
    rw [hvals, List.length_map, List.length_range] at h
    rw [h]
    exact scanCount_lt _ _
  obtain ⟨D, hDdef⟩ : ∃ D, D = (n - 1) / R := ⟨_, rfl⟩
  have hD : D ≤ n - 1 := hDdef ▸ Nat.div_le_self _ _
  have hmem : ∀ x, x ∈ scannedValues indexType data indexCount firstIndex ↔
      0 ≤ x ∧ x < 0 + (D + 1) := by
    intro x
    rw [hvals]
    simp only [List.mem_map, List.mem_range]
    constructor
    · rintro ⟨p, hp, rfl⟩
      have h1 : p / R ≤ (n - 1) / R := Nat.div_le_div_right (by omega)
      rw [← hDdef] at h1
      exact ⟨Nat.zero_le _, by omega⟩
    · rintro ⟨_, hx⟩
      have h1 : x * R ≤ D * R := Nat.mul_le_mul_right R (by omega)
      have h2 : (n - 1) / R * R ≤ n - 1 := Nat.div_mul_le_self _ _
      rw [← hDdef] at h2
      exact ⟨x * R, by omega, Nat.mul_div_cancel x (by omega)⟩
  have hsorted : (scannedValues indexType data indexCount firstIndex).Pairwise (· ≤ ·) := by
    rw [hvals, List.pairwise_map]
    exact (List.pairwise_lt_range n).imp (fun h => Nat.div_le_div_right (Nat.le_of_lt h))
  have h32 := scannedValues_lt indexType data indexCount firstIndex
  cases hv : scannedValues indexType data indexCount firstIndex with
  | nil =>
    have h := (hmem 0).2 ⟨Nat.le_refl _, by omega⟩
    rw [hv] at h
    simp at h
  | cons v vs =>
    rw [hv] at hmem hsorted h32
    have hchain : List.Chain (· ≤ ·) v vs := hsorted.chain
    have hv0 : v = 0 := by
      have h0 := (hmem 0).2 ⟨Nat.le_refl _, by omega⟩
      rcases List.mem_cons.1 h0 with h | h
      · exact h.symm
      · exact Nat.le_zero.1 (List.rel_of_pairwise_cons hsorted h)
    obtain ⟨st, hst, hmin, hmax, hge1, hvsc⟩ := scanFirstPass_nondecreasing false
      (primitiveRestartValue indexType) (cache.resize cfg.indexBufferVertexPostTransformCache)
      v vs hcap hchain (fun _ _ => rfl)
    have hlo : st.minValue = 0 := by
      rw [hmin]
      exact foldl_min_eq _ 0 ((hmem 0).2 ⟨Nat.le_refl _, by omega⟩)
        (fun w _ => Nat.zero_le w) h32
    have hhi : st.maxValue = D := by
      rw [hmax]
      exact foldl_max_eq _ D ((hmem _).2 ⟨by omega, by omega⟩)
        (fun w hw => by have := ((hmem w).1 hw).2; omega)
    have hmax2 : vs.foldl max v = st.maxValue := by
      rw [hmax, List.foldl_cons, hv0]
      rfl
    obtain ⟨occ, _, _, hrep⟩ := scanReport_occupancy fm cfg false
      (primitiveRestartValue indexType) indexCount (v :: vs) st (by omega) (by omega)
      (by simp only [UINT32_RANGE]; omega)
      (fun w hw => by
        rw [filter_isScanned_no_restart] at hw
        have := (hmem w).1 hw
        omega)
    rw [filter_isScanned_no_restart, hlo, card_of_interval _ 0 _ hmem, hhi, Nat.sub_zero,
      hdiv _ (by omega), hU, hC _ _ (by omega) (by omega)] at hrep
    exact ⟨_, scanIndices_eq fm cfg cache data indexType indexCount firstIndex false st []
      (by rw [hv]; exact hst) (by rw [hv]; simpa using hrep)⟩

/-- C14: a buffer holds, from the first index on, the sequence whose element at position
`j * R + i` is `j` (0 <= j < K, 0 <= i < R), with `R >= 1`, and is scanned with
`indexCount = K * R` and restart disabled. Whatever the cache array holds and whatever the
capacity is, the scan logs no message: every result it returns has an empty log; and it
does return when the 32-bit truncation of the capacity is at least 1. The floating-point
premises: `x / x` is 1, 1 is not below the utilization threshold, and a quotient `a / b`
with `a >= b > 0` is not at or below the cache-hit threshold (all true of 0.5). -/
theorem scan_runs_no_message (fm : FloatOps) (cfg : Config fm) (cache : CacheVector)
    (data : Nat → Nat) (indexType : VkIndexType) (K R firstIndex : Nat) (hR : 1 ≤ R)
    (hdata : ∀ p, p < K * R →
      readIndex indexType data (scanFirst indexType firstIndex + p) = p / R)
    (hdiv : ∀ x, 0 < x → fm.div (fm.ofUInt32 x) (fm.ofUInt32 x) = fm.ofUInt32 1)
    (hU : fm.lt (fm.ofUInt32 1) cfg.indexBufferUtilizationThreshold = false)
    (hC : ∀ a b, 0 < b → b ≤ a →
      fm.le (fm.div (fm.ofUInt32 a) (fm.ofUInt32 b)) cfg.indexBufferCacheHitThreshold = false) :
    (∀ log c, scanIndices fm cfg cache (some data) indexType (K * R) firstIndex false =
        some (log, c) → log = []) ∧
    (0 < cfg.indexBufferVertexPostTransformCache % UINT32_RANGE →
      ∃ c, scanIndices fm cfg cache (some data) indexType (K * R) firstIndex false =
        some ([], c)) := by
  have hvals := scannedValues_runs indexType data K R firstIndex hdata
  have hpos : 0 < cfg.indexBufferVertexPostTransformCache % UINT32_RANGE →
      ∃ c, scanIndices fm cfg cache (some data) indexType (K * R) firstIndex false =
        some ([], c) := by
    intro hcap
    rcases Nat.eq_zero_or_pos (scanCount indexType (K * R)) with h0 | h0
    · exact scanIndices_nil fm cfg cache data indexType (K * R) firstIndex false
        (by rw [hvals, h0]; rfl)
    · exact scan_runs_core fm cfg cache data indexType (K * R) firstIndex R _ hcap hR h0
        (scanCount_le _ _) hvals hdiv hU hC
  refine ⟨fun log c h => ?_, hpos⟩
  rcases Nat.eq_zero_or_pos (cfg.indexBufferVertexPostTransformCache % UINT32_RANGE) with
    hcap | hcap
  · rcases Nat.eq_zero_or_pos (scanCount indexType (K * R)) with h0 | h0
    · obtain ⟨c2, h2⟩ := scanIndices_nil fm cfg cache data indexType (K * R) firstIndex false
        (by rw [hvals, h0]; rfl)
      rw [h2] at h
      exact (Prod.mk.inj (Option.some.inj h)).1.symm
    · have hne : scannedValues indexType data (K * R) firstIndex ≠ [] := by
        intro e
        have := scannedValues_length indexType data (K * R) firstIndex
        rw [e] at this
        simp at this
        omega
      rw [scanIndices_zero_capacity fm cfg cache data indexType (K * R) firstIndex hcap hne] at h
      exact absurd h (by simp)
  · obtain ⟨c2, h2⟩ := hpos hcap
    rw [h2] at h
    exact (Prod.mk.inj (Option.some.inj h)).1.symm


/-- One step of the first loop on the next value of the blocks `0, ..., K-1`, with a cache
of fewer than `K` entries: the lookup is a miss and the invariant is kept. -/
theorem scanStep_block (r : Bool) (rv K cs : Nat) (hcs : 0 < cs) (hK : cs < K) (s : ScanState)
    (hsc : isScanned r rv (s.iteration % K) = true) (hinv : BlockInvariant K cs s) :
    ∃ s1, scanStep r rv cs (some s) (s.iteration % K) = some s1 ∧
      s1.iteration = s.iteration + 1 ∧ s1.vertexShadeCount = s.vertexShadeCount + 1 ∧
      s1.minValue = min s.minValue (s.iteration % K) ∧
      s1.maxValue = max s.maxValue (s.iteration % K) ∧ BlockInvariant K cs s1 := by
  obtain ⟨J1, J2, J3⟩ := hinv
  have hmiss : ∀ i, i < min s.iteration cs → (s.cacheEntries i).value ≠ s.iteration % K := by
    intro i hi e
    obtain ⟨h1, h2, h3⟩ := J1 i hi
    rw [h1] at e
    have hz := Nat.sub_mod_eq_zero_of_mod_eq e.symm
    have hd : K ∣ s.iteration - (s.cacheEntries i).age := Nat.dvd_of_mod_eq_zero hz
    have := Nat.le_of_dvd (by omega) hd
    omega
  by_cases ht : s.iteration < cs
  · have htc := testCache_miss_filling (s.iteration % K) s.iteration s.cacheEntries cs hmiss ht
    refine ⟨_, scanStep_of_testCache r rv cs s _ false _ hsc htc, rfl, by simp, rfl, rfl, ?_⟩
    have hage : ∀ i, i < s.iteration + 1 →
        (Function.update s.cacheEntries s.iteration ⟨s.iteration % K, s.iteration⟩ i).age = i ∧
        (Function.update s.cacheEntries s.iteration ⟨s.iteration % K, s.iteration⟩ i).value =
          i % K := by
      intro i hi
      by_cases e : i = s.iteration
      · subst e
        simp
      · have hi2 : i < s.iteration := by omega
        have hi3 : i < min s.iteration cs := by
          simp only [Nat.lt_min]
          omega
        rw [Function.update_noteq e]
        have := J3 (by omega) i hi2
        exact ⟨this, by rw [(J1 i hi3).1, this]⟩
    refine ⟨?_, ?_, ?_⟩
    · intro i hi
      simp only [Nat.lt_min] at hi
      obtain ⟨h1, h2⟩ := hage i hi.1
      simp only [h1, h2, true_and]
      omega
    · intro i j hi hj e
      simp only [Nat.lt_min] at hi hj
      simp only [(hage i hi.1).1, (hage j hj.1).1] at e
      exact e
    · intro _ i hi
      exact (hage i hi).1
  · have hle : cs ≤ s.iteration := Nat.le_of_not_lt ht
    have hmin : min s.iteration cs = cs := Nat.min_eq_right hle
    obtain ⟨lru, hl, hmin_age, htc⟩ := testCache_miss_full (s.iteration % K) s.iteration
      s.cacheEntries cs hmiss hle hcs
    refine ⟨_, scanStep_of_testCache r rv cs s _ false _ hsc htc, rfl, by simp, rfl, rfl, ?_⟩
    have hmin1 : min (s.iteration + 1) cs = cs := Nat.min_eq_right (by omega)
    have hlru := J1 lru (by rw [hmin]; exact hl)
    have hold : ∀ i, i < cs → i ≠ lru →
        Function.update s.cacheEntries lru ⟨s.iteration % K, s.iteration⟩ i =
          s.cacheEntries i := fun i _ e => Function.update_noteq e _ _
    refine ⟨?_, ?_, ?_⟩ <;> dsimp only
    · intro i hi
      simp only [hmin1] at hi
      by_cases e : i = lru
      · subst e
        simp
        omega
      · rw [hold i hi e]
        obtain ⟨h1, h2, h3⟩ := J1 i (by rw [hmin]; exact hi)
        have h4 := hmin_age i hi
        have h5 : (s.cacheEntries lru).age ≠ (s.cacheEntries i).age := fun h =>
          e (J2 lru i (by rw [hmin]; exact hl) (by rw [hmin]; exact hi) h).symm
        refine ⟨h1, ?_, ?_⟩
        · show (s.cacheEntries i).age < s.iteration + 1
          omega
        · show s.iteration + 1 ≤ (s.cacheEntries i).age + cs
          omega
    · intro i j hi hj e
      simp only [hmin1] at hi hj
      by_cases ei : i = lru
      · by_cases ej : j = lru
        · rw [ei, ej]
        · subst ei
          rw [hold j hj ej] at e
          simp at e
          have := (J1 j (by rw [hmin]; exact hj)).2.1
          omega
      · by_cases ej : j = lru
        · subst ej
          rw [hold i hi ei] at e
          simp at e
          have := (J1 i (by rw [hmin]; exact hi)).2.1
          omega
        · rw [hold i hi ei, hold j hj ej] at e
          exact J2 i j (by rw [hmin]; exact hi) (by rw [hmin]; exact hj) e
    · intro h
      have h2 : s.iteration + 1 ≤ cs := h
      omega

/-- The first loop on `N` values of the blocks `0, ..., K-1` from a state with
`iteration = 0`, with a cache of fewer than `K` entries: every lookup is a miss, whatever
the cache array holds. -/
theorem scan_blocks_all_miss (r : Bool) (rv K cs : Nat) (hcs : 0 < cs) (hK : cs < K)
    (hsc : ∀ v, isScanned r rv (v % K) = true) (s0 : ScanState) (h0 : s0.iteration = 0) :
    ∀ N, ∃ st, ((List.range N).map (fun p => p % K)).foldl (scanStep r rv cs) (some s0) = some st ∧
      st.iteration = N ∧ st.vertexShadeCount = s0.vertexShadeCount + N ∧
      st.minValue = ((List.range N).map (fun p => p % K)).foldl min s0.minValue ∧
      st.maxValue = ((List.range N).map (fun p => p % K)).foldl max s0.maxValue ∧
      BlockInvariant K cs st := by
  intro N
  induction N with
  | zero =>
    refine ⟨s0, rfl, h0, rfl, rfl, rfl, ?_, ?_, ?_⟩
    · intro i hi
      rw [h0] at hi
      simp at hi
    · intro i j hi
      rw [h0] at hi
      simp at hi
    · intro _ i hi
      rw [h0] at hi
      simp at hi
  | succ N ih =>
    obtain ⟨st, hst, hit, hvsc, hmin, hmax, hinv⟩ := ih
    obtain ⟨s1, h1, hit1, hvsc1, hmin1, hmax1, hinv1⟩ :=
      scanStep_block r rv K cs hcs hK st (hsc _) hinv
    rw [hit] at h1 hmin1 hmax1
    refine ⟨s1, ?_, by omega, by omega, ?_, ?_, hinv1⟩
    · rw [List.range_succ, List.map_append, List.foldl_append, hst]
      exact h1
    · rw [List.range_succ, List.map_append, List.foldl_append, ← hmin]
      exact hmin1
    · rw [List.range_succ, List.map_append, List.foldl_append, ← hmax]
      exact hmax1


theorem scanCount_eq (indexType : VkIndexType) (indexCount : Nat)
    (h : indexCount * scanStride indexType < UINT32_RANGE) :
    scanCount indexType indexCount = indexCount := by
  unfold scanCount
  rw [Nat.mod_eq_of_lt h]
  cases indexType <;> simp [scanStride]

theorem exactFractions_le_of_half (a b : Nat) (_ha : 0 < a) (hab : 2 * a ≤ b) :
    exactFractions.le (exactFractions.div (exactFractions.ofUInt32 a) (exactFractions.ofUInt32 b))
      ((1, 2) : Nat × Nat) = true := by
  have h1 : 2 * (a / Nat.gcd a b) = 2 * a / Nat.gcd a b :=
    (Nat.mul_div_assoc 2 (Nat.gcd_dvd_left a b)).symm
  have h2 : 2 * a / Nat.gcd a b ≤ b / Nat.gcd a b := Nat.div_le_div_right hab
  simp only [exactFractions, Nat.mul_one, Nat.one_mul, decide_eq_true_eq]
  omega

theorem exactFractions_not_le_of_ge (a b : Nat) (hb : 0 < b) (hab : b ≤ a) :
    exactFractions.le (exactFractions.div (exactFractions.ofUInt32 a) (exactFractions.ofUInt32 b))
      ((1, 2) : Nat × Nat) = false := by
  have h1 : 0 < a / Nat.gcd a b :=
    Nat.div_pos (Nat.le_of_dvd (by omega) (Nat.gcd_dvd_left a b)) (Nat.gcd_pos_of_pos_right a hb)
  have h2 : b / Nat.gcd a b ≤ a / Nat.gcd a b := Nat.div_le_div_right hab
  simp only [exactFractions, Nat.mul_one, Nat.one_mul, decide_eq_false_iff_not]
  omega

/-- C13 (counterexample): a buffer of 16-bit indices holds the block 0, 1 repeated 2^30
times and is scanned with `indexCount = 2^30 * 2` and a cache of one entry: the byte count
`indexCount * scanStride` wraps to 0, no index is read, `vertexShadeCount` stays 0 and no
message is logged. -/
theorem scan_blocks_fails_at_wrap :
    (∀ p, p < 2 ^ 30 * 2 → readIndex .UINT16 (indicesBlocks 2) (scanFirst .UINT16 0 + p) = p % 2) ∧
    scannedValues .UINT16 (indicesBlocks 2) (2 ^ 30 * 2) 0 = [] ∧
    (scanFirstPass false (primitiveRestartValue .UINT16)
        (CacheVector.empty.resize oneEntryConfig.indexBufferVertexPostTransformCache)
        (scannedValues .UINT16 (indicesBlocks 2) (2 ^ 30 * 2) 0)).map
      (fun st => st.vertexShadeCount) = some 0 ∧
    (scanIndices exactFractions oneEntryConfig CacheVector.empty (some (indicesBlocks 2))
        .UINT16 (2 ^ 30 * 2) 0 false).map (fun res => res.1) = some [] := by
  refine ⟨fun p hp => ?_, by decide, by decide, by decide⟩
  have h0 : scanFirst .UINT16 0 = 0 := by decide
  simp only [readIndex, indicesBlocks, scanStride, h0, Nat.zero_add]
  exact Nat.mod_eq_of_lt (by omega)

/-- C13 (amended): a buffer holds, from the first index on, the block 0, 1, ..., K-1
repeated `R >= 1` times, the capacity `C` satisfies `1 <= C < K`, and the buffer is scanned
with `indexCount = R * K` and restart disabled, where the byte count
`R * K * scanStride` is below 2^32. Then every lookup is a miss:
`vertexShadeCount = R * K`, while `verticesReferenced = K`; and for `R >= 2` the scan logs
exactly the cache-thrashing message, when `x / x` is 1, 1 is not below the utilization
threshold and a quotient `a / b` with `2 * a <= b` is at or below the cache-hit threshold
(all true of 0.5). -/
theorem scan_blocks_thrash (fm : FloatOps) (cfg : Config fm) (cache : CacheVector)
    (data : Nat → Nat) (indexType : VkIndexType) (K R firstIndex : Nat)
    (hcap : 1 ≤ cfg.indexBufferVertexPostTransformCache)
    (hK : cfg.indexBufferVertexPostTransformCache < K) (hR : 1 ≤ R)
    (hcount : R * K * scanStride indexType < UINT32_RANGE)
    (hdata : ∀ p, p < R * K →
      readIndex indexType data (scanFirst indexType firstIndex + p) = p % K)
    (hdiv : ∀ x, 0 < x → fm.div (fm.ofUInt32 x) (fm.ofUInt32 x) = fm.ofUInt32 1)
    (hU : fm.lt (fm.ofUInt32 1) cfg.indexBufferUtilizationThreshold = false)
    (hC : ∀ a b, 0 < a → 2 * a ≤ b →
      fm.le (fm.div (fm.ofUInt32 a) (fm.ofUInt32 b)) cfg.indexBufferCacheHitThreshold = true) :
    ∃ st occ,
      scanFirstPass false (primitiveRestartValue indexType)
        (cache.resize cfg.indexBufferVertexPostTransformCache)
        (scannedValues indexType data (R * K) firstIndex) = some st ∧
      st.vertexShadeCount = R * K ∧
      (scannedValues indexType data (R * K) firstIndex).foldl
        (occupancyStep false (primitiveRestartValue indexType) st.minValue st.maxValue
          ((((st.maxValue - st.minValue + 1) % UINT32_RANGE + 63) % UINT32_RANGE) / 64))
        (some { buckets := fun _ => 0, fragmentation := List.replicate 16 false }) = some occ ∧
      verticesReferenced occ.buckets
        ((((st.maxValue - st.minValue + 1) % UINT32_RANGE + 63) % UINT32_RANGE) / 64) = K ∧
      (2 ≤ R → ∃ c, scanIndices fm cfg cache (some data) indexType (R * K) firstIndex false =
        some ([.cacheThrashing K (R * K)], c)) := by
  have hKR : K ≤ R * K := Nat.le_mul_of_pos_left K hR
  have hS : 1 ≤ scanStride indexType := by cases indexType <;> decide
  have hRK : R * K < UINT32_RANGE :=
    Nat.lt_of_le_of_lt (Nat.le_mul_of_pos_right _ hS) hcount
  have hcs : cfg.indexBufferVertexPostTransformCache % UINT32_RANGE =
      cfg.indexBufferVertexPostTransformCache := Nat.mod_eq_of_lt (by omega)
  have hvals : scannedValues indexType data (R * K) firstIndex =
      (List.range (R * K)).map (fun p => p % K) := by
    unfold scannedValues
    rw [scanCount_eq indexType (R * K) hcount]
    exact List.map_congr_left (fun p hp => hdata p (List.mem_range.1 hp))
  have h31 : R * K < 2 ^ 31 := by
    have := scanCount_lt indexType (R * K)
    rwa [scanCount_eq indexType (R * K) hcount] at this
  have hmem : ∀ x, x ∈ scannedValues indexType data (R * K) firstIndex ↔
      0 ≤ x ∧ x < 0 + K := by
    intro x
    rw [hvals]
    simp only [List.mem_map, List.mem_range]
    constructor
    · rintro ⟨p, _, rfl⟩
      exact ⟨Nat.zero_le _, by rw [Nat.zero_add]; exact Nat.mod_lt _ (by omega)⟩
    · rintro ⟨_, hx⟩
      exact ⟨x, by omega, Nat.mod_eq_of_lt (by omega)⟩
  have h32 := scannedValues_lt indexType data (R * K) firstIndex
  obtain ⟨st, hst, _, hvsc, hmin, hmax, _⟩ := scan_blocks_all_miss false
    (primitiveRestartValue indexType) K (cfg.indexBufferVertexPostTransformCache % UINT32_RANGE)
    (by omega) (by omega) (fun _ => rfl)
    { minValue := UINT32_RANGE - 1, maxValue := 0, iteration := 0, vertexShadeCount := 0,
      cacheEntries := (cache.resize cfg.indexBufferVertexPostTransformCache).data } rfl (R * K)
  rw [← hvals] at hst hmin hmax
  have hlo : st.minValue = 0 := by
    rw [hmin]
    exact foldl_min_eq _ 0 ((hmem 0).2 ⟨Nat.le_refl _, by omega⟩) (fun w _ => Nat.zero_le w) h32
  have hhi : st.maxValue = K - 1 := by
    rw [hmax]
    exact foldl_max_eq _ (K - 1) ((hmem _).2 ⟨by omega, by omega⟩)
      (fun w hw => by have := ((hmem w).1 hw).2; omega)
  have hvsc2 : st.vertexShadeCount = R * K := by simpa using hvsc
  have hrange : st.maxValue - st.minValue + 1 = K := by omega
  obtain ⟨occ, hocc, href, hrep⟩ := scanReport_occupancy fm cfg false
    (primitiveRestartValue indexType) (R * K) (scannedValues indexType data (R * K) firstIndex)
    st (by omega) (by omega) (by simp only [UINT32_RANGE] at hRK ⊢; omega)
    (fun w hw => by
      rw [filter_isScanned_no_restart] at hw
      have := (hmem w).1 hw
      omega)
  rw [filter_isScanned_no_restart] at href hrep
  rw [hrange, hvsc2] at hrep
  rw [hlo, card_of_interval _ 0 K hmem] at href hrep
  rw [hdiv K (by omega), hU] at hrep
  refine ⟨st, occ, hst, hvsc2, hocc, ?_, ?_⟩
  · rw [hlo]
    exact href
  · intro hR2
    have h2 : 2 * K ≤ R * K := Nat.mul_le_mul_right K hR2
    rw [hC K (R * K) (by omega) h2] at hrep
    exact ⟨_, scanIndices_eq fm cfg cache data indexType (R * K) firstIndex false st _ hst
      (by simpa using hrep)⟩

/-- C13 (example): the 16-bit indices 0, 1, 0, 1 scanned with a cache of one entry. -/
theorem scan_blocks_thrash_witness :
    (1 ≤ oneEntryConfig.indexBufferVertexPostTransformCache ∧
     oneEntryConfig.indexBufferVertexPostTransformCache < 2 ∧
     2 * 2 * scanStride .UINT16 < UINT32_RANGE ∧
     ∀ p, p < 2 * 2 → readIndex .UINT16 (indicesBlocks 2) (scanFirst .UINT16 0 + p) = p % 2) ∧
    ∃ st occ,
      scanFirstPass false (primitiveRestartValue .UINT16)
        (CacheVector.empty.resize oneEntryConfig.indexBufferVertexPostTransformCache)
        (scannedValues .UINT16 (indicesBlocks 2) (2 * 2) 0) = some st ∧
      st.vertexShadeCount = 2 * 2 ∧
      (scannedValues .UINT16 (indicesBlocks 2) (2 * 2) 0).foldl
        (occupancyStep false (primitiveRestartValue .UINT16) st.minValue st.maxValue
          ((((st.maxValue - st.minValue + 1) % UINT32_RANGE + 63) % UINT32_RANGE) / 64))
        (some { buckets := fun _ => 0, fragmentation := List.replicate 16 false }) = some occ ∧
      verticesReferenced occ.buckets
        ((((st.maxValue - st.minValue + 1) % UINT32_RANGE + 63) % UINT32_RANGE) / 64) = 2 ∧
      (2 ≤ 2 → ∃ c, scanIndices exactFractions oneEntryConfig CacheVector.empty
        (some (indicesBlocks 2)) .UINT16 (2 * 2) 0 false =
          some ([.cacheThrashing 2 (2 * 2)], c)) :=
  ⟨⟨by decide, by decide, by decide, by decide⟩,
   scan_blocks_thrash exactFractions oneEntryConfig CacheVector.empty (indicesBlocks 2) .UINT16
    2 2 0 (by decide) (by decide) (by decide) (by decide) (by decide) exactFractions_div_self
    (by decide) exactFractions_le_of_half⟩

/-- C14 (example): the 16-bit indices 0, 0, 1, 1 scanned with the default configuration. -/
theorem scan_runs_no_message_witness :
    (1 ≤ 2 ∧
     ∀ p, p < 2 * 2 → readIndex .UINT16 (indicesRuns 2) (scanFirst .UINT16 0 + p) = p / 2) ∧
    (∀ log c, scanIndices exactFractions defaultConfig CacheVector.empty
        (some (indicesRuns 2)) .UINT16 (2 * 2) 0 false = some (log, c) → log = []) ∧
    (0 < defaultConfig.indexBufferVertexPostTransformCache % UINT32_RANGE →
      ∃ c, scanIndices exactFractions defaultConfig CacheVector.empty
        (some (indicesRuns 2)) .UINT16 (2 * 2) 0 false = some ([], c)) :=
  ⟨⟨by decide, by decide⟩,
   scan_runs_no_message exactFractions defaultConfig CacheVector.empty (indicesRuns 2) .UINT16
    2 2 0 (by decide) (by decide) exactFractions_div_self (by decide)
    exactFractions_not_le_of_ge⟩

/-- C20: from the queue after two `pushWork(FRAGMENT)`, with fresh events 0 and 1, the
sequence `signalEvent(e0, FRAGMENT)`, `waitEvent(e0, TRANSFER)`, `pushWork(TRANSFER)`,
`signalEvent(e1, TRANSFER)`, `waitEvent(e1, FRAGMENT)`, `pushWork(FRAGMENT)` logs nothing,
while the same sequence written with `pipelineBarrier(FRAGMENT, TRANSFER)` and
`pipelineBarrier(TRANSFER, FRAGMENT)` logs the bubble naming TRANSFER as the stage blocking
FRAGMENT. -/
theorem event_round_trip_logs_no_bubble :
    ((twoFragmentWorks.queues 0).queueTracker.stages STAGE_FRAGMENT).index = 2 ∧
    ((twoFragmentWorks.queues 0).queueTracker.stages STAGE_TRANSFER).waitList STAGE_FRAGMENT = 0 ∧
    ((eventRoundTrip.foldl (fun env call => call.run 0 env) twoFragmentWorks).queues 0).log
      = [] ∧
    ((barrierRoundTrip.foldl (fun env call => call.run 0 env) twoFragmentWorks).queues 0).log
      = [⟨STAGE_FRAGMENT, STAGE_TRANSFER⟩] := by
  decide

/-! ## Theorems: what one barrier does to the destination stage -/

theorem latchWait_other (t : QueueTracker) (d s k : Stage) (v : Nat) (h : k ≠ d) :
    (latchWait t d s v).stages k = t.stages k := by
  simp [latchWait, Function.update_noteq h]

theorem latchWait_waitList (t : QueueTracker) (d s k : Stage) (v : Nat) :
    ((latchWait t d s v).stages d).waitList k = if k = s then v else (t.stages d).waitList k := by
  by_cases h : k = s
  · subst h
    simp [latchWait]
  · simp [latchWait, Function.update_noteq h, h]

theorem latchWait_lastDst (t : QueueTracker) (d s k : Stage) (v : Nat) :
    ((latchWait t d s v).stages d).lastDstStageIndex k =
      if k = s then (t.stages d).index else (t.stages d).lastDstStageIndex k := by
  by_cases h : k = s
  · subst h
    simp [latchWait]
  · simp [latchWait, Function.update_noteq h, h]

theorem barrierInherit_other (d s : Stage) (t : QueueTracker) (k j : Stage) (h : j ≠ d) :
    (barrierInherit d s t k).stages j = t.stages j := by
  unfold barrierInherit
  split
  · exact latchWait_other _ _ _ _ _ h
  · rfl

theorem barrierInherit_index (d s : Stage) (t : QueueTracker) (k j : Stage) :
    ((barrierInherit d s t k).stages j).index = (t.stages j).index := by
  unfold barrierInherit
  split
  · exact latchWait_index _ _ _ _ _
  · rfl

theorem barrierInherit_waitList (d s : Stage) (t : QueueTracker) (k j : Stage) :
    ((barrierInherit d s t k).stages d).waitList j =
      if j = k then max ((t.stages d).waitList k) ((t.stages s).waitList k)
      else (t.stages d).waitList j := by
  unfold barrierInherit
  split
  · next h =>
    rw [latchWait_waitList]
    split
    · rw [Nat.max_eq_right (Nat.le_of_lt h)]
    · rfl
  · next h =>
    split
    · next e =>
      rw [e, Nat.max_eq_left (Nat.le_of_not_lt h)]
    · rfl

theorem barrierInherit_lastDst (d s : Stage) (t : QueueTracker) (k j : Stage) :
    ((barrierInherit d s t k).stages d).lastDstStageIndex j =
      if j = k ∧ (t.stages s).waitList k > (t.stages d).waitList k then (t.stages d).index
      else (t.stages d).lastDstStageIndex j := by
  unfold barrierInherit
  split
  · next h =>
    rw [latchWait_lastDst]
    by_cases e : j = k
    · simp [e, h]
    · simp [e]
  · next h =>
    simp [h]

/-- The inner loop of `barrier` over a list of stages, for a source stage other than the
destination stage: only the destination stage changes, its counter stays, each visited
entry of its `waitList` becomes the maximum of itself and the source's entry, and the
entries that grew are latched. -/
theorem foldl_barrierInherit (d s : Stage) (h : s ≠ d) (l : List Stage) :
    ∀ t : QueueTracker,
      (∀ j, j ≠ d → (l.foldl (barrierInherit d s) t).stages j = t.stages j) ∧
      ((l.foldl (barrierInherit d s) t).stages d).index = (t.stages d).index ∧
      (∀ k, ((l.foldl (barrierInherit d s) t).stages d).waitList k =
        if k ∈ l then max ((t.stages d).waitList k) ((t.stages s).waitList k)
        else (t.stages d).waitList k) ∧
      (∀ k, ((l.foldl (barrierInherit d s) t).stages d).lastDstStageIndex k =
        if k ∈ l ∧ (t.stages s).waitList k > (t.stages d).waitList k then (t.stages d).index
        else (t.stages d).lastDstStageIndex k) := by
  induction l with
  | nil =>
    intro t
    simp
  | cons a l ih =>
    intro t
    obtain ⟨h1, h2, h3, h4⟩ := ih (barrierInherit d s t a)
    have hs : (barrierInherit d s t a).stages s = t.stages s := barrierInherit_other d s t a s h
    simp only [List.foldl_cons]
    refine ⟨fun j hj => ?_, ?_, fun k => ?_, fun k => ?_⟩
    · rw [h1 j hj, barrierInherit_other d s t a j hj]
    · rw [h2, barrierInherit_index]
    · rw [h3 k, hs, barrierInherit_waitList]
      by_cases e : k = a
      · subst e
        by_cases m : k ∈ l
        · simp only [m, List.mem_cons, true_or, if_true]
          omega
        · simp [m]
      · by_cases m : k ∈ l
        · simp [m, e]
        · simp [m, e]
    · rw [h4 k, hs, barrierInherit_waitList, barrierInherit_lastDst, barrierInherit_index]
      by_cases e : k = a
      · subst e
        by_cases m : k ∈ l
        · by_cases c : (t.stages s).waitList k > (t.stages d).waitList k
          · have c2 : ¬ (t.stages s).waitList k >
                max ((t.stages d).waitList k) ((t.stages s).waitList k) := by omega
            simp [m, c, c2]
          · have c2 : ¬ (t.stages s).waitList k >
                max ((t.stages d).waitList k) ((t.stages s).waitList k) := by omega
            simp [m, c, c2]
        · simp [m]
      · by_cases m : k ∈ l
        · simp [m, e]
        · simp [m, e]

theorem barrierInherit_self (d : Stage) (t : QueueTracker) (k : Stage) :
    barrierInherit d d t k = t := by
  unfold barrierInherit
  rw [if_neg (Nat.lt_irrefl _)]

theorem foldl_const {α : Type} (f : QueueTracker → α → QueueTracker) (t : QueueTracker)
    (l : List α) (h : ∀ a ∈ l, f t a = t) : l.foldl f t = t := by
  induction l with
  | nil => rfl
  | cons a l ih =>
    rw [List.foldl_cons, h a (List.mem_cons_self _ _)]
    exact ih (fun b hb => h b (List.mem_cons_of_mem _ hb))

theorem barrierFrom_other (d : Stage) (t : QueueTracker) (s j : Stage) (h : j ≠ d) :
    (barrierFrom d t s).stages j = t.stages j := by
  unfold barrierFrom
  by_cases e : s = d
  · subst e
    rw [foldl_const _ _ _ (fun k _ => barrierInherit_self s _ k)]
    split
    · exact latchWait_other _ _ _ _ _ h
    · rfl
  · rw [(foldl_barrierInherit d s e allStages _).1 j h]
    split
    · exact latchWait_other _ _ _ _ _ h
    · rfl

theorem barrierFrom_index (d : Stage) (t : QueueTracker) (s j : Stage) :
    ((barrierFrom d t s).stages j).index = (t.stages j).index := by
  by_cases h : j = d
  · subst h
    unfold barrierFrom
    by_cases e : s = j
    · subst e
      rw [foldl_const _ _ _ (fun k _ => barrierInherit_self s _ k)]
      split
      · exact latchWait_index _ _ _ _ _
      · rfl
    · rw [(foldl_barrierInherit j s e allStages _).2.1]
      split
      · exact latchWait_index _ _ _ _ _
      · rfl
  · rw [barrierFrom_other d t s j h]

/-- The `waitList` of the destination stage after the body of the outer loop of `barrier`
for one source stage: each entry is the maximum of itself, the source's entry and, for the
entry of the source stage, the source's counter. -/
theorem barrierFrom_waitList (d : Stage) (t : QueueTracker) (s k : Stage) :
    ((barrierFrom d t s).stages d).waitList k =
      max ((t.stages d).waitList k)
        (max (if k = s then (t.stages s).index else 0) ((t.stages s).waitList k)) := by
  unfold barrierFrom
  by_cases e : s = d
  · subst e
    rw [foldl_const _ _ _ (fun k _ => barrierInherit_self s _ k)]
    split
    · next c =>
      rw [latchWait_waitList]
      by_cases ek : k = s
      · subst ek
        simp only [if_true]
        omega
      · simp only [ek, if_false]
        omega
    · next c =>
      by_cases ek : k = s
      · subst ek
        simp only [if_true]
        omega
      · simp only [ek, if_false]
        omega
  · rw [(foldl_barrierInherit d s e allStages _).2.2.1 k]
    simp only [mem_allStages, if_true]
    split
    · next c =>
      rw [latchWait_waitList, latchWait_other _ _ _ _ _ e]
      by_cases ek : k = s
      · subst ek
        simp only [if_true]
        omega
      · simp only [ek, if_false]
        omega
    · next c =>
      by_cases ek : k = s
      · subst ek
        simp only [if_true]
        omega
      · simp only [ek, if_false]
        omega

/-- When the source's counter exceeds the destination's wait on the source, the body of
the outer loop of `barrier` latches the destination's counter for the source. -/
theorem barrierFrom_latched (d : Stage) (t : QueueTracker) (s : Stage)
    (h : (t.stages s).index > (t.stages d).waitList s) :
    ((barrierFrom d t s).stages d).lastDstStageIndex s = (t.stages d).index := by
  unfold barrierFrom
  rw [if_pos h]
  by_cases e : s = d
  · subst e
    rw [foldl_const _ _ _ (fun k _ => barrierInherit_self s _ k), latchWait_lastDst]
    simp
  · rw [(foldl_barrierInherit d s e allStages _).2.2.2 s, latchWait_index, latchWait_lastDst]
    simp

/-- The body of the outer loop of `barrier` changes nothing when the destination already
waits for the source's counter and for everything the source waits for. -/
theorem barrierFrom_eq_self (d : Stage) (t : QueueTracker) (s : Stage)
    (h1 : (t.stages s).index ≤ (t.stages d).waitList s)
    (h2 : ∀ k, (t.stages s).waitList k ≤ (t.stages d).waitList k) : barrierFrom d t s = t := by
  unfold barrierFrom
  rw [if_neg (Nat.not_lt.2 h1)]
  refine foldl_const _ _ _ (fun k _ => ?_)
  unfold barrierInherit
  rw [if_neg (Nat.not_lt.2 (h2 k))]


/-! ## Theorems: `barrier` and `pipelineBarrier` on single stages -/

theorem hasStage_single (s i : Stage) : hasStage (1 <<< s.val) i = decide (i = s) := by
  revert s i
  decide

theorem stage_bit_ne_zero (s : Stage) : (1 <<< s.val : Nat) ≠ 0 := by
  revert s
  decide

theorem foldl_at_stage (g : QueueTracker → Stage → QueueTracker) (d : Stage) (l : List Stage)
    (hl : l.Nodup) :
    ∀ t, l.foldl (fun t i => if i = d then g t i else t) t = if d ∈ l then g t d else t := by
  induction l with
  | nil =>
    intro t
    rfl
  | cons a l ih =>
    intro t
    rw [List.nodup_cons] at hl
    rw [List.foldl_cons, ih hl.2]
    by_cases e : a = d
    · subst e
      simp [hl.1]
    · have e2 : ¬ d = a := fun h => e h.symm
      simp [e, e2]

theorem foldl_single_stage (g : QueueTracker → Stage → QueueTracker) (d : Stage)
    (t : QueueTracker) :
    allStages.foldl (fun t i => if hasStage (1 <<< d.val) i then g t i else t) t = g t d := by
  have h := foldl_at_stage g d allStages allStages_nodup t
  rw [if_pos (mem_allStages d)] at h
  rw [← h]
  congr 1
  funext u i
  rw [hasStage_single]
  simp

/-- A barrier from one source stage to one destination stage is one pass of the body of
the outer loop of `barrier`. -/
theorem pipelineBarrier_single (t : QueueTracker) (s d : Stage) :
    pipelineBarrier t (1 <<< s.val) (1 <<< d.val) = barrierFrom d t s := by
  unfold pipelineBarrier
  rw [foldl_single_stage (fun u i => barrier u (1 <<< s.val) i) d t]
  unfold barrier
  rw [if_neg (stage_bit_ne_zero s)]
  exact foldl_single_stage (fun u i => barrierFrom d u i) s t

/-! ## Theorems: barrier round trips -/

theorem mem_pushWork_log_pair (t : QueueTracker) (d i : Stage) :
    (⟨d, i⟩ : LogMessage) ∈ (pushWork t d).1 ↔
      (i ≠ d ∧ (t.stages d).waitList i = (t.stages i).index ∧ (t.stages d).index ≠ 0 ∧
        ¬ ((i = STAGE_GEOMETRY ∧ d = STAGE_COMPUTE) ∨ (i = STAGE_COMPUTE ∧ d = STAGE_GEOMETRY)) ∧
        (t.stages i).waitList d = (t.stages d).index ∧
        (t.stages i).index ≠ (t.stages i).lastDstStageIndex d) := by
  rw [mem_pushWork_log, ← pushWorkLogs_iff]
  simp

/-- C22: for every tracker state and distinct stages A and B with
`stages[A].index > stages[B].waitList[A]`, after `pipelineBarrier(A, B)` and
`pipelineBarrier(B, A)` with no `pushWork(B)` in between, `pushWork(A)` logs no bubble
naming B as the blocking stage. -/
theorem barrier_round_trip_without_work (t : QueueTracker) (A B : Stage) (hAB : A ≠ B)
    (hwait : (t.stages B).waitList A < (t.stages A).index) :
    (⟨A, B⟩ : LogMessage) ∉
      (pushWork (pipelineBarrier (pipelineBarrier t (1 <<< A.val) (1 <<< B.val))
        (1 <<< B.val) (1 <<< A.val)) A).1 := by
  rw [pipelineBarrier_single, pipelineBarrier_single, mem_pushWork_log_pair]
  rintro ⟨_, _, _, _, _, h6⟩
  apply h6
  have hBA : B ≠ A := fun e => hAB e.symm
  rw [barrierFrom_other A _ B B hBA, barrierFrom_index, barrierFrom_latched B t A hwait]

/-- C22 (example): on the tracker after one `pushWork(FRAGMENT)`, the round trip
FRAGMENT -> TRANSFER -> FRAGMENT without TRANSFER work. -/
theorem barrier_round_trip_without_work_witness :
    (⟨STAGE_FRAGMENT, STAGE_TRANSFER⟩ : LogMessage) ∉
      (pushWork (pipelineBarrier (pipelineBarrier (pushWork QueueTracker.fresh STAGE_FRAGMENT).2
          (1 <<< STAGE_FRAGMENT.val) (1 <<< STAGE_TRANSFER.val))
        (1 <<< STAGE_TRANSFER.val) (1 <<< STAGE_FRAGMENT.val)) STAGE_FRAGMENT).1 :=
  barrier_round_trip_without_work (pushWork QueueTracker.fresh STAGE_FRAGMENT).2
    STAGE_FRAGMENT STAGE_TRANSFER (by decide) (by decide)

theorem iterate_pushWork (d : Stage) (n : Nat) (t : QueueTracker)
    (h : (t.stages d).index < UINT64_RANGE) :
    Nat.iterate (fun u => (pushWork u d).2) n t =
      { stages := Function.update t.stages d
          { t.stages d with index := ((t.stages d).index + n) % UINT64_RANGE } } := by
  induction n with
  | zero =>
    simp only [Function.iterate_zero, id, Nat.add_zero, Nat.mod_eq_of_lt h]
    cases t
    simp
  | succ n ih =>
    rw [Function.iterate_succ_apply', ih]
    simp only [pushWork, incrementIndex, Function.update_same, Function.update_idem,
      Nat.mod_add_mod, Nat.add_assoc]

theorem reachable_iterate_pushWork (d : Stage) (n : Nat) (t : QueueTracker) (h : Reachable t) :
    Reachable (Nat.iterate (fun u => (pushWork u d).2) n t) := by
  induction n with
  | zero => exact h
  | succ n ih =>
    rw [Function.iterate_succ_apply']
    exact Reachable.pushWork _ d ih

theorem Reachable_transferNearWrap : Reachable transferNearWrap := by
  have h0 : Reachable fragmentWaitsTransfer :=
    Reachable.pushWork _ _ (Reachable.pipelineBarrier _ _ _ (Reachable.pushWork _ _ Reachable.fresh))
  have h1 := reachable_iterate_pushWork STAGE_TRANSFER (UINT64_RANGE - 2) _ h0
  rw [iterate_pushWork STAGE_TRANSFER (UINT64_RANGE - 2) fragmentWaitsTransfer (by decide)] at h1
  have e : ((fragmentWaitsTransfer.stages STAGE_TRANSFER).index + (UINT64_RANGE - 2)) %
      UINT64_RANGE = UINT64_RANGE - 1 := by decide
  rw [e] at h1
  exact h1

/-- C21 (counterexample): the tracker reached from a fresh one by `pushWork(TRANSFER)`,
`pipelineBarrier(TRANSFER, FRAGMENT)`, `pushWork(FRAGMENT)` and 2^64 - 2 further
`pushWork(TRANSFER)` has `stages[FRAGMENT].index = 1 > stages[TRANSFER].waitList[FRAGMENT]
= 0`. In the round trip FRAGMENT -> TRANSFER -> FRAGMENT with TRANSFER work the TRANSFER
counter wraps from `UINT64_MAX` to 0, and the final `pushWork(FRAGMENT)` logs nothing. -/
theorem barrier_round_trip_fails_at_wrap :
    Reachable transferNearWrap ∧
    (transferNearWrap.stages STAGE_FRAGMENT).index = 1 ∧
    (transferNearWrap.stages STAGE_TRANSFER).waitList STAGE_FRAGMENT = 0 ∧
    (transferNearWrap.stages STAGE_TRANSFER).index = UINT64_RANGE - 1 ∧
    (pushWork (pipelineBarrier (pushWork (pipelineBarrier transferNearWrap
        (1 <<< STAGE_FRAGMENT.val) (1 <<< STAGE_TRANSFER.val)) STAGE_TRANSFER).2
      (1 <<< STAGE_TRANSFER.val) (1 <<< STAGE_FRAGMENT.val)) STAGE_FRAGMENT).1 = [] := by
  refine ⟨Reachable_transferNearWrap, by decide, by decide, by decide, by decide⟩

/-- C21 (amended): for every tracker state in which no stage waits for work not yet pushed
(`waitList[s] <= stages[s].index`, as in every state reached from a fresh tracker by
`pushWork` and `pipelineBarrier` calls before a counter wraps), and distinct stages A and B
other than the pair GEOMETRY, COMPUTE with `stages[A].index > stages[B].waitList[A]` and
`stages[B].index < UINT64_MAX`, the sequence `pipelineBarrier(A, B)`, `pushWork(B)`,
`pipelineBarrier(B, A)`, `pushWork(A)` logs, in the final `pushWork(A)`, the bubble naming
B as the stage blocking A. -/
theorem barrier_round_trip_with_work (t : QueueTracker) (A B : Stage) (hAB : A ≠ B)
    (hpair : ¬ ((B = STAGE_GEOMETRY ∧ A = STAGE_COMPUTE) ∨
      (B = STAGE_COMPUTE ∧ A = STAGE_GEOMETRY)))
    (ht : t.WaitsBounded) (hwait : (t.stages B).waitList A < (t.stages A).index)
    (hmax : (t.stages B).index < UINT64_RANGE - 1) :
    (⟨A, B⟩ : LogMessage) ∈
      (pushWork (pipelineBarrier (pushWork (pipelineBarrier t (1 <<< A.val) (1 <<< B.val)) B).2
        (1 <<< B.val) (1 <<< A.val)) A).1 := by
  have hBA : B ≠ A := fun e => hAB e.symm
  rw [pipelineBarrier_single, pipelineBarrier_single, mem_pushWork_log_pair]
  have ht1 : (barrierFrom B t A).WaitsBounded := WaitsBounded_barrierFrom B t A ht
  -- the state after `pushWork(B)`
  have e2 : (pushWork (barrierFrom B t A) B).2 = incrementIndex (barrierFrom B t A) B := rfl
  have hB2 : ((incrementIndex (barrierFrom B t A) B).stages B).index = (t.stages B).index + 1 := by
    rw [incrementIndex_index, barrierFrom_index, Nat.mod_eq_of_lt (by omega)]
  have hA2 : (incrementIndex (barrierFrom B t A) B).stages A = t.stages A := by
    rw [incrementIndex_other _ _ _ hAB, barrierFrom_other B t A A hAB]
  have hWB2 : ((incrementIndex (barrierFrom B t A) B).stages B).waitList =
      ((barrierFrom B t A).stages B).waitList := (incrementIndex_waitList _ B B).1
  have hLB2 : ((incrementIndex (barrierFrom B t A) B).stages B).lastDstStageIndex =
      ((barrierFrom B t A).stages B).lastDstStageIndex := (incrementIndex_waitList _ B B).2
  have hWBA : ((barrierFrom B t A).stages B).waitList A = (t.stages A).index := by
    rw [barrierFrom_waitList, if_pos rfl]
    have := ht A A
    omega
  have hWBB : ((barrierFrom B t A).stages B).waitList B ≤ (t.stages B).index := by
    have := ht1 B B
    rwa [barrierFrom_index] at this
  rw [e2]
  refine ⟨hBA, ?_, ?_, hpair, ?_, ?_⟩
  · show ((barrierFrom A _ B).stages A).waitList B = ((barrierFrom A _ B).stages B).index
    rw [barrierFrom_waitList, if_pos rfl, barrierFrom_index, hB2, hA2, hWB2]
    have := ht A B
    omega
  · show ((barrierFrom A _ B).stages A).index ≠ 0
    rw [barrierFrom_index, hA2]
    omega
  · show ((barrierFrom A _ B).stages B).waitList A = ((barrierFrom A _ B).stages A).index
    rw [barrierFrom_other A _ B B hBA, barrierFrom_index, hA2, hWB2, hWBA]
  · show ((barrierFrom A _ B).stages B).index ≠ ((barrierFrom A _ B).stages B).lastDstStageIndex A
    rw [barrierFrom_other A _ B B hBA, hB2, hLB2, barrierFrom_latched B t A hwait]
    omega

/-- C21 (example): on the tracker after one `pushWork(FRAGMENT)`, the round trip
FRAGMENT -> TRANSFER -> FRAGMENT with TRANSFER work, as in `tests/queue-test.cpp`. -/
theorem barrier_round_trip_with_work_witness :
    (⟨STAGE_FRAGMENT, STAGE_TRANSFER⟩ : LogMessage) ∈
      (pushWork (pipelineBarrier (pushWork (pipelineBarrier
          (pushWork QueueTracker.fresh STAGE_FRAGMENT).2
          (1 <<< STAGE_FRAGMENT.val) (1 <<< STAGE_TRANSFER.val)) STAGE_TRANSFER).2
        (1 <<< STAGE_TRANSFER.val) (1 <<< STAGE_FRAGMENT.val)) STAGE_FRAGMENT).1 :=
  barrier_round_trip_with_work (pushWork QueueTracker.fresh STAGE_FRAGMENT).2
    STAGE_FRAGMENT STAGE_TRANSFER (by decide) (by decide)
    (WaitsBounded_pushWork _ _ WaitsBounded_fresh (by decide)) (by decide) (by decide)


/-! ## Theorems: `pipelineBarrier` on arbitrary masks -/

theorem barrier_index (t : QueueTracker) (src : StageFlags) (d j : Stage) :
    ((barrier t src d).stages j).index = (t.stages j).index := by
  unfold barrier
  split
  · rfl
  · generalize allStages = l
    induction l generalizing t with
    | nil => rfl
    | cons a l ih =>
      rw [List.foldl_cons, ih]
      split
      · exact barrierFrom_index d t a j
      · rfl

theorem barrier_other (t : QueueTracker) (src : StageFlags) (d j : Stage) (h : j ≠ d) :
    (barrier t src d).stages j = t.stages j := by
  unfold barrier
  split
  · rfl
  · generalize allStages = l
    induction l generalizing t with
    | nil => rfl
    | cons a l ih =>
      rw [List.foldl_cons, ih]
      split
      · exact barrierFrom_other d t a j h
      · rfl

theorem pipelineBarrier_index (t : QueueTracker) (src dst : StageFlags) (j : Stage) :
    ((pipelineBarrier t src dst).stages j).index = (t.stages j).index := by
  unfold pipelineBarrier
  generalize allStages = l
  induction l generalizing t with
  | nil => rfl
  | cons a l ih =>
    rw [List.foldl_cons, ih]
    split
    · exact barrier_index t src a j
    · rfl

/-- A fold of monotone steps that keep the counters: once the step for `a0` has made stage
`d` wait for the counter of `s` and for everything `s` waits for, this stays so, also with
respect to the state before the fold. -/
theorem foldl_establish {α : Type} (step : QueueTracker → α → QueueTracker)
    (hmono : ∀ (t : QueueTracker) (a : α), t.le (step t a))
    (hidx : ∀ (t : QueueTracker) (a : α) (j : Stage),
      ((step t a).stages j).index = (t.stages j).index)
    (a0 : α) (d s : Stage)
    (hstep : ∀ u : QueueTracker, (u.stages s).index ≤ ((step u a0).stages d).waitList s ∧
      ∀ k, (u.stages s).waitList k ≤ ((step u a0).stages d).waitList k)
    (l : List α) (ha : a0 ∈ l) :
    ∀ t, (t.stages s).index ≤ ((l.foldl step t).stages d).waitList s ∧
      ∀ k, (t.stages s).waitList k ≤ ((l.foldl step t).stages d).waitList k := by
  induction l with
  | nil => simp at ha
  | cons a l ih =>
    intro t
    rw [List.foldl_cons]
    rcases List.mem_cons.1 ha with e | hmem
    · subst e
      have hle := le_foldl step hmono l (step t a0)
      obtain ⟨h1, h2⟩ := hstep t
      exact ⟨Nat.le_trans h1 ((hle d).2 s), fun k => Nat.le_trans (h2 k) ((hle d).2 k)⟩
    · obtain ⟨h1, h2⟩ := ih hmem (step t a)
      rw [hidx] at h1
      exact ⟨h1, fun k => Nat.le_trans ((hmono t a s).2 k) (h2 k)⟩

theorem barrier_waits (t : QueueTracker) (src : StageFlags) (d s : Stage)
    (hs : hasStage src s = true) :
    (t.stages s).index ≤ ((barrier t src d).stages d).waitList s ∧
    ∀ k, (t.stages s).waitList k ≤ ((barrier t src d).stages d).waitList k := by
  have hne : src ≠ 0 := by
    intro e
    rw [e] at hs
    simp [hasStage] at hs
  unfold barrier
  rw [if_neg hne]
  refine foldl_establish _ ?_ ?_ s d s ?_ allStages (mem_allStages s) t
  · intro u a
    split
    · exact le_barrierFrom d u a
    · exact u.le_refl
  · intro u a j
    split
    · exact barrierFrom_index d u a j
    · rfl
  · intro u
    simp only [hs, if_true]
    refine ⟨?_, fun k => ?_⟩
    · rw [barrierFrom_waitList, if_pos rfl]
      omega
    · rw [barrierFrom_waitList]
      omega

theorem pipelineBarrier_waits_core (t : QueueTracker) (src dst : StageFlags) (d s : Stage)
    (hd : hasStage dst d = true) (hs : hasStage src s = true) :
    (t.stages s).index ≤ ((pipelineBarrier t src dst).stages d).waitList s ∧
    ∀ k, (t.stages s).waitList k ≤ ((pipelineBarrier t src dst).stages d).waitList k := by
  unfold pipelineBarrier
  refine foldl_establish _ ?_ ?_ d d s ?_ allStages (mem_allStages d) t
  · intro u a
    split
    · exact le_barrier u src a
    · exact u.le_refl
  · intro u a j
    split
    · exact barrier_index u src a j
    · rfl
  · intro u
    simp only [hd, if_true]
    exact barrier_waits u src d s hs

theorem barrier_zero (t : QueueTracker) (d : Stage) : barrier t 0 d = t := by
  unfold barrier
  rw [if_pos rfl]

theorem pipelineBarrier_zero (t : QueueTracker) (dst : StageFlags) :
    pipelineBarrier t 0 dst = t := by
  unfold pipelineBarrier
  refine foldl_const _ _ _ (fun d _ => ?_)
  simp only [barrier_zero, ite_self]

/-- C23: for every tracker state and all masks, after `pipelineBarrier(srcStages,
dstStages)`, for every stage `d` in `dstStages` and every stage `s` in `srcStages`:
`stages[d].waitList[s] >= stages[s].index` (the counters are not changed by the call), and
for every stage `k`, `stages[d].waitList[k]` is at least the value `stages[s].waitList[k]`
had before the call; when `srcStages` is 0 the call changes nothing. -/
theorem pipelineBarrier_inherits (t : QueueTracker) (srcStages dstStages : StageFlags) :
    (∀ d s : Stage, hasStage dstStages d = true → hasStage srcStages s = true →
      ((pipelineBarrier t srcStages dstStages).stages s).index = (t.stages s).index ∧
      ((pipelineBarrier t srcStages dstStages).stages s).index ≤
        ((pipelineBarrier t srcStages dstStages).stages d).waitList s ∧
      ∀ k : Stage, (t.stages s).waitList k ≤
        ((pipelineBarrier t srcStages dstStages).stages d).waitList k) ∧
    (srcStages = 0 → pipelineBarrier t srcStages dstStages = t) := by
  refine ⟨fun d s hd hs => ?_, fun h => by rw [h, pipelineBarrier_zero]⟩
  obtain ⟨h1, h2⟩ := pipelineBarrier_waits_core t srcStages dstStages d s hd hs
  rw [pipelineBarrier_index]
  exact ⟨rfl, h1, h2⟩

/-- C23 (example): after `pushWork(GEOMETRY)` and `pipelineBarrier(GEOMETRY, COMPUTE)`, the
barrier from COMPUTE to FRAGMENT makes FRAGMENT wait for what COMPUTE waits for. -/
theorem pipelineBarrier_inherits_witness :
    (hasStage STAGE_FRAGMENT_BIT STAGE_FRAGMENT = true ∧
     hasStage STAGE_COMPUTE_BIT STAGE_COMPUTE = true) ∧
    ((pipelineBarrier computeWaitsGeometry STAGE_COMPUTE_BIT STAGE_FRAGMENT_BIT).stages
        STAGE_COMPUTE).index = (computeWaitsGeometry.stages STAGE_COMPUTE).index ∧
    ((pipelineBarrier computeWaitsGeometry STAGE_COMPUTE_BIT STAGE_FRAGMENT_BIT).stages
        STAGE_COMPUTE).index ≤
      ((pipelineBarrier computeWaitsGeometry STAGE_COMPUTE_BIT STAGE_FRAGMENT_BIT).stages
        STAGE_FRAGMENT).waitList STAGE_COMPUTE ∧
    ∀ k : Stage, (computeWaitsGeometry.stages STAGE_COMPUTE).waitList k ≤
      ((pipelineBarrier computeWaitsGeometry STAGE_COMPUTE_BIT STAGE_FRAGMENT_BIT).stages
        STAGE_FRAGMENT).waitList k :=
  ⟨⟨by decide, by decide⟩,
   (pipelineBarrier_inherits computeWaitsGeometry STAGE_COMPUTE_BIT STAGE_FRAGMENT_BIT).1
     STAGE_FRAGMENT STAGE_COMPUTE (by decide) (by decide)⟩

/-- The body of the outer loop of `barrier` for a source stage in `src` keeps a common
bound `M` on the counters and `waitList`s of the stages in `src`. -/
theorem barrierFrom_bounded (src : StageFlags) (M : Stage → Nat) (d a : Stage) (u : QueueTracker)
    (ha : hasStage src a = true)
    (hidx : ∀ s, hasStage src s = true → (u.stages s).index ≤ M s)
    (hw : ∀ s, hasStage src s = true → ∀ k, (u.stages s).waitList k ≤ M k) :
    ∀ s, hasStage src s = true → ∀ k, ((barrierFrom d u a).stages s).waitList k ≤ M k := by
  intro s hs k
  by_cases e : s = d
  · subst e
    rw [barrierFrom_waitList]
    have h1 := hw s hs k
    have h2 := hw a ha k
    by_cases ek : k = a
    · subst ek
      have h3 := hidx k ha
      simp only [if_true]
      omega
    · simp only [ek, if_false]
      omega
  · rw [barrierFrom_other d u a s e]
    exact hw s hs k

theorem pipelineBarrier_bounded (src dst : StageFlags) (M : Stage → Nat) (t : QueueTracker)
    (hidx : ∀ s, hasStage src s = true → (t.stages s).index ≤ M s)
    (hw : ∀ s, hasStage src s = true → ∀ k, (t.stages s).waitList k ≤ M k) :
    ∀ s, hasStage src s = true → ∀ k,
      ((pipelineBarrier t src dst).stages s).waitList k ≤ M k := by
  have hb : ∀ (d : Stage) (u : QueueTracker),
      (∀ s, hasStage src s = true → (u.stages s).index ≤ M s) →
      (∀ s, hasStage src s = true → ∀ k, (u.stages s).waitList k ≤ M k) →
      (∀ s, hasStage src s = true → ∀ k, ((barrier u src d).stages s).waitList k ≤ M k) := by
    intro d u hi hu
    unfold barrier
    split
    · exact hu
    · generalize allStages = l
      induction l generalizing u with
      | nil => exact hu
      | cons a l ih =>
        rw [List.foldl_cons]
        by_cases ha : hasStage src a = true
        · simp only [ha, if_true]
          exact ih _ (fun s hs => by rw [barrierFrom_index]; exact hi s hs)
            (barrierFrom_bounded src M d a u ha hi hu)
        · simp only [ha]
          exact ih u hi hu
  unfold pipelineBarrier
  generalize allStages = l
  induction l generalizing t with
  | nil => exact hw
  | cons a l ih =>
    rw [List.foldl_cons]
    by_cases ha : hasStage dst a = true
    · simp only [ha, if_true]
      exact ih _ (fun s hs => by rw [barrier_index]; exact hidx s hs) (hb a t hidx hw)
    · simp only [ha]
      exact ih t hidx hw

/-- A barrier changes nothing when every destination stage already waits for the counter
of every source stage and for everything the source stages wait for. -/
theorem pipelineBarrier_eq_self (t : QueueTracker) (src dst : StageFlags)
    (h : ∀ d s, hasStage dst d = true → hasStage src s = true →
      (t.stages s).index ≤ (t.stages d).waitList s ∧
      ∀ k, (t.stages s).waitList k ≤ (t.stages d).waitList k) :
    pipelineBarrier t src dst = t := by
  unfold pipelineBarrier
  refine foldl_const _ _ _ (fun d _ => ?_)
  split
  · next hd =>
    unfold barrier
    split
    · rfl
    · refine foldl_const _ _ _ (fun s _ => ?_)
      split
      · next hs => exact barrierFrom_eq_self d t s (h d s hd hs).1 (h d s hd hs).2
      · rfl
  · rfl

/-- C29: for every tracker state and all masks, calling `pipelineBarrier(src, dst)` twice
in succession leaves the tracker in the same state as calling it once. -/
theorem pipelineBarrier_idempotent (t : QueueTracker) (src dst : StageFlags) :
    pipelineBarrier (pipelineBarrier t src dst) src dst = pipelineBarrier t src dst := by
  refine pipelineBarrier_eq_self _ src dst (fun d s hd hs => ?_)
  obtain ⟨h1, _⟩ := pipelineBarrier_waits_core t src dst d s hd hs
  refine ⟨by rw [pipelineBarrier_index]; exact h1, ?_⟩
  exact pipelineBarrier_bounded src dst
    (fun k => ((pipelineBarrier t src dst).stages d).waitList k) t
    (fun s1 hs1 => (pipelineBarrier_waits_core t src dst d s1 hd hs1).1)
    (fun s1 hs1 => (pipelineBarrier_waits_core t src dst d s1 hd hs1).2) s hs


/-! ## Theorems: `signalEvent` -/

theorem foldl_update_max (f : Stage → Nat) (s : Stage) (l : List Stage) :
    ∀ w : Stage → Nat,
      l.foldl (fun w stage => Function.update w s (max (f stage) (w s))) w =
        Function.update w s (max (w s) (l.foldl (fun m k => max m (f k)) 0)) := by
  induction l with
  | nil =>
    intro w
    simp
  | cons a l ih =>
    intro w
    rw [List.foldl_cons, ih, List.foldl_cons]
    have h : ∀ (l : List Stage) (x : Nat),
        l.foldl (fun m k => max m (f k)) x = max x (l.foldl (fun m k => max m (f k)) 0) := by
      intro l
      induction l with
      | nil => simp
      | cons b l ihl =>
        intro x
        rw [List.foldl_cons, List.foldl_cons, ihl (max x (f b)), ihl (max 0 (f b))]
        omega
    rw [h l (max 0 (f a))]
    simp only [Function.update_same, Function.update_idem]
    refine congrArg (Function.update w s) ?_
    omega

theorem signalFrom_eq (t : QueueTracker) (w : Stage → Nat) (s : Stage) :
    signalFrom t w s =
      Function.update w s (max (max (t.stages s).index (w s))
        (allStages.foldl (fun m k => max m ((t.stages s).waitList k)) 0)) := by
  unfold signalFrom
  rw [foldl_update_max (fun k => (t.stages s).waitList k) s allStages]
  simp only [Function.update_same, Function.update_idem]

theorem foldl_signalFrom (t : QueueTracker) (src : StageFlags) (l : List Stage) (hl : l.Nodup) :
    ∀ (w : Stage → Nat) (j : Stage),
      (l.foldl (fun w s => if hasStage src s then signalFrom t w s else w) w) j =
        if j ∈ l ∧ hasStage src j = true then
          max (max (t.stages j).index (w j))
            (allStages.foldl (fun m k => max m ((t.stages j).waitList k)) 0)
        else w j := by
  induction l with
  | nil =>
    intro w j
    simp
  | cons a l ih =>
    intro w j
    rw [List.nodup_cons] at hl
    rw [List.foldl_cons, ih hl.2]
    by_cases e : j = a
    · subst e
      by_cases hs : hasStage src j = true
      · simp [hl.1, hs, signalFrom_eq]
      · simp [hl.1, hs]
    · by_cases hs : hasStage src a = true
      · simp only [hs, if_true, signalFrom_eq, Function.update_noteq e, List.mem_cons, e,
          false_or]
      · simp only [hs, List.mem_cons, e, false_or]
        rfl

/-- C24: for every tracker state, every unsignalled event and every mask,
`signalEvent(event, srcStages)` sets the event's `waitList[s]` to the maximum of
`stages[s].index` and of `stages[s].waitList[k]` over all stages `k` for each stage `s` in
`srcStages`, and to 0 for each other stage, and marks the event signalled; on a signalled
event it changes nothing; the closure recorded by `vkCmdSetEvent` leaves every queue, hence
every tracker, unchanged. -/
theorem signalEvent_captures (t : QueueTracker) (event : Event) (srcStages : StageFlags) :
    (event.getSignalStatus = false →
      (∀ s : Stage, (signalEvent t event srcStages).waitList s =
        if hasStage srcStages s = true then
          max (t.stages s).index
            (allStages.foldl (fun m k => max m ((t.stages s).waitList k)) 0)
        else 0) ∧
      (signalEvent t event srcStages).getSignalStatus = true) ∧
    (event.getSignalStatus = true → signalEvent t event srcStages = event) ∧
    (∀ (queue handle : Nat) (env : Env),
      ((TrackerCall.signalEvent handle srcStages).run queue env).queues = env.queues) := by
  refine ⟨fun h => ⟨fun s => ?_, ?_⟩, fun h => ?_, fun _ _ _ => rfl⟩
  · unfold signalEvent
    rw [h]
    simp only [Bool.false_eq_true, if_false, Event.signal]
    rw [foldl_signalFrom t srcStages allStages allStages_nodup]
    simp only [mem_allStages, true_and, Nat.max_zero]
  · unfold signalEvent
    rw [h]
    rfl
  · unfold signalEvent
    rw [h]
    rfl

/-- C24 (example): a new event signalled from COMPUTE on the tracker in which COMPUTE has
no work and waits for GEOMETRY work 1. -/
theorem signalEvent_captures_witness :
    Event.fresh.getSignalStatus = false ∧
    (∀ s : Stage, (signalEvent computeWaitsGeometry Event.fresh STAGE_COMPUTE_BIT).waitList s =
        if hasStage STAGE_COMPUTE_BIT s = true then
          max (computeWaitsGeometry.stages s).index
            (allStages.foldl (fun m k => max m ((computeWaitsGeometry.stages s).waitList k)) 0)
        else 0) ∧
    (signalEvent computeWaitsGeometry Event.fresh STAGE_COMPUTE_BIT).getSignalStatus = true :=
  ⟨rfl, (signalEvent_captures computeWaitsGeometry Event.fresh STAGE_COMPUTE_BIT).1 rfl⟩

/-! ## Theorems: a replay only empties ledgers -/

theorem replay_ledgers (fuel : Nat) :
    (∀ (w w1 : World σ) (cb queue : Nat), callDeferredFunctions fuel w cb queue = some w1 →
      w1.deferredFunctions cb = [] ∧
      ∀ c, w1.deferredFunctions c = w.deferredFunctions c ∨ w1.deferredFunctions c = []) ∧
    (∀ (fs : List (DeferredFunction σ)) (w w1 : World σ) (queue : Nat),
      fs.foldlM (invokeDeferred (callDeferredFunctions fuel) queue) w = some w1 →
      (∀ c, w1.deferredFunctions c = w.deferredFunctions c ∨ w1.deferredFunctions c = []) ∧
      ∀ c, DeferredFunction.executeCommandBuffer c ∈ fs → w1.deferredFunctions c = []) := by
  induction fuel with
  | zero =>
    have h0 : ∀ (w w1 : World σ) (cb queue : Nat), callDeferredFunctions 0 w cb queue = some w1 →
        w1.deferredFunctions cb = [] ∧
        ∀ c, w1.deferredFunctions c = w.deferredFunctions c ∨ w1.deferredFunctions c = [] := by
      intro w w1 cb queue h
      simp [callDeferredFunctions] at h
    refine ⟨h0, ?_⟩
    intro fs
    induction fs with
    | nil =>
      intro w w1 queue h
      simp only [List.foldlM_nil, pure, Option.some.injEq] at h
      subst h
      exact ⟨fun c => Or.inl rfl, fun c hc => by simp at hc⟩
    | cons f fs ih =>
      intro w w1 queue h
      cases f with
      | closure g =>
        simp only [List.foldlM_cons, invokeDeferred, Option.bind_eq_bind, Option.some_bind] at h
        obtain ⟨h1, h2⟩ := ih _ w1 queue h
        refine ⟨h1, fun c hc => ?_⟩
        rcases List.mem_cons.1 hc with e | hc
        · cases e
        · exact h2 c hc
      | executeCommandBuffer c0 =>
        simp [List.foldlM_cons, invokeDeferred, callDeferredFunctions] at h
  | succ n ihn =>
    obtain ⟨ihc, ihf⟩ := ihn
    have hcall : ∀ (w w1 : World σ) (cb queue : Nat),
        callDeferredFunctions (n + 1) w cb queue = some w1 →
        w1.deferredFunctions cb = [] ∧
        ∀ c, w1.deferredFunctions c = w.deferredFunctions c ∨ w1.deferredFunctions c = [] := by
      intro w w1 cb queue h
      rw [callDeferredFunctions_succ] at h
      cases hf : (w.deferredFunctions cb).foldlM
          (invokeDeferred (callDeferredFunctions n) queue) w with
      | none =>
        rw [hf] at h
        simp at h
      | some w2 =>
        rw [hf] at h
        simp only [Option.map_some', Option.some.injEq] at h
        subst h
        refine ⟨clearDeferredFunctions_ledger _ _, fun c => ?_⟩
        by_cases e : c = cb
        · subst e
          exact Or.inr (clearDeferredFunctions_ledger _ _)
        · rw [clearDeferredFunctions_other _ _ _ e]
          exact (ihf _ w w2 queue hf).1 c
    refine ⟨hcall, ?_⟩
    intro fs
    induction fs with
    | nil =>
      intro w w1 queue h
      simp only [List.foldlM_nil, pure, Option.some.injEq] at h
      subst h
      exact ⟨fun c => Or.inl rfl, fun c hc => by simp at hc⟩
    | cons f fs ih =>
      intro w w1 queue h
      cases f with
      | closure g =>
        simp only [List.foldlM_cons, invokeDeferred, Option.bind_eq_bind, Option.some_bind] at h
        obtain ⟨h1, h2⟩ := ih _ w1 queue h
        refine ⟨h1, fun c hc => ?_⟩
        rcases List.mem_cons.1 hc with e | hc
        · cases e
        · exact h2 c hc
      | executeCommandBuffer c0 =>
        simp only [List.foldlM_cons, invokeDeferred, Option.bind_eq_bind] at h
        cases hc0 : callDeferredFunctions (n + 1) w c0 queue with
        | none =>
          rw [hc0] at h
          simp at h
        | some w2 =>
          rw [hc0] at h
          simp only [Option.some_bind] at h
          obtain ⟨g1, g2⟩ := hcall w w2 c0 queue hc0
          obtain ⟨h1, h2⟩ := ih w2 w1 queue h
          refine ⟨fun c => ?_, fun c hc => ?_⟩
          · rcases h1 c with e1 | e1
            · rcases g2 c with e2 | e2
              · exact Or.inl (e1.trans e2)
              · exact Or.inr (e1.trans e2)
            · exact Or.inr e1
          · rcases List.mem_cons.1 hc with e | hc
            · have ec : c = c0 := by injection e
              rw [ec]
              rcases h1 c0 with e1 | e1
              · exact e1.trans g1
              · exact e1
            · exact h2 c hc

/-- A replay that returns leaves the ledger of every command buffer it executed empty:
when command buffer `primary` holds `executeCommandBuffer(secondary)` and its
`callDeferredFunctions` returns, the ledgers of `secondary` and of `primary` are empty
afterwards, and every later replay of `secondary`, on any queue, returns at once and
changes nothing. -/
theorem replay_empties_executed (fuel : Nat) (w w1 : World σ) (primary secondary queue : Nat)
    (hrec : DeferredFunction.executeCommandBuffer secondary ∈ w.deferredFunctions primary)
    (hret : callDeferredFunctions fuel w primary queue = some w1) :
    w1.deferredFunctions secondary = [] ∧ w1.deferredFunctions primary = [] ∧
    ∀ fuel2 queue2, callDeferredFunctions (fuel2 + 1) w1 secondary queue2 = some w1 := by
  have hsec : w1.deferredFunctions secondary = [] := by
    cases fuel with
    | zero => simp [callDeferredFunctions] at hret
    | succ n =>
      rw [callDeferredFunctions_succ] at hret
      cases hf : (w.deferredFunctions primary).foldlM
          (invokeDeferred (callDeferredFunctions n) queue) w with
      | none =>
        rw [hf] at hret
        simp at hret
      | some w2 =>
        rw [hf] at hret
        simp only [Option.map_some', Option.some.injEq] at hret
        subst hret
        have h2 := ((replay_ledgers n).2 _ w w2 queue hf).2 secondary hrec
        by_cases e : secondary = primary
        · rw [e]
          exact clearDeferredFunctions_ledger _ _
        · rw [clearDeferredFunctions_other _ _ _ e]
          exact h2
  exact ⟨hsec, ((replay_ledgers fuel).1 w w1 primary queue hret).1,
    fun fuel2 queue2 => callDeferredFunctions_of_empty fuel2 w1 secondary queue2 hsec⟩

/-- Example: primary 0 holds `pushWork(TRANSFER)`, the execution of secondary 1 and
`pushWork(FRAGMENT)`; its replay returns and leaves the ledger of secondary 1 empty. -/
theorem replay_empties_executed_example :
    ∃ w1, callDeferredFunctions 3 nestedOnceWorld 0 0 = some w1 ∧
      w1.deferredFunctions 1 = [] ∧ w1.deferredFunctions 0 = [] ∧
      ∀ fuel2 queue2, callDeferredFunctions (fuel2 + 1) w1 1 queue2 = some w1 :=
  have hsome : (callDeferredFunctions 3 nestedOnceWorld 0 0).isSome = true := by decide
  have hex := Option.isSome_iff_exists.1 hsome
  hex.elim (fun w1 h1 => ⟨w1, h1,
    replay_empties_executed 3 nestedOnceWorld w1 0 1 0
      (List.mem_cons_of_mem _ (List.mem_cons_self _ _)) h1⟩)


/-! ## Theorems: `testCache` on a full cache -/

/-- The hit found by the search loop is the first one. -/
theorem testCacheLoop_first_hit (value : Nat) (d : Nat → CacheEntry) (n : Nat) :
    ∀ (a lru i : Nat), (testCacheLoop value d (List.range' a n) lru).1 = some i →
      ∀ j, a ≤ j → j < i → (d j).value ≠ value := by
  induction n with
  | zero =>
    intro a lru i h
    simp [testCacheLoop] at h
  | succ n ih =>
    intro a lru i h j haj hji
    rw [List.range'_succ] at h
    unfold testCacheLoop at h
    split at h
    · next ha =>
      simp only [Option.some.injEq] at h
      omega
    · next ha =>
      rcases Nat.eq_or_lt_of_le haj with e | e
      · rw [← e]
        exact ha
      · exact ih (a + 1) _ i h j e hji

/-- The entry that the search loop leaves in `lru` is the first one of minimum age: when
`lru` is that entry among the slots `b, ..., a - 1` before the loop visits
`a, ..., a + n - 1`, it is that entry among `b, ..., a + n - 1` afterwards. -/
theorem testCacheLoop_first_min (value : Nat) (d : Nat → CacheEntry) (b n : Nat) :
    ∀ (a lru : Nat), b ≤ lru → lru ≤ a →
      (∀ j, b ≤ j → j < lru → (d lru).age < (d j).age) →
      (∀ j, lru < j → j < a → (d lru).age ≤ (d j).age) →
      (∀ i ∈ List.range' a n, (d i).value ≠ value) →
      b ≤ (testCacheLoop value d (List.range' a n) lru).2 ∧
      (testCacheLoop value d (List.range' a n) lru).2 ≤ max lru (a + n - 1) ∧
      (∀ j, b ≤ j → j < (testCacheLoop value d (List.range' a n) lru).2 →
        (d (testCacheLoop value d (List.range' a n) lru).2).age < (d j).age) ∧
      (∀ j, (testCacheLoop value d (List.range' a n) lru).2 < j → j < a + n →
        (d (testCacheLoop value d (List.range' a n) lru).2).age ≤ (d j).age) := by
  induction n with
  | zero =>
    intro a lru h1 h2 h3 h4 _
    refine ⟨h1, ?_, h3, fun j hj hja => h4 j hj hja⟩
    show lru ≤ max lru (a + 0 - 1)
    omega
  | succ n ih =>
    intro a lru h1 h2 h3 h4 hv
    rw [List.range'_succ] at hv ⊢
    have ha : (d a).value ≠ value := hv a (List.mem_cons_self _ _)
    unfold testCacheLoop
    rw [if_neg ha]
    by_cases c : (d a).age < (d lru).age
    · rw [if_pos c]
      have hne : lru ≠ a := fun e => by
        rw [e] at c
        exact Nat.lt_irrefl _ c
      obtain ⟨g1, g2, g3, g4⟩ := ih (a + 1) a (by omega) (by omega)
        (fun j hbj hja => by
          rcases Nat.lt_trichotomy j lru with h | h | h
          · exact Nat.lt_trans c (h3 j hbj h)
          · rw [h]
            exact c
          · exact Nat.lt_of_lt_of_le c (h4 j h hja))
        (fun j h5 h6 => by omega)
        (fun i hi => hv i (List.mem_cons_of_mem _ hi))
      exact ⟨g1, by omega, g3, fun j hj hja => g4 j hj (by omega)⟩
    · rw [if_neg c]
      obtain ⟨g1, g2, g3, g4⟩ := ih (a + 1) lru h1 (by omega) h3
        (fun j h5 h6 => by
          rcases Nat.eq_or_lt_of_le (Nat.le_of_lt_succ h6) with e | e
          · rw [e]
            exact Nat.le_of_not_lt c
          · exact h4 j h5 e)
        (fun i hi => hv i (List.mem_cons_of_mem _ hi))
      exact ⟨g1, by omega, g3, fun j hj hja => g4 j hj (by omega)⟩

/-- C26: for every cache array, capacity `C >= 1`, value `v` and iteration `t >= C`: if
`v` is stored in none of the `C` slots, `testCache` returns false and overwrites exactly
one slot with `{v, t}`, the lowest-indexed slot of minimum age, leaving every other slot
unchanged; if `v` is stored in some slot, `testCache` returns true and changes only the age
of the lowest-indexed slot holding `v`, setting it to `t`. -/
theorem testCache_full_cache (v t : Nat) (d : Nat → CacheEntry) (C : Nat) (hC : 1 ≤ C)
    (ht : C ≤ t) :
    ((∀ i, i < C → (d i).value ≠ v) →
      ∃ lru, lru < C ∧ (∀ i, i < C → (d lru).age ≤ (d i).age) ∧
        (∀ i, i < lru → (d lru).age < (d i).age) ∧
        testCache v t d C = some (false, Function.update d lru ⟨v, t⟩)) ∧
    ((∃ i, i < C ∧ (d i).value = v) →
      ∃ i, i < C ∧ (d i).value = v ∧ (∀ j, j < i → (d j).value ≠ v) ∧
        testCache v t d C = some (true, Function.update d i ⟨(d i).value, t⟩)) := by
  have hmin : min t C = C := Nat.min_eq_right ht
  constructor
  · intro hmiss
    have hl : ∀ i ∈ List.range C, (d i).value ≠ v := fun i hi => hmiss i (List.mem_range.1 hi)
    have hn := (testCacheLoop_none v d (List.range C) 0 hl).1
    have hl2 : ∀ i ∈ List.range' 0 C, (d i).value ≠ v := by
      rw [← List.range_eq_range']
      exact hl
    obtain ⟨_, g2, g3, g4⟩ := testCacheLoop_first_min v d 0 C 0 0 (Nat.le_refl _) (Nat.le_refl _)
      (fun j _ hj => absurd hj (Nat.not_lt_zero _)) (fun j h5 h6 => by omega) hl2
    rw [← List.range_eq_range'] at g2 g3 g4
    have hlt : (testCacheLoop v d (List.range C) 0).2 < C := by omega
    refine ⟨(testCacheLoop v d (List.range C) 0).2, hlt, fun i hi => ?_,
      fun i hi => g3 i (Nat.zero_le _) hi, ?_⟩
    · rcases Nat.lt_trichotomy i (testCacheLoop v d (List.range C) 0).2 with h | h | h
      · exact Nat.le_of_lt (g3 i (Nat.zero_le _) h)
      · rw [h]
      · exact g4 i h (by omega)
    · unfold testCache
      rw [hmin]
      generalize testCacheLoop v d (List.range C) 0 = res at hn hlt
      obtain ⟨r1, r2⟩ := res
      simp only at hn hlt
      subst hn
      simp [Nat.not_lt.2 ht, hlt]
  · rintro ⟨j, hj, hv⟩
    obtain ⟨i, hi⟩ := testCacheLoop_found v d (List.range C) 0 ⟨j, List.mem_range.2 hj, hv⟩
    obtain ⟨hmem, hval⟩ := testCacheLoop_some v d _ 0 i hi
    have hfirst : ∀ j, j < i → (d j).value ≠ v := by
      intro j hji
      have hi2 := hi
      rw [List.range_eq_range'] at hi2
      exact testCacheLoop_first_hit v d C 0 0 i hi2 j (Nat.zero_le _) hji
    refine ⟨i, List.mem_range.1 hmem, hval, hfirst, ?_⟩
    unfold testCache
    rw [hmin]
    generalize testCacheLoop v d (List.range C) 0 = res at hi
    obtain ⟨r1, r2⟩ := res
    simp only at hi
    subst hi
    rfl

/-- C26 (example): a cache of three slots holding the values 0, 1, 2 with ages 3, 2, 1, at
iteration 7: the value 9 replaces slot 2, the value 1 is found in slot 1. -/
theorem testCache_full_cache_witness :
    (1 ≤ 3 ∧ 3 ≤ 7 ∧ (∀ i, i < 3 → (descendingAges i).value ≠ 9) ∧
      (∃ i, i < 3 ∧ (descendingAges i).value = 1)) ∧
    (∃ lru, lru < 3 ∧ (∀ i, i < 3 → (descendingAges lru).age ≤ (descendingAges i).age) ∧
        (∀ i, i < lru → (descendingAges lru).age < (descendingAges i).age) ∧
        testCache 9 7 descendingAges 3 = some (false, Function.update descendingAges lru ⟨9, 7⟩)) ∧
    (∃ i, i < 3 ∧ (descendingAges i).value = 1 ∧ (∀ j, j < i → (descendingAges j).value ≠ 1) ∧
        testCache 1 7 descendingAges 3 =
          some (true, Function.update descendingAges i ⟨(descendingAges i).value, 7⟩)) :=
  ⟨⟨by decide, by decide, by decide, ⟨1, by decide, rfl⟩⟩,
   (testCache_full_cache 9 7 descendingAges 3 (by decide) (by decide)).1 (by decide),
   (testCache_full_cache 1 7 descendingAges 3 (by decide) (by decide)).2 ⟨1, by decide, rfl⟩⟩


/-! ## Theorems: the early exits of `scanIndices` -/

/-- With a cache of at least one entry the first loop returns on every list of scanned
values, and `minValue` and `maxValue` are the minimum and the maximum of the values. -/
theorem scan_fold_returns (r : Bool) (rv cs : Nat) (hcs : 0 < cs) (vs : List Nat) :
    ∀ s : ScanState, (∀ v ∈ vs, isScanned r rv v = true) →
      ∃ st, vs.foldl (scanStep r rv cs) (some s) = some st ∧
        st.minValue = vs.foldl min s.minValue ∧ st.maxValue = vs.foldl max s.maxValue := by
  induction vs with
  | nil =>
    intro s _
    exact ⟨s, rfl, rfl, rfl⟩
  | cons v vs ih =>
    intro s hsc
    obtain ⟨s1, h1, _, hmin1, hmax1, _⟩ :=
      scanStep_holds r rv cs hcs s v (hsc v (List.mem_cons_self _ _))
    obtain ⟨st, h2, hmin, hmax⟩ := ih s1 (fun w hw => hsc w (List.mem_cons_of_mem _ hw))
    refine ⟨st, ?_, ?_, ?_⟩
    · rw [List.foldl_cons, h1, h2]
    · rw [hmin, hmin1, List.foldl_cons]
    · rw [hmax, hmax1, List.foldl_cons]

theorem scanFirstPass_returns (r : Bool) (rv : Nat) (cache : CacheVector) (values : List Nat)
    (hcs : 0 < cache.size % UINT32_RANGE) :
    ∃ st, scanFirstPass r rv cache values = some st ∧
      st.minValue = (values.filter (isScanned r rv)).foldl min (UINT32_RANGE - 1) ∧
      st.maxValue = (values.filter (isScanned r rv)).foldl max 0 := by
  rw [scanFirstPass_filter]
  exact scan_fold_returns r rv _ hcs _ _ (fun v hv => (List.mem_filter.1 hv).2)

theorem scanReport_eq (fm : FloatOps) (cfg : Config fm) (r : Bool) (rv indexCount : Nat)
    (values : List Nat) (st : ScanState) :
    scanReport fm cfg r rv indexCount values st =
      if st.maxValue < st.minValue then some []
      else if st.maxValue - st.minValue ≥ indexCount then
        some [.sparseRange indexCount ((st.maxValue - st.minValue + 1) % UINT32_RANGE)]
      else occupancyReport fm cfg r rv values st := rfl

theorem scanIndices_of_report (fm : FloatOps) (cfg : Config fm) (cache : CacheVector)
    (data : Nat → Nat) (indexType : VkIndexType) (indexCount firstIndex : Nat) (r : Bool)
    (st : ScanState)
    (h1 : scanFirstPass r (primitiveRestartValue indexType)
      (cache.resize cfg.indexBufferVertexPostTransformCache)
      (scannedValues indexType data indexCount firstIndex) = some st) :
    (scanIndices fm cfg cache (some data) indexType indexCount firstIndex r).map
        (fun res => res.1) =
      scanReport fm cfg r (primitiveRestartValue indexType) indexCount
        (scannedValues indexType data indexCount firstIndex) st := by
  simp only [scanIndices, h1]
  cases scanReport fm cfg r (primitiveRestartValue indexType) indexCount
    (scannedValues indexType data indexCount firstIndex) st <;> rfl

/-- C25: first, when no non-restart index is read the scan logs nothing. Second, when at
least one is read (and the 32-bit truncation of the cache capacity is at least 1, so that
the first loop returns), `minValue <= maxValue` are the minimum and the maximum of the
values read; if `maxValue - minValue >= indexCount` the scan logs exactly the one
index-buffer-sparse message of the early exit, and if `maxValue - minValue < indexCount`
its log is the one of the occupancy pass. -/
theorem scan_early_exits (fm : FloatOps) (cfg : Config fm) (cache : CacheVector)
    (data : Nat → Nat) (indexType : VkIndexType) (indexCount firstIndex : Nat) (r : Bool) :
    ((scannedValues indexType data indexCount firstIndex).filter
        (isScanned r (primitiveRestartValue indexType)) = [] →
      ∃ c, scanIndices fm cfg cache (some data) indexType indexCount firstIndex r =
        some ([], c)) ∧
    ((scannedValues indexType data indexCount firstIndex).filter
        (isScanned r (primitiveRestartValue indexType)) ≠ [] →
      0 < cfg.indexBufferVertexPostTransformCache % UINT32_RANGE →
      ∃ st, scanFirstPass r (primitiveRestartValue indexType)
          (cache.resize cfg.indexBufferVertexPostTransformCache)
          (scannedValues indexType data indexCount firstIndex) = some st ∧
        st.minValue = ((scannedValues indexType data indexCount firstIndex).filter
          (isScanned r (primitiveRestartValue indexType))).foldl min (UINT32_RANGE - 1) ∧
        st.maxValue = ((scannedValues indexType data indexCount firstIndex).filter
          (isScanned r (primitiveRestartValue indexType))).foldl max 0 ∧
        st.minValue ≤ st.maxValue ∧
        (indexCount ≤ st.maxValue - st.minValue →
          ∃ c, scanIndices fm cfg cache (some data) indexType indexCount firstIndex r =
            some ([.sparseRange indexCount ((st.maxValue - st.minValue + 1) % UINT32_RANGE)],
              c)) ∧
        (st.maxValue - st.minValue < indexCount →
          (scanIndices fm cfg cache (some data) indexType indexCount firstIndex r).map
              (fun res => res.1) =
            occupancyReport fm cfg r (primitiveRestartValue indexType)
              (scannedValues indexType data indexCount firstIndex) st)) := by
  constructor
  · intro hnil
    have h1 : scanFirstPass r (primitiveRestartValue indexType)
        (cache.resize cfg.indexBufferVertexPostTransformCache)
        (scannedValues indexType data indexCount firstIndex) =
        some { minValue := UINT32_RANGE - 1, maxValue := 0, iteration := 0,
               vertexShadeCount := 0,
               cacheEntries := (cache.resize cfg.indexBufferVertexPostTransformCache).data } := by
      rw [scanFirstPass_filter, hnil]
      rfl
    exact ⟨_, scanIndices_eq fm cfg cache data indexType indexCount firstIndex r _ [] h1
      (by simp [scanReport, UINT32_RANGE])⟩
  · intro hne hcap
    obtain ⟨st, hst, hmin, hmax⟩ := scanFirstPass_returns r (primitiveRestartValue indexType)
      (cache.resize cfg.indexBufferVertexPostTransformCache)
      (scannedValues indexType data indexCount firstIndex) hcap
    obtain ⟨v, hv⟩ := List.exists_mem_of_ne_nil _ hne
    have hle : st.minValue ≤ st.maxValue := by
      rw [hmin, hmax]
      exact Nat.le_trans ((foldl_min_le _ _).2 v hv) ((le_foldl_max _ _).2 v hv)
    refine ⟨st, hst, hmin, hmax, hle, fun hge => ?_, fun hlt => ?_⟩
    · exact ⟨_, scanIndices_eq fm cfg cache data indexType indexCount firstIndex r st _ hst
        (scanReport_sparse fm cfg r _ indexCount _ st hle hge)⟩
    · rw [scanIndices_of_report fm cfg cache data indexType indexCount firstIndex r st hst,
        scanReport_eq, if_neg (Nat.not_lt.2 hle), if_neg (by omega)]

/-- C25 (example): the 16-bit indices 0, 1, 2, 0xFFFF scanned with `indexCount = 4`, the
default configuration and restart disabled: the early exit logs the sparse message. -/
theorem scan_early_exits_witness :
    ((scannedValues .UINT16 (indicesWithSentinel 4) 4 0).filter
        (isScanned false (primitiveRestartValue .UINT16)) ≠ [] ∧
      0 < defaultConfig.indexBufferVertexPostTransformCache % UINT32_RANGE) ∧
    ∃ c, scanIndices exactFractions defaultConfig CacheVector.empty
      (some (indicesWithSentinel 4)) .UINT16 4 0 false =
        some ([.sparseRange 4 ((65535 - 0 + 1) % UINT32_RANGE)], c) := by
  refine ⟨⟨by decide, by decide⟩, ?_⟩
  obtain ⟨st, _, hmin, hmax, _, hsparse, _⟩ :=
    (scan_early_exits exactFractions defaultConfig CacheVector.empty (indicesWithSentinel 4)
      .UINT16 4 0 false).2 (by decide) (by decide)
  have e1 : st.minValue = 0 := by
    rw [hmin]
    decide
  have e2 : st.maxValue = 65535 := by
    rw [hmax]
    decide
  rw [e1, e2] at hsparse
  exact hsparse (by decide)

/-! ## Theorems: failing inputs of the scan -/

/-- C27 (failing input): cache of two entries, freshly allocated (every entry has value 0
and age 0), 16-bit indices 1, 1, 0, restart disabled. The sequence has two distinct
values, but the first loop counts one miss: the lookup of 0 at iteration 2 searches slot
1, which no lookup has written, and finds the initial value 0 there. With a cache-hit
threshold of 2 the scan reports `verticesReferenced / vertexShadeCount = 2 / 1`. -/
theorem scan_counts_fewer_misses_than_values :
    scannedValues .UINT16 indicesOneOneZero 3 0 = [1, 1, 0] ∧
    (scannedValues .UINT16 indicesOneOneZero 3 0).dedup.length = 2 ∧
    (scanFirstPass false (primitiveRestartValue .UINT16) (CacheVector.empty.resize 2)
        (scannedValues .UINT16 indicesOneOneZero 3 0)).map
      (fun st => st.vertexShadeCount) = some 1 ∧
    (scanIndices exactFractions thresholdTwoConfig CacheVector.empty (some indicesOneOneZero)
        .UINT16 3 0 false).map (fun res => res.1) = some [.cacheThrashing 2 1] := by
  decide

theorem foldl_occupancyStep_none (r : Bool) (rv lo hi nb : Nat) (vs : List Nat) :
    vs.foldl (occupancyStep r rv lo hi nb) none = none := by
  induction vs with
  | nil => rfl
  | cons v vs ih => exact ih

theorem occupancyReport_of_fold_none (fm : FloatOps) (cfg : Config fm) (r : Bool) (rv : Nat)
    (values : List Nat) (st : ScanState)
    (h : values.foldl (occupancyStep r rv st.minValue st.maxValue
        ((((st.maxValue - st.minValue + 1) % UINT32_RANGE + 63) % UINT32_RANGE) / 64))
      (some { buckets := fun _ => 0, fragmentation := List.replicate 16 false }) = none) :
    occupancyReport fm cfg r rv values st = none := by
  simp only [occupancyReport, h]

/-- The fragmentation-map index is below 16, also when the 32-bit multiplication wraps, and
the bucket index is in bounds when the bucket count `(range + 63) / 64` does not wrap. -/
theorem occupancy_indices_in_bounds (lo hi v : Nat) (h1 : lo ≤ v) (h2 : v ≤ hi)
    (h32 : hi < UINT32_RANGE) (hrange : hi - lo + 1 < UINT32_RANGE) :
    (((v + UINT32_RANGE - lo) % UINT32_RANGE) * 16 % UINT32_RANGE) /
        ((hi - lo + 1) % UINT32_RANGE) < 16 ∧
    (hi - lo + 64 < UINT32_RANGE →
      ((v + UINT32_RANGE - lo) % UINT32_RANGE) / 64 <
        (((hi - lo + 1) % UINT32_RANGE + 63) % UINT32_RANGE) / 64) := by
  have e0 : (v + UINT32_RANGE - lo) % UINT32_RANGE = v - lo := by
    have e : v + UINT32_RANGE - lo = (v - lo) + UINT32_RANGE := by omega
    rw [e, Nat.add_mod_right, Nat.mod_eq_of_lt (by omega)]
  have e1 : (hi - lo + 1) % UINT32_RANGE = hi - lo + 1 := Nat.mod_eq_of_lt hrange
  rw [e0, e1]
  constructor
  · rw [Nat.div_lt_iff_lt_mul (by omega)]
    have := Nat.mod_le ((v - lo) * 16) UINT32_RANGE
    omega
  · intro hw
    rw [Nat.mod_eq_of_lt (by omega)]
    omega

/-- C28 (failing input): 32-bit indices 0, 0xFFFFFFFE, 0xFFFFFFFE, ... scanned with
`indexCount = 2^32 - 1` and restart disabled. The scan reads 2^30 - 1 indices and finds
`minValue = 0`, `maxValue = 2^32 - 2`; since `maxValue - minValue < indexCount` it takes
the occupancy pass, where the bucket count `((maxValue - minValue + 1) + 63) / 64` wraps
to 0, so that the access `buckets[0]` for the first index is out of bounds. -/
theorem occupancy_out_of_bounds_at_wrap :
    scanCount .UINT32 (2 ^ 32 - 1) = 2 ^ 30 - 1 ∧
    (∃ st, scanFirstPass false (primitiveRestartValue .UINT32)
        (CacheVector.empty.resize defaultConfig.indexBufferVertexPostTransformCache)
        (scannedValues .UINT32 indicesZeroThenTop (2 ^ 32 - 1) 0) = some st ∧
      st.minValue = 0 ∧ st.maxValue = 2 ^ 32 - 2) ∧
    (((2 ^ 32 - 2 - 0 + 1) % UINT32_RANGE + 63) % UINT32_RANGE) / 64 = 0 ∧
    (occupancyStep false (primitiveRestartValue .UINT32) 0 (2 ^ 32 - 2) 0
      (some { buckets := fun _ => 0, fragmentation := List.replicate 16 false }) 0).isNone
      = true ∧
    scanIndices exactFractions defaultConfig CacheVector.empty (some indicesZeroThenTop)
      .UINT32 (2 ^ 32 - 1) 0 false = none := by
  have hcount : scanCount .UINT32 (2 ^ 32 - 1) = 2 ^ 30 - 1 := by decide
  have hfirst : scanFirst .UINT32 0 = 0 := by decide
  have hread : ∀ k, readIndex .UINT32 indicesZeroThenTop k = if k = 0 then 0 else 2 ^ 32 - 2 := by
    intro k
    unfold readIndex indicesZeroThenTop
    by_cases e : k = 0
    · simp [e]
    · simp only [e, if_false, scanStride]
      decide
  have hvals : scannedValues .UINT32 indicesZeroThenTop (2 ^ 32 - 1) 0 =
      0 :: (List.range (2 ^ 30 - 2)).map (fun _ => 2 ^ 32 - 2) := by
    unfold scannedValues
    rw [hcount, hfirst, show (2 : Nat) ^ 30 - 1 = (2 ^ 30 - 2) + 1 from by decide,
      List.range_succ_eq_map, List.map_cons, List.map_map]
    simp only [Nat.zero_add, hread, if_true]
    congr 1
  have hmem0 : (0 : Nat) ∈ scannedValues .UINT32 indicesZeroThenTop (2 ^ 32 - 1) 0 := by
    rw [hvals]
    exact List.mem_cons_self _ _
  have hmem1 : 2 ^ 32 - 2 ∈ scannedValues .UINT32 indicesZeroThenTop (2 ^ 32 - 1) 0 := by
    rw [hvals]
    exact List.mem_cons_of_mem _ (List.mem_map.2 ⟨0, List.mem_range.2 (by decide), rfl⟩)
  have hle : ∀ v ∈ scannedValues .UINT32 indicesZeroThenTop (2 ^ 32 - 1) 0, v ≤ 2 ^ 32 - 2 := by
    intro v hv
    rw [hvals] at hv
    rcases List.mem_cons.1 hv with e | hv
    · rw [e]
      exact Nat.zero_le _
    · obtain ⟨_, _, e⟩ := List.mem_map.1 hv
      rw [← e]
  obtain ⟨st, hst, hmin, hmax⟩ := scanFirstPass_returns false (primitiveRestartValue .UINT32)
    (CacheVector.empty.resize defaultConfig.indexBufferVertexPostTransformCache)
    (scannedValues .UINT32 indicesZeroThenTop (2 ^ 32 - 1) 0) (by decide)
  rw [filter_isScanned_no_restart] at hmin hmax
  have hlo : st.minValue = 0 := by
    rw [hmin]
    exact foldl_min_eq _ 0 hmem0 (fun v _ => Nat.zero_le v)
      (fun v hv => Nat.lt_of_le_of_lt (hle v hv) (by decide))
  have hhi : st.maxValue = 2 ^ 32 - 2 := by
    rw [hmax]
    exact foldl_max_eq _ _ hmem1 hle
  have hstep : occupancyStep false (primitiveRestartValue .UINT32) 0 (2 ^ 32 - 2) 0
      (some { buckets := fun _ => 0, fragmentation := List.replicate 16 false }) 0 = none := by
    simp [occupancyStep, isScanned]
  refine ⟨hcount, ⟨st, hst, hlo, hhi⟩, by decide, by rw [hstep]; rfl, ?_⟩
  have hrep : scanReport exactFractions defaultConfig false (primitiveRestartValue .UINT32)
      (2 ^ 32 - 1) (scannedValues .UINT32 indicesZeroThenTop (2 ^ 32 - 1) 0) st = none := by
    rw [scanReport_eq, hlo, hhi, if_neg (by decide), if_neg (by decide)]
    apply occupancyReport_of_fold_none
    rw [hlo, hhi, hvals, List.foldl_cons,
      show (((2 ^ 32 - 2 - 0 + 1) % UINT32_RANGE + 63) % UINT32_RANGE) / 64 = 0 from by decide,
      hstep, foldl_occupancyStep_none]
  have h := scanIndices_of_report exactFractions defaultConfig CacheVector.empty
    indicesZeroThenTop .UINT32 (2 ^ 32 - 1) 0 false st hst
  rw [hrep] at h
  cases hres : scanIndices exactFractions defaultConfig CacheVector.empty
      (some indicesZeroThenTop) .UINT32 (2 ^ 32 - 1) 0 false with
  | none => rfl
  | some res =>
    rw [hres] at h
    simp at h

/-! ## Theorems: a secondary command buffer executed twice -/

theorem enqueueDeferredFunction_ledger (w : World σ) (cb : Nat) (f : DeferredFunction σ)
    (c : Nat) :
    (enqueueDeferredFunction w cb f).deferredFunctions c =
      if c = cb then w.deferredFunctions cb ++ [f] else w.deferredFunctions c := by
  by_cases h : c = cb
  · subst h
    simp [enqueueDeferredFunction]
  · simp [enqueueDeferredFunction, Function.update_noteq h, h]

theorem enqueueClosures_ledger (gs : List (Nat → σ → σ)) (cb : Nat) :
    ∀ (w : World σ),
      (enqueueClosures w cb gs).state = w.state ∧
      ∀ c, (enqueueClosures w cb gs).deferredFunctions c =
        if c = cb then w.deferredFunctions cb ++ gs.map DeferredFunction.closure
        else w.deferredFunctions c := by
  induction gs with
  | nil =>
    intro w
    refine ⟨rfl, fun c => ?_⟩
    by_cases h : c = cb
    · subst h
      simp [enqueueClosures]
    · simp [enqueueClosures, h]
  | cons g gs ih =>
    intro w
    obtain ⟨h1, h2⟩ := ih (enqueueDeferredFunction w cb (.closure g))
    refine ⟨h1, fun c => ?_⟩
    have e : enqueueClosures w cb (g :: gs) =
        enqueueClosures (enqueueDeferredFunction w cb (.closure g)) cb gs := rfl
    rw [e, h2 c, enqueueDeferredFunction_ledger, enqueueDeferredFunction_ledger]
    by_cases h : c = cb
    · simp [h]
    · simp [h]

/-- The replay loop on closures followed by the execution of a command buffer whose ledger
holds the closures `sops`: the closures run, then `sops`, and the executed ledger is
cleared before the loop goes on. -/
theorem foldlM_closures_then_execute (k queue : Nat) (v : World σ) (executed : Nat)
    (gs sops : List (Nat → σ → σ)) (rest : List (DeferredFunction σ))
    (hS : v.deferredFunctions executed = sops.map DeferredFunction.closure) :
    (gs.map DeferredFunction.closure ++ .executeCommandBuffer executed :: rest).foldlM
        (invokeDeferred (callDeferredFunctions (k + 1)) queue) v =
      rest.foldlM (invokeDeferred (callDeferredFunctions (k + 1)) queue)
        (clearDeferredFunctions
          { v with state := (gs ++ sops).foldl (fun s f => f queue s) v.state } executed) := by
  rw [List.foldlM_append, foldlM_closures]
  simp only [Option.bind_eq_bind, Option.some_bind, List.foldlM_cons, invokeDeferred]
  rw [callDeferredFunctions_succ]
  simp only [hS, foldlM_closures, Option.map_some', Option.some_bind, List.foldl_append]

/-- A ledger that holds closures, two executions of the same command buffer and closures
in between and after: the replay returns, the operations of the executed command buffer
run once, and the two ledgers are empty afterwards. -/
theorem replay_executed_twice (v : World σ) (primary secondary queue : Nat)
    (as bs cs sops : List (Nat → σ → σ)) (hne : primary ≠ secondary)
    (hP : v.deferredFunctions primary =
      as.map DeferredFunction.closure ++ .executeCommandBuffer secondary ::
        (bs.map DeferredFunction.closure ++ .executeCommandBuffer secondary ::
          cs.map DeferredFunction.closure))
    (hS : v.deferredFunctions secondary = sops.map DeferredFunction.closure) (fuel : Nat) :
    ∃ w1, callDeferredFunctions (fuel + 2) v primary queue = some w1 ∧
      w1.state = (as ++ sops ++ bs ++ cs).foldl (fun s f => f queue s) v.state ∧
      ∀ c, w1.deferredFunctions c =
        if c = primary ∨ c = secondary then [] else v.deferredFunctions c := by
  rw [callDeferredFunctions_succ, hP,
    foldlM_closures_then_execute fuel queue v secondary as sops _ hS,
    foldlM_closures_then_execute fuel queue _ secondary bs [] _
      (clearDeferredFunctions_ledger _ _),
    foldlM_closures]
  refine ⟨_, rfl, ?_, fun c => ?_⟩
  · simp only [clearDeferredFunctions_state, List.foldl_append, List.append_nil]
  · by_cases h1 : c = primary
    · subst h1
      simp [clearDeferredFunctions]
    · by_cases h2 : c = secondary
      · subst h2
        simp [clearDeferredFunctions, Function.update_noteq h1]
      · simp [clearDeferredFunctions, Function.update_noteq h1, Function.update_noteq h2, h1, h2]

/-- A ledger that holds closures, one execution of a command buffer and closures after it:
the replay returns and runs the closures and, in between, the operations of the executed
command buffer. -/
theorem replay_executed_once (v : World σ) (primary secondary queue : Nat)
    (ds es rops : List (Nat → σ → σ))
    (hP : v.deferredFunctions primary =
      ds.map DeferredFunction.closure ++ .executeCommandBuffer secondary ::
        es.map DeferredFunction.closure)
    (hS : v.deferredFunctions secondary = rops.map DeferredFunction.closure) (fuel : Nat) :
    ∃ w2, callDeferredFunctions (fuel + 2) v primary queue = some w2 ∧
      w2.state = (ds ++ rops ++ es).foldl (fun s f => f queue s) v.state := by
  rw [callDeferredFunctions_succ, hP,
    foldlM_closures_then_execute fuel queue v secondary ds rops _ hS, foldlM_closures]
  refine ⟨_, rfl, ?_⟩
  simp only [clearDeferredFunctions_state, List.foldl_append]

/-- C30: a primary command buffer, empty before, records the closures `as`,
`executeCommandBuffer(secondary)`, the closures `bs`, `executeCommandBuffer(secondary)`
again and the closures `cs`; the secondary's ledger holds the operations `sops`. Then the
primary's `callDeferredFunctions` returns, the device state is the one obtained by applying
`as`, `sops`, `bs`, `cs` in this order (the second entry applies none of `sops`), and the
ledgers of the secondary and of the primary are empty afterwards. Further, a primary
`later` that is recorded afterwards with the closures `ds`, `executeCommandBuffer(secondary)`
and the closures `es`, after the secondary has recorded the operations `rops` again
(`rops` may be empty), applies on its replay `ds`, `rops`, `es` and none of `sops`. -/
theorem second_execution_applies_nothing (w0 : World σ) (primary secondary queue : Nat)
    (as bs cs sops : List (Nat → σ → σ)) (fuel : Nat) (hne : primary ≠ secondary)
    (hP : w0.deferredFunctions primary = [])
    (hS : w0.deferredFunctions secondary = sops.map DeferredFunction.closure) :
    ∃ w1,
      callDeferredFunctions (fuel + 2)
        (enqueueClosures
          (executeCommandBuffer
            (enqueueClosures
              (executeCommandBuffer (enqueueClosures w0 primary as) primary secondary)
              primary bs)
            primary secondary)
          primary cs)
        primary queue = some w1 ∧
      w1.state = (as ++ sops ++ bs ++ cs).foldl (fun s f => f queue s) w0.state ∧
      w1.deferredFunctions secondary = [] ∧ w1.deferredFunctions primary = [] ∧
      ∀ (later queue2 : Nat) (ds es rops : List (Nat → σ → σ)) (fuel2 : Nat),
        later ≠ secondary → w0.deferredFunctions later = [] →
        ∃ w2,
          callDeferredFunctions (fuel2 + 2)
            (enqueueClosures
              (executeCommandBuffer
                (enqueueClosures (enqueueClosures w1 secondary rops) later ds)
                later secondary)
              later es)
            later queue2 = some w2 ∧
          w2.state = (ds ++ rops ++ es).foldl (fun s f => f queue2 s) w1.state := by
  have hSP : secondary ≠ primary := fun e => hne e.symm
  have hrec : ∀ (u : World σ) (cb executed : Nat) (xs ys : List (Nat → σ → σ)),
      (enqueueClosures (executeCommandBuffer (enqueueClosures u cb xs) cb executed) cb
          ys).state = u.state ∧
      ∀ c, (enqueueClosures (executeCommandBuffer (enqueueClosures u cb xs) cb executed) cb
          ys).deferredFunctions c =
        if c = cb then
          u.deferredFunctions cb ++ xs.map DeferredFunction.closure ++
            [.executeCommandBuffer executed] ++ ys.map DeferredFunction.closure
        else u.deferredFunctions c := by
    intro u cb executed xs ys
    obtain ⟨a1, a2⟩ := enqueueClosures_ledger xs cb u
    obtain ⟨b1, b2⟩ := enqueueClosures_ledger ys cb
      (executeCommandBuffer (enqueueClosures u cb xs) cb executed)
    refine ⟨?_, fun c => ?_⟩
    · rw [b1]
      exact a1
    · rw [b2 c]
      unfold executeCommandBuffer
      rw [enqueueDeferredFunction_ledger, enqueueDeferredFunction_ledger, a2 c, a2 cb]
      by_cases h : c = cb
      · simp [h]
      · simp [h]
  obtain ⟨r1, r2⟩ := hrec w0 primary secondary as bs
  obtain ⟨s1, s2⟩ := enqueueClosures_ledger cs primary
    (executeCommandBuffer
      (enqueueClosures (executeCommandBuffer (enqueueClosures w0 primary as) primary secondary)
        primary bs)
      primary secondary)
  have hvP : (enqueueClosures
      (executeCommandBuffer
        (enqueueClosures (executeCommandBuffer (enqueueClosures w0 primary as) primary secondary)
          primary bs)
        primary secondary)
      primary cs).deferredFunctions primary =
      as.map DeferredFunction.closure ++ .executeCommandBuffer secondary ::
        (bs.map DeferredFunction.closure ++ .executeCommandBuffer secondary ::
          cs.map DeferredFunction.closure) := by
    rw [s2 primary, if_pos rfl]
    unfold executeCommandBuffer
    rw [enqueueDeferredFunction_ledger, if_pos rfl]
    have := r2 primary
    unfold executeCommandBuffer at this
    rw [this, if_pos rfl, hP]
    simp
  have hvO : ∀ c, c ≠ primary → (enqueueClosures
      (executeCommandBuffer
        (enqueueClosures (executeCommandBuffer (enqueueClosures w0 primary as) primary secondary)
          primary bs)
        primary secondary)
      primary cs).deferredFunctions c = w0.deferredFunctions c := by
    intro c hc
    rw [s2 c, if_neg hc]
    unfold executeCommandBuffer
    rw [enqueueDeferredFunction_ledger, if_neg hc]
    have := r2 c
    unfold executeCommandBuffer at this
    rw [this, if_neg hc]
  have hvS := (hvO secondary hSP).trans hS
  have hvState : (enqueueClosures
      (executeCommandBuffer
        (enqueueClosures (executeCommandBuffer (enqueueClosures w0 primary as) primary secondary)
          primary bs)
        primary secondary)
      primary cs).state = w0.state := by
    rw [s1]
    exact r1
  obtain ⟨w1, h1, h2, h3⟩ := replay_executed_twice _ primary secondary queue as bs cs sops hne
    hvP hvS fuel
  refine ⟨w1, h1, by rw [h2, hvState], ?_, ?_, ?_⟩
  · rw [h3 secondary]
    simp
  · rw [h3 primary]
    simp
  · intro later queue2 ds es rops fuel2 hl hl0
    have hw1l : w1.deferredFunctions later = [] := by
      rw [h3 later]
      by_cases e : later = primary
      · simp [e]
      · rw [if_neg (by simp [e, hl]), hvO later e, hl0]
    have hw1s : w1.deferredFunctions secondary = [] := by
      rw [h3 secondary]
      simp
    obtain ⟨q1, q2⟩ := enqueueClosures_ledger rops secondary w1
    obtain ⟨p1, p2⟩ := hrec (enqueueClosures w1 secondary rops) later secondary ds es
    have hL : (enqueueClosures
        (executeCommandBuffer (enqueueClosures (enqueueClosures w1 secondary rops) later ds)
          later secondary)
        later es).deferredFunctions later =
        ds.map DeferredFunction.closure ++ .executeCommandBuffer secondary ::
          es.map DeferredFunction.closure := by
      rw [p2 later, if_pos rfl, q2 later, if_neg hl, hw1l]
      simp
    have hS2 : (enqueueClosures
        (executeCommandBuffer (enqueueClosures (enqueueClosures w1 secondary rops) later ds)
          later secondary)
        later es).deferredFunctions secondary = rops.map DeferredFunction.closure := by
      rw [p2 secondary, if_neg (fun e => hl e.symm), q2 secondary, if_pos rfl, hw1s]
      simp
    obtain ⟨w2, g1, g2⟩ := replay_executed_once _ later secondary queue2 ds es rops hL hS2 fuel2
    refine ⟨w2, g1, ?_⟩
    rw [g2, p1, q1]

/-- C30 (example): primary 1 records `pushWork(TRANSFER)` and two executions of secondary
0, which holds one `pushWork(COMPUTE)`: the replay on queue 0 leaves the COMPUTE counter at
1, not 2. Afterwards primary 2 records one more execution of secondary 0, and its replay
leaves the device state as it is. -/
theorem second_execution_applies_nothing_witness :
    ((1 : Nat) ≠ 0 ∧ oneDispatchWorld.deferredFunctions 1 = [] ∧
      oneDispatchWorld.deferredFunctions 0 =
        [fun queue env => (TrackerCall.pushWork STAGE_COMPUTE).run queue env].map
          DeferredFunction.closure) ∧
    ∃ w1,
      callDeferredFunctions (0 + 2)
        (enqueueClosures
          (executeCommandBuffer
            (enqueueClosures
              (executeCommandBuffer
                (enqueueClosures oneDispatchWorld 1
                  [fun queue env => (TrackerCall.pushWork STAGE_TRANSFER).run queue env])
                1 0)
              1 [])
            1 0)
          1 [])
        1 0 = some w1 ∧
      w1.state.indices 0 = [1, 0, 0, 1] ∧
      w1.deferredFunctions 0 = [] ∧ w1.deferredFunctions 1 = [] ∧
      ∃ w2,
        callDeferredFunctions (0 + 2)
          (enqueueClosures
            (executeCommandBuffer (enqueueClosures (enqueueClosures w1 0 []) 2 []) 2 0) 2 [])
          2 0 = some w2 ∧
        w2.state = w1.state := by
  refine ⟨⟨by decide, rfl, rfl⟩, ?_⟩
  obtain ⟨w1, h1, h2, h3, h4, h5⟩ := second_execution_applies_nothing oneDispatchWorld 1 0 0
    [fun queue env => (TrackerCall.pushWork STAGE_TRANSFER).run queue env] [] []
    [fun queue env => (TrackerCall.pushWork STAGE_COMPUTE).run queue env] 0
    (by decide) rfl rfl
  obtain ⟨w2, g1, g2⟩ := h5 2 0 [] [] [] 0 (by decide) rfl
  refine ⟨w1, h1, ?_, h3, h4, w2, g1, g2⟩
  rw [h2]
  decide


end MPD
